import Mathlib

/-!
# Verification of the reference arithmetic coder

A shallow embedding of `src/cpp/ArithmeticCoder.cpp` (Project Nayuki's
reference arithmetic coder) together with proofs about its specification.

Machine integers are modelled as `Nat` with explicit reduction modulo
`2 ^ 64` (for `uint64_t`) and `2 ^ 32` (for `uint32_t`) wherever the C++
arithmetic can wrap.  The two renormalization loops of
`ArithmeticCoderBase::update` are modelled with explicit fuel; fuel
`numStateBits + 1` per loop is proved sufficient on every in-contract state.
The direction-specific `shift`/`underflow` hooks are reified as an event
trace produced by the shared update, which the encoder and the decoder then
interpret (the encoder by appending bits to its output, the decoder by
consuming bits from its input).
-/

namespace ArithCoding

/-- `2 ^ 64`, one more than the largest `uint64_t` value. -/
def U64 : Nat := 2 ^ 64

/-- `2 ^ 32`, one more than the largest `uint32_t` value. -/
def U32 : Nat := 2 ^ 32

/-- `uint64_t` multiplication. -/
def mul64 (a b : Nat) : Nat := a * b % U64

/-- `uint64_t` addition. -/
def add64 (a b : Nat) : Nat := (a + b) % U64

/-- `uint64_t` subtraction (two's-complement wraparound). -/
def sub64 (a b : Nat) : Nat := (a + (U64 - b % U64)) % U64

/-- `uint64_t` bitwise complement. -/
def not64 (a : Nat) : Nat := (U64 - 1) ^^^ a

/-- `uint32_t` addition. -/
def add32 (a b : Nat) : Nat := (a + b) % U32

/-- `uint32_t` subtraction (two's-complement wraparound). -/
def sub32 (a b : Nat) : Nat := (a + (U32 - b % U32)) % U32

/-- `fullRange = (uint64_t) 1 << numStateBits` (constructor, line 21). -/
def fullRange (b : Nat) : Nat := 1 <<< b

/-- `halfRange = fullRange >> 1` (line 22). -/
def halfRange (b : Nat) : Nat := fullRange b >>> 1

/-- `quarterRange = halfRange >> 1` (line 23). -/
def quarterRange (b : Nat) : Nat := halfRange b >>> 1

/-- `MIN_RANGE = (fullRange >> 2) + 2` (line 24). -/
def MIN_RANGE (b : Nat) : Nat := (fullRange b >>> 2) + 2

/-- `MAX_TOTAL = min(UINT64_MAX / fullRange, MIN_RANGE)` (line 25). -/
def MAX_TOTAL (b : Nat) : Nat := min ((U64 - 1) / fullRange b) (MIN_RANGE b)

/-- `MASK = fullRange - 1` (line 26). -/
def MASK (b : Nat) : Nat := fullRange b - 1

/-- The external `FrequencyTable` interface consumed by the coder: all four
getters return `uint32_t` values. -/
structure FreqTable where
  getSymbolLimit : Nat
  getTotal : Nat
  getLow : Nat → Nat
  getHigh : Nat → Nat

/-- The section-4.1 frequency-table contract: at least one symbol, getter
values representable in `uint32_t`, `getLow 0 = 0`, `getLow` non-decreasing,
`getHigh s = getLow (s+1)`, each symbol's interval is well formed, and
`getHigh (symbolLimit - 1) = getTotal`. -/
@[reducible] def FreqTable.Valid (t : FreqTable) : Prop :=
  1 ≤ t.getSymbolLimit ∧
  t.getSymbolLimit < U32 ∧
  t.getTotal < U32 ∧
  t.getLow 0 = 0 ∧
  (∀ s, s < t.getSymbolLimit - 1 → t.getHigh s = t.getLow (s + 1)) ∧
  (∀ s, s < t.getSymbolLimit - 1 → t.getLow s ≤ t.getLow (s + 1)) ∧
  (∀ s, s < t.getSymbolLimit → t.getLow s ≤ t.getHigh s) ∧
  t.getHigh (t.getSymbolLimit - 1) = t.getTotal

/-- The errors the coder can raise, one constructor per `throw` site of
`ArithmeticCoder.cpp`. -/
inductive CoderError where
  /-- `domain_error` in the `ArithmeticCoderBase` constructor (line 19). -/
  | stateSizeOutOfRange
  /-- `logic_error` low/high state assertion in `update` (line 38). -/
  | lowHighAssert
  /-- `logic_error` range assertion in `update` (line 41). -/
  | rangeAssert
  /-- `invalid_argument` zero-frequency rejection in `update` (line 48). -/
  | zeroFrequency
  /-- `invalid_argument` total-too-large rejection (lines 50 and 87). -/
  | totalTooLarge
  /-- `logic_error` assertion after computing `value` in `read` (line 92). -/
  | valueOffsetAssert
  /-- `logic_error` assertion `value >= total` in `read` (line 94). -/
  | valueTotalAssert
  /-- `logic_error` assertion `start + 1 != end` in `read` (line 107). -/
  | searchAssert
  /-- `logic_error` offset-outside-symbol-range assertion in `read` (line 111). -/
  | symbolRangeAssert
  /-- `logic_error` code-out-of-range assertion in `read` (line 114). -/
  | codeAssert
  /-- `overflow_error` saturation throw in `ArithmeticEncoder::underflow`
  (lines 164-165): `numUnderflow` is already at the maximum of its integer
  type. -/
  | underflowOverflow
deriving DecidableEq, Repr

/-- A renormalization event: one invocation of the direction-specific
`shift`/`underflow` hook inside `ArithmeticCoderBase::update`, recorded with
the `low`/`high` values at the moment of invocation (the hooks run before
`low` and `high` are reassigned in the loop body). -/
inductive REvent where
  | shiftEv (lo hi : Nat)
  | underflowEv (lo hi : Nat)
deriving DecidableEq, Repr

/-- Guard of the first renormalization loop (line 59): the top bits of
`low` and `high` agree. -/
def shiftCond (b lo hi : Nat) : Bool := (lo ^^^ hi) &&& halfRange b == 0

/-- Guard of the second renormalization loop (line 66): the second-highest
bit of `low` is 1 and the second-highest bit of `high` is 0. -/
def underflowCond (b lo hi : Nat) : Bool := lo &&& not64 hi &&& quarterRange b != 0

/-- Body of the first renormalization loop (lines 61-62). -/
def shiftBody (b lo hi : Nat) : Nat × Nat :=
  ((lo <<< 1) &&& MASK b, ((hi <<< 1) &&& MASK b) ||| 1)

/-- Body of the second renormalization loop (lines 68-69). -/
def underflowBody (b lo hi : Nat) : Nat × Nat :=
  ((lo <<< 1) &&& (MASK b >>> 1), ((hi <<< 1) &&& (MASK b >>> 1)) ||| halfRange b ||| 1)

/-- The first (top-bit agreement) renormalization loop, with fuel. -/
def shiftLoop (b : Nat) : Nat → Nat → Nat → Nat × Nat × List REvent
  | 0, lo, hi => (lo, hi, [])
  | fuel + 1, lo, hi =>
    if shiftCond b lo hi then
      let p := shiftBody b lo hi
      let r := shiftLoop b fuel p.1 p.2
      (r.1, r.2.1, REvent.shiftEv lo hi :: r.2.2)
    else (lo, hi, [])

/-- The second (underflow) renormalization loop, with fuel. -/
def underflowLoop (b : Nat) : Nat → Nat → Nat → Nat × Nat × List REvent
  | 0, lo, hi => (lo, hi, [])
  | fuel + 1, lo, hi =>
    if underflowCond b lo hi then
      let p := underflowBody b lo hi
      let r := underflowLoop b fuel p.1 p.2
      (r.1, r.2.1, REvent.underflowEv lo hi :: r.2.2)
    else (lo, hi, [])

/-- Renormalization as `update` performs it (lines 58-70): the top-bit loop
run to exhaustion, then the underflow loop run to exhaustion.  Fuel `b + 1`
per loop is sufficient whenever `lo ≤ hi ≤ MASK b` (proved below). -/
def renorm (b lo hi : Nat) : Nat × Nat × List REvent :=
  let r1 := shiftLoop b (b + 1) lo hi
  let r2 := underflowLoop b (b + 1) r1.1 r1.2.1
  (r2.1, r2.2.1, r1.2.2 ++ r2.2.2)

/-- `ArithmeticCoderBase::update` (lines 35-71), shared by encoder and
decoder, with the hook invocations reified as the returned event trace. -/
def updateCore (b : Nat) (t : FreqTable) (symbol : Nat) (lo hi : Nat) :
    Except CoderError (Nat × Nat × List REvent) :=
  if lo ≥ hi ∨ lo &&& MASK b ≠ lo ∨ hi &&& MASK b ≠ hi then .error .lowHighAssert
  else
    let range : Nat := hi - lo + 1
    if range < MIN_RANGE b ∨ range > fullRange b then .error .rangeAssert
    else
      let total := t.getTotal
      let symLow := t.getLow symbol
      let symHigh := t.getHigh symbol
      if symLow = symHigh then .error .zeroFrequency
      else if total > MAX_TOTAL b then .error .totalTooLarge
      else
        let newLow := add64 lo (mul64 symLow range / total)
        let newHigh := sub64 (add64 lo (mul64 symHigh range / total)) 1
        .ok (renorm b newLow newHigh)

/-- The `ArithmeticEncoder` state: the inherited interval plus the deferred
underflow-bit counter and the bits written so far (oldest first; each entry
is 0 or 1).  Modelled from the spec: the concrete integer type of
`numUnderflow` is declared in the missing header `ArithmeticCoder.hpp`, so
the counter value is modelled as a `Nat`, and its representable maximum —
at which `ArithmeticEncoder::underflow` throws `overflow_error`
(lines 164-165) — as the parameter `UMAX` of the saturating forms
`encApplyEventS`/`encWriteS` below. -/
structure EncoderState where
  low : Nat
  high : Nat
  numUnderflow : Nat
  out : List Nat
deriving DecidableEq, Repr

/-- `ArithmeticEncoder::shift` (lines 153-160) and
`ArithmeticEncoder::underflow` (lines 163-167) applied to one recorded
event, acting on the pair (numUnderflow, output bits), along the
non-throwing path of `underflow`: the saturation throw at
`numUnderflow`'s representable maximum (lines 164-165) is modelled by
`encApplyEventS`, which agrees with this form whenever it does not throw
(`encFoldS_ok`). -/
def encApplyEvent (b : Nat) (s : Nat × List Nat) (e : REvent) : Nat × List Nat :=
  match e with
  | .shiftEv lo _ =>
    let bit := lo >>> (b - 1)
    (0, s.2 ++ bit :: List.replicate s.1 (bit ^^^ 1))
  | .underflowEv _ _ => (s.1 + 1, s.2)

/-- `ArithmeticEncoder::shift` (lines 153-160) and
`ArithmeticEncoder::underflow` (lines 163-167) applied to one recorded
event, including the saturation check of `underflow`: when `numUnderflow`
already equals the representable maximum of its integer type, a further
underflow throws `overflow_error` (lines 164-165).  Modelled from the
spec: the counter's concrete integer type is declared in the missing
header `ArithmeticCoder.hpp`, so its representable maximum is the
parameter `UMAX`. -/
def encApplyEventS (b UMAX : Nat) (s : Nat × List Nat) (e : REvent) :
    Except CoderError (Nat × List Nat) :=
  match e with
  | .shiftEv lo _ =>
    let bit := lo >>> (b - 1)
    .ok (0, s.2 ++ bit :: List.replicate s.1 (bit ^^^ 1))
  | .underflowEv _ _ =>
    if s.1 = UMAX then .error .underflowOverflow else .ok (s.1 + 1, s.2)

/-- `ArithmeticEncoder` construction (lines 137-140): interval `[0, MASK]`,
no deferred bits, nothing written. -/
def encInit (b : Nat) : EncoderState := ⟨0, MASK b, 0, []⟩

/-- `ArithmeticEncoder::write` (lines 143-145): delegate to `update`, then
interpret the hook events on the encoder's own state, along the
non-throwing path of the underflow hook; `encWriteS` is the full form with
the saturation throw, and agrees with this one whenever it succeeds
(`encWriteS_ok`). -/
def encWrite (b : Nat) (t : FreqTable) (symbol : Nat) (s : EncoderState) :
    Except CoderError EncoderState :=
  match updateCore b t symbol s.low s.high with
  | .error e => .error e
  | .ok (lo, hi, evs) =>
    let r := evs.foldl (encApplyEvent b) (s.numUnderflow, s.out)
    .ok ⟨lo, hi, r.1, r.2⟩

/-- `ArithmeticEncoder::write` (lines 143-145) with the saturating
underflow hook: delegate to `update`, then interpret the hook events on
the encoder's own state, failing with `overflow_error` when an underflow
occurs while `numUnderflow` is already at the representable maximum
`UMAX` of its integer type (lines 164-165). -/
def encWriteS (b UMAX : Nat) (t : FreqTable) (symbol : Nat) (s : EncoderState) :
    Except CoderError EncoderState :=
  match updateCore b t symbol s.low s.high with
  | .error e => .error e
  | .ok (lo, hi, evs) =>
    match evs.foldlM (encApplyEventS b UMAX) (s.numUnderflow, s.out) with
    | .error e => .error e
    | .ok r => .ok ⟨lo, hi, r.1, r.2⟩

/-- `ArithmeticEncoder::finish` (lines 148-150): write the single bit 1. -/
def encFinish (s : EncoderState) : EncoderState := { s with out := s.out ++ [1] }

/-- The `ArithmeticDecoder` state: the inherited interval, the `code`
window, and the number of bits consumed so far from the input stream. -/
structure DecoderState where
  low : Nat
  high : Nat
  code : Nat
  pos : Nat
deriving DecidableEq, Repr

/-- `ArithmeticDecoder::readCodeBit` (lines 129-134): read the next input
bit, treating end of stream as 0. -/
def readCodeBit (inp : List Nat) (pos : Nat) : Nat := inp.getD pos 0

/-- `ArithmeticDecoder::shift` (lines 119-121) and
`ArithmeticDecoder::underflow` (lines 124-126) applied to one recorded
event, acting on the pair (code, input position). -/
def decApplyEvent (b : Nat) (inp : List Nat) (s : Nat × Nat) (e : REvent) : Nat × Nat :=
  match e with
  | .shiftEv _ _ => (((s.1 <<< 1) &&& MASK b) ||| readCodeBit inp s.2, s.2 + 1)
  | .underflowEv _ _ =>
    ((s.1 &&& halfRange b) ||| ((s.1 <<< 1) &&& (MASK b >>> 1)) ||| readCodeBit inp s.2,
     s.2 + 1)

/-- `ArithmeticDecoder` construction (lines 74-80): prime `code` with the
first `numStateBits` input bits. -/
def decInit (b : Nat) (inp : List Nat) : DecoderState :=
  ⟨0, MASK b, (List.range b).foldl (fun c i => c <<< 1 ||| readCodeBit inp i) 0, b⟩

/-- The search loop of `ArithmeticDecoder::read` (lines 97-105), in exact
`uint32_t` arithmetic, with fuel: `none` means the fuel ran out with the
loop guard still true, i.e. the C++ loop has not exited within `fuel`
iterations.  On exit it returns the final (start, end) pair. -/
def searchLoop (t : FreqTable) (value : Nat) : Nat → Nat → Nat → Option (Nat × Nat)
  | 0, start, stop => if sub32 stop start > 1 then none else some (start, stop)
  | fuel + 1, start, stop =>
    if sub32 stop start > 1 then
      let middle := add32 start stop >>> 1
      if t.getLow middle > value then searchLoop t value fuel start middle
      else searchLoop t value fuel middle stop
    else some (start, stop)

/-- `ArithmeticDecoder::read` (lines 83-116).  The outer `Option` is `none`
exactly when the binary-search fuel runs out (the C++ loop did not exit in
that many iterations); the inner `Except` carries the thrown errors. -/
def decRead (b : Nat) (t : FreqTable) (inp : List Nat) (searchFuel : Nat)
    (s : DecoderState) : Option (Except CoderError (Nat × DecoderState)) :=
  let total := t.getTotal
  if total > MAX_TOTAL b then some (.error .totalTooLarge)
  else
    let range := add64 (sub64 s.high s.low) 1
    let offset := sub64 s.code s.low
    let value := sub64 (mul64 (add64 offset 1) total) 1 / range
    if mul64 value range / total > offset then some (.error .valueOffsetAssert)
    else if value ≥ total then some (.error .valueTotalAssert)
    else
      match searchLoop t value searchFuel 0 t.getSymbolLimit with
      | none => none
      | some (start, stop) =>
        if add32 start 1 ≠ stop then some (.error .searchAssert)
        else
          let symbol := start
          if offset < mul64 (t.getLow symbol) range / total ∨
              mul64 (t.getHigh symbol) range / total ≤ offset then
            some (.error .symbolRangeAssert)
          else
            match updateCore b t symbol s.low s.high with
            | .error e => some (.error e)
            | .ok (lo, hi, evs) =>
              let r := evs.foldl (decApplyEvent b inp) (s.code, s.pos)
              if r.1 < lo ∨ r.1 > hi then some (.error .codeAssert)
              else some (.ok (symbol, ⟨lo, hi, r.1, r.2⟩))

/-- The fields initialized by the `ArithmeticCoderBase` constructor. -/
structure CoderBaseInit where
  numStateBits : Nat
  fullRangeC : Nat
  halfRangeC : Nat
  quarterRangeC : Nat
  minRangeC : Nat
  maxTotalC : Nat
  maskC : Nat
  low : Nat
  high : Nat
deriving DecidableEq, Repr

/-- `ArithmeticCoderBase::ArithmeticCoderBase` (lines 17-29): reject state
sizes outside `[1, 63]`, otherwise derive the constants and initialize the
interval to `[0, MASK]`. -/
def mkCoderBase (stateSize : Int) : Except CoderError CoderBaseInit :=
  if stateSize < 1 ∨ stateSize > 63 then .error .stateSizeOutOfRange
  else
    let b := stateSize.toNat
    let full : Nat := 1 <<< b
    let half := full >>> 1
    let quarter := half >>> 1
    let minR := (full >>> 2) + 2
    let maxT := min ((U64 - 1) / full) minR
    let mask := full - 1
    .ok ⟨b, full, half, quarter, minR, maxT, mask, 0, mask⟩

/-- Run the encoder from a given state over a list of symbols, one
`Encoder.write` per symbol. -/
def encSteps (b : Nat) (t : FreqTable) (syms : List Nat) (s : EncoderState) :
    Except CoderError EncoderState :=
  syms.foldlM (fun s sym => encWrite b t sym s) s

/-- Encode a symbol list: a fresh encoder, one `write` per symbol, then
`finish` (non-throwing underflow hook; see `encodeSeqS` for the saturating
form). -/
def encodeSeq (b : Nat) (t : FreqTable) (syms : List Nat) :
    Except CoderError EncoderState :=
  match encSteps b t syms (encInit b) with
  | .error e => .error e
  | .ok s => .ok (encFinish s)

/-- Run the encoder with the saturating underflow hook from a given state
over a list of symbols, one `Encoder.write` per symbol. -/
def encStepsS (b UMAX : Nat) (t : FreqTable) (syms : List Nat) (s : EncoderState) :
    Except CoderError EncoderState :=
  syms.foldlM (fun s sym => encWriteS b UMAX t sym s) s

/-- Encode a symbol list with the saturating underflow hook: a fresh
encoder, one `write` per symbol, then `finish`. -/
def encodeSeqS (b UMAX : Nat) (t : FreqTable) (syms : List Nat) :
    Except CoderError EncoderState :=
  match encStepsS b UMAX t syms (encInit b) with
  | .error e => .error e
  | .ok s => .ok (encFinish s)

/-- Run `n` decoder reads, collecting the decoded symbols. -/
def decReadN (b : Nat) (t : FreqTable) (inp : List Nat) (searchFuel : Nat) :
    Nat → DecoderState → Option (Except CoderError (List Nat × DecoderState))
  | 0, s => some (.ok ([], s))
  | n + 1, s =>
    match decRead b t inp searchFuel s with
    | none => none
    | some (.error e) => some (.error e)
    | some (.ok (sym, s1)) =>
      match decReadN b t inp searchFuel n s1 with
      | none => none
      | some (.error e) => some (.error e)
      | some (.ok (syms, s2)) => some (.ok (sym :: syms, s2))

/-! ## Arithmetic facts about the derived constants -/

theorem fullRange_eq (b : Nat) : fullRange b = 2 ^ b := by
  simp [fullRange, Nat.shiftLeft_eq]

theorem halfRange_eq {b : Nat} (hb : 1 ≤ b) : halfRange b = 2 ^ (b - 1) := by
  obtain ⟨n, rfl⟩ := Nat.exists_eq_add_of_le hb
  simp [halfRange, fullRange_eq, Nat.shiftRight_eq_div_pow, pow_succ, Nat.add_comm 1 n,
    Nat.mul_div_cancel]

theorem two_halfRange {b : Nat} (hb : 1 ≤ b) : 2 * halfRange b = fullRange b := by
  obtain ⟨n, rfl⟩ := Nat.exists_eq_add_of_le hb
  rw [halfRange_eq hb, fullRange_eq]
  simp [pow_succ, Nat.add_comm 1 n, Nat.mul_comm]

theorem quarterRange_eq (b : Nat) : quarterRange b = 2 ^ b / 4 := by
  simp [quarterRange, halfRange, fullRange_eq, Nat.shiftRight_eq_div_pow,
    Nat.div_div_eq_div_mul]

theorem quarterRange_two_le {b : Nat} (hb : 2 ≤ b) : quarterRange b = 2 ^ (b - 2) := by
  obtain ⟨n, rfl⟩ := Nat.exists_eq_add_of_le hb
  rw [quarterRange_eq]
  simp [pow_add, Nat.mul_comm, Nat.mul_div_cancel]

theorem two_quarterRange {b : Nat} (hb : 2 ≤ b) : 2 * quarterRange b = halfRange b := by
  obtain ⟨n, rfl⟩ := Nat.exists_eq_add_of_le hb
  rw [quarterRange_two_le hb, halfRange_eq (by omega)]
  have h1 : 2 + n - 1 = n + 1 := by omega
  have h2 : 2 + n - 2 = n := by omega
  rw [h1, h2, pow_succ, Nat.mul_comm]

theorem quarterRange_one : quarterRange 1 = 0 := by decide

theorem MASK_eq (b : Nat) : MASK b = 2 ^ b - 1 := by
  simp [MASK, fullRange_eq]

theorem MASK_shiftRight {b : Nat} (hb : 1 ≤ b) : MASK b >>> 1 = 2 ^ (b - 1) - 1 := by
  obtain ⟨n, rfl⟩ := Nat.exists_eq_add_of_le hb
  rw [MASK_eq, Nat.shiftRight_eq_div_pow]
  have : (2 : Nat) ^ (1 + n) = 2 ^ n * 2 := by rw [Nat.add_comm, pow_succ]
  rw [this]
  simp [pow_one]
  omega

theorem MIN_RANGE_eq (b : Nat) : MIN_RANGE b = quarterRange b + 2 := by
  simp [MIN_RANGE, quarterRange, halfRange, fullRange_eq, Nat.shiftRight_eq_div_pow,
    Nat.div_div_eq_div_mul]

theorem MAX_TOTAL_le_MIN_RANGE (b : Nat) : MAX_TOTAL b ≤ MIN_RANGE b :=
  Nat.min_le_right _ _

theorem MAX_TOTAL_mul_fullRange_le (b : Nat) : MAX_TOTAL b * fullRange b ≤ U64 - 1 :=
  le_trans (Nat.mul_le_mul_right _ (Nat.min_le_left _ _)) (Nat.div_mul_le_self _ _)

theorem fullRange_le {b : Nat} (hb : b ≤ 63) : fullRange b ≤ 2 ^ 63 := by
  rw [fullRange_eq]
  exact Nat.pow_le_pow_right (by norm_num) hb

theorem fullRange_pos (b : Nat) : 0 < fullRange b := by
  rw [fullRange_eq]; positivity

theorem MAX_TOTAL_pos {b : Nat} (hb : b ≤ 63) : 1 ≤ MAX_TOTAL b := by
  have h1 : 1 ≤ (U64 - 1) / fullRange b := by
    rw [Nat.le_div_iff_mul_le (fullRange_pos b), one_mul]
    calc fullRange b ≤ 2 ^ 63 := fullRange_le hb
    _ ≤ U64 - 1 := by norm_num [U64]
  have h2 : 1 ≤ MIN_RANGE b := by rw [MIN_RANGE_eq]; omega
  exact le_min h1 h2

/-! ## Bitwise-to-arithmetic bridge lemmas -/

theorem and_mask_eq_mod (x : Nat) (b : Nat) : x &&& MASK b = x % 2 ^ b := by
  rw [MASK_eq, Nat.and_pow_two_sub_one_eq_mod]

theorem or_one_of_even {x : Nat} (h : x % 2 = 0) : x ||| 1 = x + 1 := by
  have key := Nat.lor_bit false (x / 2) true 0
  rw [Nat.or_zero] at key
  simp only [Bool.false_or, Nat.bit_false, Nat.bit_true] at key
  norm_num at key
  have hx : 2 * (x / 2) = x := by omega
  rw [hx] at key
  omega

theorem testBit_eq_one_iff {x i : Nat} : x.testBit i = true ↔ x / 2 ^ i % 2 = 1 := by
  rw [Nat.testBit_to_div_mod]
  exact decide_eq_true_iff

theorem or_two_pow_of_lt {z i : Nat} (h : z < 2 ^ i) : z ||| 2 ^ i = z + 2 ^ i := by
  apply Nat.eq_of_testBit_eq
  intro j
  rcases lt_trichotomy j i with hj | rfl | hj
  · have hdiv : (z + 2 ^ i) / 2 ^ j = z / 2 ^ j + 2 ^ (i - j) := by
      have h5 : (2 : Nat) ^ i = 2 ^ (i - j) * 2 ^ j := by
        rw [← pow_add]; congr 1; omega
      rw [h5, Nat.add_mul_div_right _ _ (Nat.two_pow_pos j)]
    have heven : 2 ^ (i - j) % 2 = 0 := by
      have h6 : i - j = (i - j - 1) + 1 := by omega
      rw [h6, pow_succ]; omega
    rw [Nat.testBit_lor, Nat.testBit_two_pow]
    have hne : ¬ (i = j) := by omega
    simp only [hne, decide_False, Bool.or_false]
    rw [Nat.testBit_to_div_mod, Nat.testBit_to_div_mod, hdiv]
    have hiff : z / 2 ^ j % 2 = 1 ↔ (z / 2 ^ j + 2 ^ (i - j)) % 2 = 1 := by omega
    exact decide_eq_decide.mpr hiff
  · rw [Nat.testBit_lor, Nat.testBit_two_pow]
    simp only [decide_True, Bool.or_true]
    symm
    rw [testBit_eq_one_iff]
    have h7 : (z + 2 ^ j) / 2 ^ j = 1 := by
      rw [Nat.add_div_right _ (Nat.two_pow_pos j), Nat.div_eq_of_lt h]
    rw [h7]
  · have h1 : z + 2 ^ i < 2 ^ j := by
      have h8 : (2 : Nat) ^ (i + 1) ≤ 2 ^ j := Nat.pow_le_pow_right (by norm_num) (by omega)
      rw [pow_succ] at h8
      omega
    rw [Nat.testBit_lor, Nat.testBit_two_pow,
      Nat.testBit_eq_false_of_lt (lt_trans h (Nat.pow_lt_pow_right (by norm_num) hj)),
      Nat.testBit_eq_false_of_lt h1]
    have hne : ¬ (i = j) := by omega
    simp [hne]

theorem div_half_lt_two {b x : Nat} (hb : 1 ≤ b) (hx : x < 2 ^ b) :
    x / 2 ^ (b - 1) < 2 := by
  have h : (2 : Nat) ^ b = 2 * 2 ^ (b - 1) := by
    rw [← pow_succ']
    congr 1
    omega
  rw [Nat.div_lt_iff_lt_mul (Nat.two_pow_pos _)]
  omega

theorem shiftCond_iff {b lo hi : Nat} (hb : 1 ≤ b) (hlo : lo < 2 ^ b) (hhi : hi < 2 ^ b) :
    shiftCond b lo hi = true ↔ lo / 2 ^ (b - 1) = hi / 2 ^ (b - 1) := by
  have hlo2 := div_half_lt_two hb hlo
  have hhi2 := div_half_lt_two hb hhi
  have hq : (0 : Nat) < 2 ^ (b - 1) := Nat.two_pow_pos _
  rw [shiftCond, halfRange_eq hb, beq_iff_eq, Nat.and_two_pow]
  constructor
  · intro h
    have hbit : (lo ^^^ hi).testBit (b - 1) = false := by
      rcases Bool.eq_false_or_eq_true ((lo ^^^ hi).testBit (b - 1)) with ht | hf
      · rw [ht] at h
        simp only [Bool.toNat_true, one_mul] at h
        omega
      · exact hf
    rw [Nat.testBit_xor] at hbit
    have heq : lo.testBit (b - 1) = hi.testBit (b - 1) := by
      rcases Bool.eq_false_or_eq_true (lo.testBit (b - 1)) with h1 | h1 <;>
        rcases Bool.eq_false_or_eq_true (hi.testBit (b - 1)) with h2 | h2 <;>
          simp [h1, h2] at hbit ⊢
    rcases Bool.eq_false_or_eq_true (lo.testBit (b - 1)) with h1 | h1
    · have h2 : hi.testBit (b - 1) = true := by rw [← heq, h1]
      rw [testBit_eq_one_iff] at h1 h2
      rw [Nat.mod_eq_of_lt hlo2] at h1
      rw [Nat.mod_eq_of_lt hhi2] at h2
      rw [h1, h2]
    · have h2 : hi.testBit (b - 1) = false := by rw [← heq, h1]
      rw [Nat.testBit_to_div_mod] at h1 h2
      have h1' := of_decide_eq_false h1
      have h2' := of_decide_eq_false h2
      rw [Nat.mod_eq_of_lt hlo2] at h1'
      rw [Nat.mod_eq_of_lt hhi2] at h2'
      have e1 : lo / 2 ^ (b - 1) = 0 := by
        rcases Nat.le_one_iff_eq_zero_or_eq_one.mp (Nat.lt_succ_iff.mp hlo2) with h0 | h0
        · exact h0
        · exact absurd h0 h1'
      have e2 : hi / 2 ^ (b - 1) = 0 := by
        rcases Nat.le_one_iff_eq_zero_or_eq_one.mp (Nat.lt_succ_iff.mp hhi2) with h0 | h0
        · exact h0
        · exact absurd h0 h2'
      rw [e1, e2]
  · intro h
    have hbit : (lo ^^^ hi).testBit (b - 1) = false := by
      rw [Nat.testBit_xor, Nat.testBit_to_div_mod, Nat.testBit_to_div_mod, h]
      simp
    rw [hbit]
    simp

theorem underflowCond_iff {b lo hi : Nat} (hb : 2 ≤ b) (hb63 : b ≤ 63) :
    underflowCond b lo hi = true ↔
      lo / 2 ^ (b - 2) % 2 = 1 ∧ hi / 2 ^ (b - 2) % 2 = 0 := by
  rw [underflowCond, quarterRange_two_le hb, bne_iff_ne, Nat.and_two_pow]
  have hq : (0 : Nat) < 2 ^ (b - 2) := Nat.two_pow_pos _
  have hnot : (not64 hi).testBit (b - 2) = ! hi.testBit (b - 2) := by
    rw [not64, U64, Nat.testBit_xor, Nat.testBit_two_pow_sub_one]
    have hlt : b - 2 < 64 := by omega
    simp [hlt]
  constructor
  · intro h
    have hbit : (lo &&& not64 hi).testBit (b - 2) = true := by
      rcases Bool.eq_false_or_eq_true ((lo &&& not64 hi).testBit (b - 2)) with ht | hf
      · exact ht
      · rw [hf] at h; simp at h
    rw [Nat.testBit_land, hnot, Bool.and_eq_true, Bool.not_eq_true'] at hbit
    obtain ⟨h1, h2⟩ := hbit
    rw [testBit_eq_one_iff] at h1
    rw [Nat.testBit_to_div_mod] at h2
    have h2' := of_decide_eq_false h2
    exact ⟨h1, by omega⟩
  · intro h
    obtain ⟨h1, h2⟩ := h
    have hbit : (lo &&& not64 hi).testBit (b - 2) = true := by
      rw [Nat.testBit_land, hnot, Bool.and_eq_true, Bool.not_eq_true']
      refine ⟨testBit_eq_one_iff.mpr h1, ?_⟩
      rw [Nat.testBit_to_div_mod]
      simp only [decide_eq_false_iff_not]
      omega
    rw [hbit]
    simp only [Bool.toNat_true, one_mul]
    omega

theorem underflowCond_one (lo hi : Nat) : underflowCond 1 lo hi = false := by
  have hq : quarterRange 1 = 0 := quarterRange_one
  rw [underflowCond, hq]
  simp

theorem shiftBody_eq {b : Nat} (hb : 1 ≤ b) (lo hi : Nat) :
    shiftBody b lo hi = (2 * lo % 2 ^ b, 2 * hi % 2 ^ b + 1) := by
  have h2 : (2 : Nat) ^ b = 2 * 2 ^ (b - 1) := by
    rw [← pow_succ']
    congr 1
    omega
  have heven : 2 * hi % 2 ^ b % 2 = 0 := by
    rw [h2, Nat.mul_mod_mul_left]
    omega
  rw [shiftBody, and_mask_eq_mod, and_mask_eq_mod, Nat.shiftLeft_eq, Nat.shiftLeft_eq,
    pow_one, Nat.mul_comm lo 2, Nat.mul_comm hi 2, or_one_of_even heven]

theorem underflowBody_eq {b : Nat} (hb : 2 ≤ b) (lo hi : Nat) :
    underflowBody b lo hi =
      (2 * lo % 2 ^ (b - 1), 2 * hi % 2 ^ (b - 1) + 2 ^ (b - 1) + 1) := by
  have hmod : ∀ x : Nat, (x <<< 1) &&& (MASK b >>> 1) = 2 * x % 2 ^ (b - 1) := by
    intro x
    rw [Nat.shiftLeft_eq, pow_one, MASK_shiftRight (by omega),
      Nat.and_pow_two_sub_one_eq_mod, Nat.mul_comm]
  have hsplit : (2 : Nat) ^ (b - 1) = 2 * 2 ^ (b - 2) := by
    rw [← pow_succ']
    congr 1
    omega
  have hlt : 2 * hi % 2 ^ (b - 1) < 2 ^ (b - 1) :=
    Nat.mod_lt _ (Nat.two_pow_pos _)
  have heven : (2 * hi % 2 ^ (b - 1) + 2 ^ (b - 1)) % 2 = 0 := by
    have h1 : 2 * hi % 2 ^ (b - 1) % 2 = 0 := by
      rw [hsplit, Nat.mul_mod_mul_left]
      omega
    omega
  rw [underflowBody, hmod, hmod, halfRange_eq (by omega),
    or_two_pow_of_lt hlt, or_one_of_even heven]

/-! ## State invariants -/

/-- The interval invariant from the spec's data model (section 3):
`0 ≤ low < high ≤ mask` and `minRange ≤ high - low + 1 ≤ fullRange`. -/
def StateInv (b lo hi : Nat) : Prop :=
  lo < hi ∧ hi ≤ MASK b ∧ MIN_RANGE b ≤ hi - lo + 1 ∧ hi - lo + 1 ≤ fullRange b

/-- The strengthened invariant actually maintained between completed
operations: `StateInv` together with top-bit disagreement (the first
renormalization loop has been run to exhaustion). -/
def PostInv (b lo hi : Nat) : Prop := StateInv b lo hi ∧ shiftCond b lo hi = false

/-! ## Renormalization loop lemmas -/

theorem div_eq_of_between {x m k : Nat} (h1 : k * m ≤ x) (h2 : x < (k + 1) * m) :
    x / m = k := by
  have hm : 0 < m := by
    rcases Nat.eq_zero_or_pos m with h | h
    · subst h; omega
    · exact h
  have hle : k ≤ x / m := (Nat.le_div_iff_mul_le hm).mpr h1
  have hlt : x / m < k + 1 := Nat.div_lt_of_lt_mul (by rw [Nat.mul_comm]; exact h2)
  omega

theorem two_mul_mod_two_pow {b x : Nat} (hb : 1 ≤ b) :
    2 * x % 2 ^ b = 2 * (x % 2 ^ (b - 1)) := by
  have h : (2 : Nat) ^ b = 2 * 2 ^ (b - 1) := by
    rw [← pow_succ']
    congr 1
    omega
  rw [h, Nat.mul_mod_mul_left]

/-- Exact arithmetic effect of one iteration of the top-bit loop: either
both top bits are 0 or both are 1. -/
theorem shiftStep_vals {b lo hi : Nat} (hb : 1 ≤ b) (hlohi : lo ≤ hi)
    (hhi : hi < 2 ^ b) (hc : shiftCond b lo hi = true) :
    (lo < 2 ^ (b - 1) ∧ hi < 2 ^ (b - 1) ∧
      shiftBody b lo hi = (2 * lo, 2 * hi + 1)) ∨
    (2 ^ (b - 1) ≤ lo ∧ 2 ^ (b - 1) ≤ hi ∧
      shiftBody b lo hi = (2 * lo - 2 ^ b, 2 * hi - 2 ^ b + 1)) := by
  have hlo : lo < 2 ^ b := lt_of_le_of_lt hlohi hhi
  have hsplit : (2 : Nat) ^ b = 2 * 2 ^ (b - 1) := by
    rw [← pow_succ']
    congr 1
    omega
  have hq : (0 : Nat) < 2 ^ (b - 1) := Nat.two_pow_pos _
  have hteq := (shiftCond_iff hb hlo hhi).mp hc
  have hlo2 := div_half_lt_two hb hlo
  have hdm_lo := Nat.div_add_mod lo (2 ^ (b - 1))
  have hdm_hi := Nat.div_add_mod hi (2 ^ (b - 1))
  have hm_lo : lo % 2 ^ (b - 1) < 2 ^ (b - 1) := Nat.mod_lt _ hq
  have hm_hi : hi % 2 ^ (b - 1) < 2 ^ (b - 1) := Nat.mod_lt _ hq
  have hbody := shiftBody_eq hb lo hi
  rw [two_mul_mod_two_pow hb, two_mul_mod_two_pow hb] at hbody
  have ht01 : lo / 2 ^ (b - 1) = 0 ∨ lo / 2 ^ (b - 1) = 1 :=
    Nat.le_one_iff_eq_zero_or_eq_one.mp (Nat.lt_succ_iff.mp hlo2)
  rcases ht01 with ht | ht
  · left
    rw [ht, Nat.mul_zero, Nat.zero_add] at hdm_lo
    rw [← hteq, ht, Nat.mul_zero, Nat.zero_add] at hdm_hi
    have hlo_lt : lo < 2 ^ (b - 1) := by rw [← hdm_lo]; exact hm_lo
    have hhi_lt : hi < 2 ^ (b - 1) := by rw [← hdm_hi]; exact hm_hi
    exact ⟨hlo_lt, hhi_lt, by rw [hbody, hdm_lo, hdm_hi]⟩
  · right
    rw [ht, Nat.mul_one] at hdm_lo
    rw [← hteq, ht, Nat.mul_one] at hdm_hi
    refine ⟨Nat.le.intro hdm_lo, Nat.le.intro hdm_hi, ?_⟩
    rw [hbody, Prod.mk.injEq]
    constructor
    · rw [hsplit]
      revert hdm_lo
      generalize lo % 2 ^ (b - 1) = r
      intro hdm_lo
      omega
    · rw [hsplit]
      revert hdm_hi
      generalize hi % 2 ^ (b - 1) = r
      intro hdm_hi
      omega

/-- When the top bits disagree and `lo ≤ hi`, the top bit of `lo` is 0 and
that of `hi` is 1. -/
theorem top_bits_split {b lo hi : Nat} (hb : 1 ≤ b) (hlohi : lo ≤ hi)
    (hhi : hi < 2 ^ b) (hs : shiftCond b lo hi = false) :
    lo < 2 ^ (b - 1) ∧ 2 ^ (b - 1) ≤ hi := by
  have hlo : lo < 2 ^ b := lt_of_le_of_lt hlohi hhi
  have hlo2 := div_half_lt_two hb hlo
  have hhi2 := div_half_lt_two hb hhi
  have hne : ¬ (lo / 2 ^ (b - 1) = hi / 2 ^ (b - 1)) := by
    intro heq
    rw [(shiftCond_iff hb hlo hhi).mpr heq] at hs
    exact absurd hs (by simp)
  have hmono : lo / 2 ^ (b - 1) ≤ hi / 2 ^ (b - 1) := Nat.div_le_div_right hlohi
  have hl0 : lo / 2 ^ (b - 1) = 0 := by
    rcases Nat.le_one_iff_eq_zero_or_eq_one.mp (Nat.lt_succ_iff.mp hlo2) with h | h
    · exact h
    · rcases Nat.le_one_iff_eq_zero_or_eq_one.mp (Nat.lt_succ_iff.mp hhi2) with h2 | h2
      · rw [h, h2] at hmono; omega
      · rw [h, h2] at hne; simp at hne
  have hh1 : hi / 2 ^ (b - 1) = 1 := by
    rcases Nat.le_one_iff_eq_zero_or_eq_one.mp (Nat.lt_succ_iff.mp hhi2) with h2 | h2
    · rw [hl0, h2] at hne; simp at hne
    · exact h2
  constructor
  · have hdm := Nat.div_add_mod lo (2 ^ (b - 1))
    have hm : lo % 2 ^ (b - 1) < 2 ^ (b - 1) := Nat.mod_lt _ (Nat.two_pow_pos _)
    rw [hl0, Nat.mul_zero, Nat.zero_add] at hdm
    rw [← hdm]
    exact hm
  · have hdm := Nat.div_add_mod hi (2 ^ (b - 1))
    rw [hh1, Nat.mul_one] at hdm
    exact Nat.le.intro hdm

/-- Exact arithmetic effect of one iteration of the underflow loop (the top
bits must already disagree; degenerate at `b = 1` where the loop never
runs). -/
theorem underflowStep_vals {b lo hi : Nat} (hb63 : b ≤ 63) (hb : 1 ≤ b)
    (hlohi : lo ≤ hi) (hhi : hi < 2 ^ b) (hs : shiftCond b lo hi = false)
    (hc : underflowCond b lo hi = true) :
    2 ≤ b ∧
    2 ^ (b - 2) ≤ lo ∧ lo < 2 * 2 ^ (b - 2) ∧
    2 * 2 ^ (b - 2) ≤ hi ∧ hi < 3 * 2 ^ (b - 2) ∧
    underflowBody b lo hi = (2 * lo - 2 ^ (b - 1), 2 * hi - 2 ^ (b - 1) + 1) := by
  have hb2 : 2 ≤ b := by
    by_contra hlt
    have hb1 : b = 1 := by omega
    subst hb1
    rw [underflowCond_one] at hc
    exact absurd hc (by simp)
  have hlo : lo < 2 ^ b := lt_of_le_of_lt hlohi hhi
  have hq : (0 : Nat) < 2 ^ (b - 2) := Nat.two_pow_pos _
  have hh2q : (2 : Nat) ^ (b - 1) = 2 * 2 ^ (b - 2) := by
    rw [← pow_succ']
    congr 1
    omega
  have hf4q : (2 : Nat) ^ b = 2 * 2 ^ (b - 1) := by
    rw [← pow_succ']
    congr 1
    omega
  obtain ⟨hc1, hc2⟩ := (underflowCond_iff hb2 hb63).mp hc
  obtain ⟨hlo_lt_half, hhalf_le_hi⟩ := top_bits_split hb hlohi hhi hs
  -- locate lo in [q, 2q)
  have hloq : lo / 2 ^ (b - 2) = 1 := by
    have hlt2 : lo / 2 ^ (b - 2) < 2 := by
      rw [Nat.div_lt_iff_lt_mul hq]
      omega
    rw [Nat.mod_eq_of_lt hlt2] at hc1
    exact hc1
  have hloq_bounds : 2 ^ (b - 2) ≤ lo ∧ lo < 2 * 2 ^ (b - 2) := by
    have hdm := Nat.div_add_mod lo (2 ^ (b - 2))
    have hm : lo % 2 ^ (b - 2) < 2 ^ (b - 2) := Nat.mod_lt _ hq
    rw [hloq, Nat.mul_one] at hdm
    revert hdm hm
    generalize lo % 2 ^ (b - 2) = r
    intro hdm hm
    omega
  -- locate hi in [2q, 3q)
  have hhiq : hi / 2 ^ (b - 2) = 2 := by
    have hge : 2 ≤ hi / 2 ^ (b - 2) := by
      rw [Nat.le_div_iff_mul_le hq]
      omega
    have hlt4 : hi / 2 ^ (b - 2) < 4 := by
      rw [Nat.div_lt_iff_lt_mul hq]
      omega
    revert hc2 hge hlt4
    generalize hi / 2 ^ (b - 2) = v
    intro hc2 hge hlt4
    omega
  have hhiq_bounds : 2 * 2 ^ (b - 2) ≤ hi ∧ hi < 3 * 2 ^ (b - 2) := by
    have hdm := Nat.div_add_mod hi (2 ^ (b - 2))
    have hm : hi % 2 ^ (b - 2) < 2 ^ (b - 2) := Nat.mod_lt _ hq
    revert hdm hm
    rw [hhiq]
    generalize hi % 2 ^ (b - 2) = r
    intro hdm hm
    omega
  refine ⟨hb2, hloq_bounds.1, hloq_bounds.2, hhiq_bounds.1, hhiq_bounds.2, ?_⟩
  rw [underflowBody_eq hb2]
  have e1 : 2 * lo / 2 ^ (b - 1) = 1 :=
    div_eq_of_between (by rw [hh2q]; omega) (by rw [hh2q]; omega)
  have e2 : 2 * hi / 2 ^ (b - 1) = 2 :=
    div_eq_of_between (by rw [hh2q]; omega) (by rw [hh2q]; omega)
  have m1 := Nat.div_add_mod (2 * lo) (2 ^ (b - 1))
  have m2 := Nat.div_add_mod (2 * hi) (2 ^ (b - 1))
  rw [e1, Nat.mul_one] at m1
  rw [e2] at m2
  rw [Prod.mk.injEq]
  constructor
  · revert m1
    generalize 2 * lo % 2 ^ (b - 1) = r
    intro m1
    omega
  · revert m2
    generalize 2 * hi % 2 ^ (b - 1) = r
    intro m2
    rw [hh2q] at m2 ⊢
    omega

theorem shiftLoop_zero (b lo hi : Nat) : shiftLoop b 0 lo hi = (lo, hi, []) := rfl

theorem shiftLoop_succ_true {b f lo hi : Nat} (hc : shiftCond b lo hi = true) :
    shiftLoop b (f + 1) lo hi =
      ((shiftLoop b f (shiftBody b lo hi).1 (shiftBody b lo hi).2).1,
       (shiftLoop b f (shiftBody b lo hi).1 (shiftBody b lo hi).2).2.1,
       REvent.shiftEv lo hi ::
         (shiftLoop b f (shiftBody b lo hi).1 (shiftBody b lo hi).2).2.2) := by
  simp [shiftLoop, hc]

theorem shiftLoop_succ_false {b f lo hi : Nat} (hc : shiftCond b lo hi = false) :
    shiftLoop b (f + 1) lo hi = (lo, hi, []) := by
  simp [shiftLoop, hc]

theorem underflowLoop_zero (b lo hi : Nat) : underflowLoop b 0 lo hi = (lo, hi, []) := rfl

theorem underflowLoop_succ_true {b f lo hi : Nat} (hc : underflowCond b lo hi = true) :
    underflowLoop b (f + 1) lo hi =
      ((underflowLoop b f (underflowBody b lo hi).1 (underflowBody b lo hi).2).1,
       (underflowLoop b f (underflowBody b lo hi).1 (underflowBody b lo hi).2).2.1,
       REvent.underflowEv lo hi ::
         (underflowLoop b f (underflowBody b lo hi).1 (underflowBody b lo hi).2).2.2) := by
  simp [underflowLoop, hc]

theorem underflowLoop_succ_false {b f lo hi : Nat} (hc : underflowCond b lo hi = false) :
    underflowLoop b (f + 1) lo hi = (lo, hi, []) := by
  simp [underflowLoop, hc]

theorem shiftCond_false_of_split {b lo hi : Nat} (hb : 1 ≤ b) (hlo : lo < 2 ^ (b - 1))
    (hhi1 : 2 ^ (b - 1) ≤ hi) (hhi : hi < 2 ^ b) : shiftCond b lo hi = false := by
  rcases Bool.eq_false_or_eq_true (shiftCond b lo hi) with ht | hf
  · exfalso
    have heq := (shiftCond_iff hb (by omega) hhi).mp ht
    rw [Nat.div_eq_of_lt hlo] at heq
    have h1 : 1 ≤ hi / 2 ^ (b - 1) :=
      (Nat.one_le_div_iff (Nat.two_pow_pos _)).mpr hhi1
    omega
  · exact hf

theorem underflowCond_false_of_lo {b lo hi : Nat} (hb : 1 ≤ b) (hb63 : b ≤ 63)
    (hlo : lo < 2 ^ (b - 2)) : underflowCond b lo hi = false := by
  rcases Nat.lt_or_ge b 2 with hb1 | hb2
  · have : b = 1 := by omega
    subst this
    exact underflowCond_one lo hi
  · rcases Bool.eq_false_or_eq_true (underflowCond b lo hi) with ht | hf
    · exfalso
      obtain ⟨h1, _⟩ := (underflowCond_iff hb2 hb63).mp ht
      rw [Nat.div_eq_of_lt hlo] at h1
      simp at h1
    · exact hf

/-- The top-bit loop with fuel `f` exhausts its guard whenever
`2^b ≤ 2^f * (hi - lo + 1)`; the interval stays well formed. -/
theorem shiftLoop_spec {b : Nat} (hb : 1 ≤ b) :
    ∀ f lo hi, lo ≤ hi → hi < 2 ^ b → 2 ^ b ≤ 2 ^ f * (hi - lo + 1) →
    shiftCond b (shiftLoop b f lo hi).1 (shiftLoop b f lo hi).2.1 = false ∧
    (shiftLoop b f lo hi).1 ≤ (shiftLoop b f lo hi).2.1 ∧
    (shiftLoop b f lo hi).2.1 < 2 ^ b := by
  intro f
  induction f with
  | zero =>
    intro lo hi hlohi hhi hfuel
    rw [shiftLoop_zero]
    have hsplit : (2 : Nat) ^ b = 2 * 2 ^ (b - 1) := by
      rw [← pow_succ']; congr 1; omega
    have hhalf : (0 : Nat) < 2 ^ (b - 1) := Nat.two_pow_pos _
    rw [pow_zero, one_mul] at hfuel
    have hlo0 : lo = 0 := by omega
    have hhieq : hi = 2 ^ b - 1 := by omega
    refine ⟨?_, hlohi, hhi⟩
    show shiftCond b lo hi = false
    refine shiftCond_false_of_split hb ?_ ?_ hhi
    · omega
    · omega
  | succ f ih =>
    intro lo hi hlohi hhi hfuel
    rcases Bool.eq_false_or_eq_true (shiftCond b lo hi) with hc | hc
    · rw [shiftLoop_succ_true hc]
      have hstep := shiftStep_vals hb hlohi hhi hc
      have hsplit : (2 : Nat) ^ b = 2 * 2 ^ (b - 1) := by
        rw [← pow_succ']; congr 1; omega
      have hfuel2 : 2 ^ b ≤ 2 ^ f * ((shiftBody b lo hi).2 - (shiftBody b lo hi).1 + 1) := by
        have hgrow : (shiftBody b lo hi).2 - (shiftBody b lo hi).1 + 1
            = 2 * (hi - lo + 1) := by
          rcases hstep with ⟨h1, h2, h3⟩ | ⟨h1, h2, h3⟩ <;> rw [h3] <;> omega
        rw [hgrow]
        calc (2 : Nat) ^ b ≤ 2 ^ (f + 1) * (hi - lo + 1) := hfuel
        _ = 2 ^ f * (2 * (hi - lo + 1)) := by ring
      have hle : (shiftBody b lo hi).1 ≤ (shiftBody b lo hi).2 := by
        rcases hstep with ⟨h1, h2, h3⟩ | ⟨h1, h2, h3⟩ <;> rw [h3] <;> omega
      have hlt : (shiftBody b lo hi).2 < 2 ^ b := by
        rcases hstep with ⟨h1, h2, h3⟩ | ⟨h1, h2, h3⟩ <;> rw [h3] <;> omega
      exact ih (shiftBody b lo hi).1 (shiftBody b lo hi).2 hle hlt hfuel2
    · rw [shiftLoop_succ_false hc]
      exact ⟨hc, hlohi, hhi⟩

/-- The underflow loop with fuel `f` exhausts its guard whenever
`2^b ≤ 2^f * (hi - lo + 1)`, preserving top-bit disagreement and the
interval's well-formedness. -/
theorem underflowLoop_spec {b : Nat} (hb : 1 ≤ b) (hb63 : b ≤ 63) :
    ∀ f lo hi, lo ≤ hi → hi < 2 ^ b → shiftCond b lo hi = false →
    2 ^ b ≤ 2 ^ f * (hi - lo + 1) →
    underflowCond b (underflowLoop b f lo hi).1 (underflowLoop b f lo hi).2.1 = false ∧
    shiftCond b (underflowLoop b f lo hi).1 (underflowLoop b f lo hi).2.1 = false ∧
    (underflowLoop b f lo hi).1 ≤ (underflowLoop b f lo hi).2.1 ∧
    (underflowLoop b f lo hi).2.1 < 2 ^ b := by
  intro f
  induction f with
  | zero =>
    intro lo hi hlohi hhi hs hfuel
    rw [underflowLoop_zero]
    rw [pow_zero, one_mul] at hfuel
    have hlo0 : lo = 0 := by omega
    have hq : (0 : Nat) < 2 ^ (b - 2) := Nat.two_pow_pos _
    refine ⟨?_, hs, hlohi, hhi⟩
    show underflowCond b lo hi = false
    exact underflowCond_false_of_lo hb hb63 (by omega)
  | succ f ih =>
    intro lo hi hlohi hhi hs hfuel
    rcases Bool.eq_false_or_eq_true (underflowCond b lo hi) with hc | hc
    · rw [underflowLoop_succ_true hc]
      obtain ⟨hb2, hq1, hq2, hq3, hq4, hbody⟩ :=
        underflowStep_vals hb63 hb hlohi hhi hs hc
      have hh2q : (2 : Nat) ^ (b - 1) = 2 * 2 ^ (b - 2) := by
        rw [← pow_succ']; congr 1; omega
      have hf4q : (2 : Nat) ^ b = 2 * 2 ^ (b - 1) := by
        rw [← pow_succ']; congr 1; omega
      rw [hbody]
      have hle : 2 * lo - 2 ^ (b - 1) ≤ 2 * hi - 2 ^ (b - 1) + 1 := by omega
      have hlt : 2 * hi - 2 ^ (b - 1) + 1 < 2 ^ b := by omega
      have hs2 : shiftCond b (2 * lo - 2 ^ (b - 1)) (2 * hi - 2 ^ (b - 1) + 1) = false := by
        refine shiftCond_false_of_split hb ?_ ?_ hlt
        · omega
        · omega
      have hfuel2 : 2 ^ b ≤ 2 ^ f * (2 * hi - 2 ^ (b - 1) + 1 - (2 * lo - 2 ^ (b - 1)) + 1) := by
        have hgrow : 2 * hi - 2 ^ (b - 1) + 1 - (2 * lo - 2 ^ (b - 1)) + 1
            = 2 * (hi - lo + 1) := by omega
        rw [hgrow]
        calc (2 : Nat) ^ b ≤ 2 ^ (f + 1) * (hi - lo + 1) := hfuel
        _ = 2 ^ f * (2 * (hi - lo + 1)) := by ring
      exact ih _ _ hle hlt hs2 hfuel2
    · rw [underflowLoop_succ_false hc]
      exact ⟨hc, hs, hlohi, hhi⟩

/-- Exhausted guards force the interval back above `MIN_RANGE`. -/
theorem range_ge_of_conds {b lo hi : Nat} (hb : 1 ≤ b) (hb63 : b ≤ 63) (hlohi : lo ≤ hi)
    (hhi : hi < 2 ^ b) (hs : shiftCond b lo hi = false)
    (hu : underflowCond b lo hi = false) :
    lo < hi ∧ MIN_RANGE b ≤ hi - lo + 1 := by
  obtain ⟨hlo_half, hhalf_hi⟩ := top_bits_split hb hlohi hhi hs
  have hlt : lo < hi := lt_of_lt_of_le hlo_half hhalf_hi
  refine ⟨hlt, ?_⟩
  rcases Nat.lt_or_ge b 2 with hb1 | hb2
  · have hbe : b = 1 := by omega
    subst hbe
    have : MIN_RANGE 1 = 2 := by decide
    omega
  · have hq : (0 : Nat) < 2 ^ (b - 2) := Nat.two_pow_pos _
    have hh2q : (2 : Nat) ^ (b - 1) = 2 * 2 ^ (b - 2) := by
      rw [← pow_succ']; congr 1; omega
    have hmr : MIN_RANGE b = 2 ^ (b - 2) + 2 := by
      rw [MIN_RANGE_eq, quarterRange_two_le hb2]
    rcases Nat.lt_or_ge lo (2 ^ (b - 2)) with hlo_q | hlo_q
    · omega
    · -- q ≤ lo < 2q, so the underflow guard being false forces hi ≥ 3q
      have hloq : lo / 2 ^ (b - 2) = 1 :=
        div_eq_of_between (by omega) (by omega)
      have hhi3 : 3 * 2 ^ (b - 2) ≤ hi := by
        by_contra hcon
        have hhiq : hi / 2 ^ (b - 2) = 2 :=
          div_eq_of_between (by omega) (by omega)
        have : underflowCond b lo hi = true :=
          (underflowCond_iff hb2 hb63).mpr (by rw [hloq, hhiq]; omega)
        rw [this] at hu
        exact absurd hu (by simp)
      omega

/-- Full renormalization from any sub-interval of the state space
reestablishes the post-update invariant. -/
theorem renorm_spec {b lo hi : Nat} (hb : 1 ≤ b) (hb63 : b ≤ 63) (hlohi : lo ≤ hi)
    (hhi : hi ≤ MASK b) :
    PostInv b (renorm b lo hi).1 (renorm b lo hi).2.1 ∧
    underflowCond b (renorm b lo hi).1 (renorm b lo hi).2.1 = false := by
  have hhilt : hi < 2 ^ b := by
    rw [MASK_eq] at hhi
    have : (0 : Nat) < 2 ^ b := Nat.two_pow_pos _
    omega
  have hfuel : 2 ^ b ≤ 2 ^ (b + 1) * (hi - lo + 1) := by
    have h1 : (2 : Nat) ^ b ≤ 2 ^ (b + 1) := Nat.pow_le_pow_right (by norm_num) (by omega)
    have h2 : 1 ≤ hi - lo + 1 := by omega
    calc (2 : Nat) ^ b ≤ 2 ^ (b + 1) := h1
    _ = 2 ^ (b + 1) * 1 := by ring
    _ ≤ 2 ^ (b + 1) * (hi - lo + 1) := Nat.mul_le_mul_left _ h2
  obtain ⟨hs1, hle1, hlt1⟩ := shiftLoop_spec hb (b + 1) lo hi hlohi hhilt hfuel
  have hfuel2 : 2 ^ b ≤ 2 ^ (b + 1) *
      ((shiftLoop b (b + 1) lo hi).2.1 - (shiftLoop b (b + 1) lo hi).1 + 1) := by
    have h1 : (2 : Nat) ^ b ≤ 2 ^ (b + 1) := Nat.pow_le_pow_right (by norm_num) (by omega)
    have h2 : 1 ≤ (shiftLoop b (b + 1) lo hi).2.1 - (shiftLoop b (b + 1) lo hi).1 + 1 := by
      omega
    calc (2 : Nat) ^ b ≤ 2 ^ (b + 1) := h1
    _ = 2 ^ (b + 1) * 1 := by ring
    _ ≤ _ := Nat.mul_le_mul_left _ h2
  obtain ⟨hu2, hs2, hle2, hlt2⟩ :=
    underflowLoop_spec hb hb63 (b + 1) _ _ hle1 hlt1 hs1 hfuel2
  obtain ⟨hlt, hmin⟩ := range_ge_of_conds hb hb63 hle2 hlt2 hs2 hu2
  have hshow : (renorm b lo hi).1 = (underflowLoop b (b + 1) (shiftLoop b (b + 1) lo hi).1
      (shiftLoop b (b + 1) lo hi).2.1).1 := rfl
  have hshow2 : (renorm b lo hi).2.1 = (underflowLoop b (b + 1) (shiftLoop b (b + 1) lo hi).1
      (shiftLoop b (b + 1) lo hi).2.1).2.1 := rfl
  rw [hshow, hshow2]
  refine ⟨⟨⟨hlt, ?_, hmin, ?_⟩, hs2⟩, hu2⟩
  · rw [MASK_eq]; omega
  · rw [fullRange_eq]; omega

/-! ## Frequency-table contract consequences -/

/-- The per-symbol coding precondition: a contract-valid table whose total
fits the configured state size, and a symbol of the alphabet with nonzero
frequency. -/
def SymOK (b : Nat) (t : FreqTable) (sym : Nat) : Prop :=
  t.Valid ∧ t.getTotal ≤ MAX_TOTAL b ∧ sym < t.getSymbolLimit ∧
    t.getLow sym < t.getHigh sym

theorem valid_getLow_mono {t : FreqTable} (hv : t.Valid) :
    ∀ s2, s2 ≤ t.getSymbolLimit - 1 → ∀ s1, s1 ≤ s2 → t.getLow s1 ≤ t.getLow s2 := by
  obtain ⟨h1, h2, h3, h4, h5, h6, h7, h8⟩ := hv
  intro s2
  induction s2 with
  | zero =>
    intro h s1 hs1
    have : s1 = 0 := by omega
    subst this
    exact le_refl _
  | succ n ih =>
    intro hn s1 hs1
    rcases Nat.lt_or_ge s1 (n + 1) with hlt | hge
    · calc t.getLow s1 ≤ t.getLow n := ih (by omega) s1 (by omega)
      _ ≤ t.getLow (n + 1) := h6 n (by omega)
    · have : s1 = n + 1 := by omega
      subst this
      exact le_refl _

theorem valid_getHigh_le_total {t : FreqTable} (hv : t.Valid) {s : Nat}
    (hs : s < t.getSymbolLimit) : t.getHigh s ≤ t.getTotal := by
  have hv2 := hv
  obtain ⟨h1, h2, h3, h4, h5, h6, h7, h8⟩ := hv2
  rcases Nat.lt_or_ge s (t.getSymbolLimit - 1) with hlt | hge
  · rw [h5 s hlt]
    calc t.getLow (s + 1)
        ≤ t.getLow (t.getSymbolLimit - 1) := valid_getLow_mono hv _ (le_refl _) _ (by omega)
    _ ≤ t.getHigh (t.getSymbolLimit - 1) := h7 _ (by omega)
    _ = t.getTotal := h8
  · have : s = t.getSymbolLimit - 1 := by omega
    subst this
    rw [h8]

theorem valid_getLow_le_total {t : FreqTable} (hv : t.Valid) {s : Nat}
    (hs : s < t.getSymbolLimit) : t.getLow s ≤ t.getTotal :=
  le_trans (hv.2.2.2.2.2.2.1 s hs) (valid_getHigh_le_total hv hs)

theorem symOK_total_pos {b t sym} (hok : SymOK b t sym) : 0 < t.getTotal := by
  obtain ⟨hv, htot, hs, hlh⟩ := hok
  have := valid_getHigh_le_total hv hs
  omega

/-! ## 64-bit arithmetic helper lemmas -/

theorem U64_eq : U64 = 2 ^ 64 := rfl

theorem mul64_eq {a c : Nat} (h : a * c < U64) : mul64 a c = a * c :=
  Nat.mod_eq_of_lt h

theorem add64_eq {a c : Nat} (h : a + c < U64) : add64 a c = a + c :=
  Nat.mod_eq_of_lt h

theorem sub64_eq {a c : Nat} (h1 : c ≤ a) (h2 : a < U64) : sub64 a c = a - c := by
  have hU : U64 = 2 ^ 64 := rfl
  rw [sub64]
  rw [hU] at h2 ⊢
  have hc : c % 2 ^ 64 = c := Nat.mod_eq_of_lt (by omega)
  rw [hc]
  omega

theorem sub64_one {x : Nat} (h1 : 1 ≤ x) (h2 : x < U64) : sub64 x 1 = x - 1 := by
  have hU : U64 = 2 ^ 64 := rfl
  rw [sub64]
  rw [hU] at h2 ⊢
  have hm : (1 : Nat) % 2 ^ 64 = 1 := by norm_num
  rw [hm]
  omega

/-- The central no-overflow bound: the product of an in-contract frequency
value and an in-range interval width fits in 64 bits. -/
theorem prod_lt_U64 {b total x r : Nat} (htot : total ≤ MAX_TOTAL b)
    (hx : x ≤ total) (hr : r ≤ fullRange b) : x * r < U64 := by
  have h1 : x * r ≤ MAX_TOTAL b * fullRange b :=
    Nat.mul_le_mul (le_trans hx htot) hr
  have h2 := MAX_TOTAL_mul_fullRange_le b
  have h3 : (0 : Nat) < U64 := by rw [U64_eq]; positivity
  omega

/-- Division facts used by the interval-narrowing step. -/
theorem narrow_div_facts {r total sl sh : Nat} (htot : 0 < total) (hsl : sl < sh)
    (hsh : sh ≤ total) (hr : total ≤ r) :
    sl * r / total + 1 ≤ sh * r / total ∧
    sh * r / total ≤ r ∧ 1 ≤ sh * r / total := by
  refine ⟨?_, ?_, ?_⟩
  · have hstep : sl * r + total ≤ sh * r := by
      have h1 : (sl + 1) * r ≤ sh * r := Nat.mul_le_mul_right _ (by omega)
      have h2 : sl * r + total ≤ sl * r + r := by omega
      calc sl * r + total ≤ sl * r + r := h2
      _ = (sl + 1) * r := by ring
      _ ≤ sh * r := h1
    calc sl * r / total + 1 = (sl * r + total) / total := by
          rw [Nat.add_div_right _ htot]
    _ ≤ sh * r / total := Nat.div_le_div_right hstep
  · calc sh * r / total ≤ total * r / total :=
        Nat.div_le_div_right (Nat.mul_le_mul_right _ hsh)
    _ = r := Nat.mul_div_cancel_left _ htot
  · rw [Nat.le_div_iff_mul_le htot, one_mul]
    calc total ≤ r := hr
    _ = 1 * r := by ring
    _ ≤ sh * r := Nat.mul_le_mul_right _ (by omega)

/-! ## The update success path -/

/-- `newLow` of the narrowing step, in exact arithmetic. -/
def narrowLow (t : FreqTable) (sym lo hi : Nat) : Nat :=
  lo + t.getLow sym * (hi - lo + 1) / t.getTotal

/-- `newHigh` of the narrowing step, in exact arithmetic. -/
def narrowHigh (t : FreqTable) (sym lo hi : Nat) : Nat :=
  lo + t.getHigh sym * (hi - lo + 1) / t.getTotal - 1

/-- On every in-contract call, `update` takes the success path: the 64-bit
products do not wrap, the narrowing computes exactly the spec's formulas,
and the result is the renormalization of the narrowed interval. -/
theorem updateCore_ok {b : Nat} {t : FreqTable} {sym lo hi : Nat} (hb : 1 ≤ b)
    (hb63 : b ≤ 63) (hinv : StateInv b lo hi) (hok : SymOK b t sym) :
    updateCore b t sym lo hi = .ok (renorm b (narrowLow t sym lo hi) (narrowHigh t sym lo hi)) ∧
    lo ≤ narrowLow t sym lo hi ∧
    narrowLow t sym lo hi ≤ narrowHigh t sym lo hi ∧
    narrowHigh t sym lo hi ≤ hi := by
  obtain ⟨hlt, hmask, hmin, hfull⟩ := hinv
  obtain ⟨hv, htot, hs, hlh⟩ := hok
  have htpos : 0 < t.getTotal := symOK_total_pos ⟨hv, htot, hs, hlh⟩
  have hhi_lt : hi < 2 ^ b := by
    rw [MASK_eq] at hmask
    have : (0 : Nat) < 2 ^ b := Nat.two_pow_pos _
    omega
  have hlo_lt : lo < 2 ^ b := lt_of_le_of_lt (le_of_lt hlt) hhi_lt
  have hsh_le : t.getHigh sym ≤ t.getTotal := valid_getHigh_le_total hv hs
  have hsl_le : t.getLow sym ≤ t.getTotal := valid_getLow_le_total hv hs
  have hrange_ge : t.getTotal ≤ hi - lo + 1 :=
    le_trans (le_trans htot (MAX_TOTAL_le_MIN_RANGE b)) hmin
  have hrange_le : hi - lo + 1 ≤ fullRange b := hfull
  obtain ⟨hd1, hd2, hd3⟩ :=
    narrow_div_facts (r := hi - lo + 1) htpos hlh hsh_le hrange_ge
  have hmul_l : mul64 (t.getLow sym) (hi - lo + 1) = t.getLow sym * (hi - lo + 1) :=
    mul64_eq (prod_lt_U64 htot hsl_le hrange_le)
  have hmul_h : mul64 (t.getHigh sym) (hi - lo + 1) = t.getHigh sym * (hi - lo + 1) :=
    mul64_eq (prod_lt_U64 htot hsh_le hrange_le)
  have hq_le : t.getLow sym * (hi - lo + 1) / t.getTotal ≤ hi - lo + 1 := by
    calc t.getLow sym * (hi - lo + 1) / t.getTotal
        ≤ t.getTotal * (hi - lo + 1) / t.getTotal :=
          Nat.div_le_div_right (Nat.mul_le_mul_right _ hsl_le)
    _ = hi - lo + 1 := Nat.mul_div_cancel_left _ htpos
  have hlo_bound : lo + (hi - lo + 1) < U64 := by
    have h1 : (2 : Nat) ^ b ≤ 2 ^ 63 := Nat.pow_le_pow_right (by norm_num) hb63
    have h2 : hi - lo + 1 ≤ fullRange b := hfull
    rw [fullRange_eq] at h2
    rw [U64_eq]
    have h3 : (2 : Nat) ^ 63 + 2 ^ 63 ≤ 2 ^ 64 := by norm_num
    omega
  have hql_lt : lo + t.getLow sym * (hi - lo + 1) / t.getTotal < U64 := by
    revert hq_le
    generalize t.getLow sym * (hi - lo + 1) / t.getTotal = ql
    intro hq_le
    omega
  have hqh_lt : lo + t.getHigh sym * (hi - lo + 1) / t.getTotal < U64 := by
    revert hd2
    generalize t.getHigh sym * (hi - lo + 1) / t.getTotal = qh
    intro hd2
    omega
  have hqh_one : 1 ≤ lo + t.getHigh sym * (hi - lo + 1) / t.getTotal := by
    revert hd3
    generalize t.getHigh sym * (hi - lo + 1) / t.getTotal = qh
    intro hd3
    omega
  have hadd_l : add64 lo (t.getLow sym * (hi - lo + 1) / t.getTotal)
      = narrowLow t sym lo hi := by
    rw [narrowLow]
    exact add64_eq hql_lt
  have hadd_h : add64 lo (t.getHigh sym * (hi - lo + 1) / t.getTotal)
      = lo + t.getHigh sym * (hi - lo + 1) / t.getTotal :=
    add64_eq hqh_lt
  have hsub : sub64 (lo + t.getHigh sym * (hi - lo + 1) / t.getTotal) 1
      = narrowHigh t sym lo hi := by
    rw [sub64_one hqh_one hqh_lt, narrowHigh]
  refine ⟨?_, ?_, ?_, ?_⟩
  · simp only [updateCore]
    rw [if_neg (by
      push_neg
      refine ⟨by omega, ?_, ?_⟩
      · rw [and_mask_eq_mod]; exact Nat.mod_eq_of_lt hlo_lt
      · rw [and_mask_eq_mod]; exact Nat.mod_eq_of_lt hhi_lt)]
    rw [if_neg (by push_neg; exact ⟨hmin, hfull⟩)]
    rw [if_neg (by omega)]
    rw [if_neg (by omega)]
    rw [hmul_l, hmul_h, hadd_l, hadd_h, hsub]
  · rw [narrowLow]
    exact Nat.le_add_right _ _
  · rw [narrowLow, narrowHigh]
    revert hd1
    generalize t.getLow sym * (hi - lo + 1) / t.getTotal = ql
    generalize t.getHigh sym * (hi - lo + 1) / t.getTotal = qh
    intro hd1
    omega
  · rw [narrowHigh]
    revert hd2
    generalize t.getHigh sym * (hi - lo + 1) / t.getTotal = qh
    intro hd2
    omega

/-- In-contract `update` reestablishes the strengthened invariant. -/
theorem updateCore_inv {b : Nat} {t : FreqTable} {sym lo hi : Nat} (hb : 1 ≤ b)
    (hb63 : b ≤ 63) (hinv : StateInv b lo hi) (hok : SymOK b t sym) :
    PostInv b (renorm b (narrowLow t sym lo hi) (narrowHigh t sym lo hi)).1
      (renorm b (narrowLow t sym lo hi) (narrowHigh t sym lo hi)).2.1 := by
  obtain ⟨_, hle1, hle2, hle3⟩ := updateCore_ok hb hb63 hinv hok
  have hhi : narrowHigh t sym lo hi ≤ MASK b := le_trans hle3 hinv.2.1
  exact (renorm_spec hb hb63 hle2 hhi).1

/-! ## Claim C8: constructor behavior -/

/-- **C8**: constructing a coder with state size `b` throws the domain
error iff `b < 1` or `b > 63`; on success the derived constants equal
`fullRange = 2^b`, `halfRange = 2^(b-1)`, `quarterRange = ⌊2^b/4⌋`,
`minRange = (fullRange >> 2) + 2 = ⌊2^b/4⌋ + 2`,
`maxTotal = min(⌊(2^64-1)/fullRange⌋, minRange)`, `mask = 2^b - 1`, and the
interval starts at `low = 0`, `high = mask`. -/
theorem C8_constructor_behavior :
    (∀ s : Int, (∃ c, mkCoderBase s = .ok c) ↔ (1 ≤ s ∧ s ≤ 63)) ∧
    (∀ s : Int, ¬ (1 ≤ s ∧ s ≤ 63) → mkCoderBase s = .error .stateSizeOutOfRange) ∧
    (∀ s : Int, 1 ≤ s → s ≤ 63 →
      mkCoderBase s = .ok ⟨s.toNat, 2 ^ s.toNat, 2 ^ (s.toNat - 1), 2 ^ s.toNat / 4,
        2 ^ s.toNat / 4 + 2, min ((2 ^ 64 - 1) / 2 ^ s.toNat) (2 ^ s.toNat / 4 + 2),
        2 ^ s.toNat - 1, 0, 2 ^ s.toNat - 1⟩) := by
  have hok : ∀ s : Int, 1 ≤ s → s ≤ 63 →
      mkCoderBase s = .ok ⟨s.toNat, 2 ^ s.toNat, 2 ^ (s.toNat - 1), 2 ^ s.toNat / 4,
        2 ^ s.toNat / 4 + 2, min ((2 ^ 64 - 1) / 2 ^ s.toNat) (2 ^ s.toNat / 4 + 2),
        2 ^ s.toNat - 1, 0, 2 ^ s.toNat - 1⟩ := by
    intro s h1 h63
    have hb : 1 ≤ s.toNat := by omega
    have hstep : mkCoderBase s = .ok ⟨s.toNat, fullRange s.toNat, halfRange s.toNat,
        quarterRange s.toNat, MIN_RANGE s.toNat, MAX_TOTAL s.toNat, MASK s.toNat,
        0, MASK s.toNat⟩ := by
      rw [mkCoderBase, if_neg (by omega)]
      rfl
    rw [hstep]
    congr 1
    rw [fullRange_eq, halfRange_eq hb, quarterRange_eq,
      MIN_RANGE_eq, quarterRange_eq, MASK_eq, MAX_TOTAL, U64_eq, fullRange_eq,
      MIN_RANGE_eq, quarterRange_eq]
  refine ⟨?_, ?_, hok⟩
  · intro s
    constructor
    · intro h
      obtain ⟨c, hc⟩ := h
      by_contra hcon
      rw [mkCoderBase, if_pos (by omega)] at hc
      exact absurd hc (by simp)
    · intro h
      exact ⟨_, hok s h.1 h.2⟩
  · intro s h
    rw [mkCoderBase, if_pos (by omega)]

/-- Witness for C8 at the boundary state sizes 63 (success) and 0
(failure). -/
theorem C8_constructor_behavior_witness :
    mkCoderBase 63 = .ok ⟨63, 2 ^ 63, 2 ^ 62, 2 ^ 63 / 4, 2 ^ 63 / 4 + 2,
      min ((2 ^ 64 - 1) / 2 ^ 63) (2 ^ 63 / 4 + 2), 2 ^ 63 - 1, 0, 2 ^ 63 - 1⟩ ∧
    mkCoderBase 0 = .error .stateSizeOutOfRange ∧
    mkCoderBase 64 = .error .stateSizeOutOfRange := by
  refine ⟨?_, ?_, ?_⟩
  · have h := C8_constructor_behavior.2.2 63 (by norm_num) (by norm_num)
    rw [h]
    rfl
  · exact C8_constructor_behavior.2.1 0 (by norm_num)
  · exact C8_constructor_behavior.2.1 64 (by norm_num)

/-! ## Claim C10: finish frame effect -/

/-- **C10**: `Encoder.finish` writes exactly one bit, the bit 1, and leaves
`low`, `high` and `numUnderflow` unchanged; deferred underflow bits still
counted in `numUnderflow` are discarded, never emitted. -/
theorem C10_finish_frame (s : EncoderState) :
    (encFinish s).out = s.out ++ [1] ∧ (encFinish s).low = s.low ∧
    (encFinish s).high = s.high ∧ (encFinish s).numUnderflow = s.numUnderflow :=
  ⟨rfl, rfl, rfl, rfl⟩

/-! ## Claim C7: no 64-bit overflow -/

/-- **C7**: under the in-contract preconditions, the three 64-bit
intermediate products `symLow * range`, `symHigh * range` and
`(offset + 1) * total` are all at most `2^64 - 1`, so the wrapped
`uint64_t` arithmetic computes them exactly. -/
theorem C7_no_overflow {b total symLow symHigh range offset : Nat}
    (hb63 : b ≤ 63) (htot : total ≤ MAX_TOTAL b)
    (hsl : symLow ≤ symHigh) (hsh : symHigh ≤ total)
    (hr1 : MIN_RANGE b ≤ range) (hr2 : range ≤ fullRange b)
    (hoff : offset + 1 ≤ range) :
    symLow * range ≤ 2 ^ 64 - 1 ∧ symHigh * range ≤ 2 ^ 64 - 1 ∧
    (offset + 1) * total ≤ 2 ^ 64 - 1 ∧
    mul64 symLow range = symLow * range ∧
    mul64 symHigh range = symHigh * range ∧
    mul64 (add64 offset 1) total = (offset + 1) * total := by
  have h1 : symLow * range < U64 := prod_lt_U64 htot (le_trans hsl hsh) hr2
  have h2 : symHigh * range < U64 := prod_lt_U64 htot hsh hr2
  have h3 : (offset + 1) * total < U64 := by
    have h := prod_lt_U64 htot (le_refl total) (le_trans hoff hr2)
    rw [Nat.mul_comm] at h
    exact h
  have hoff_lt : offset + 1 < U64 := by
    have hfull : fullRange b ≤ 2 ^ 63 := fullRange_le hb63
    rw [U64_eq]
    have h5 : (2 : Nat) ^ 63 < 2 ^ 64 := by norm_num
    omega
  have hU : U64 = 2 ^ 64 := rfl
  refine ⟨by omega, by omega, by omega, mul64_eq h1, mul64_eq h2, ?_⟩
  rw [add64_eq hoff_lt, mul64_eq h3]

/-- Witness for C7 at state size 8 with the largest admissible total. -/
theorem C7_no_overflow_witness :
    3 * 66 ≤ 2 ^ 64 - 1 ∧ 66 * 66 ≤ 2 ^ 64 - 1 ∧ (65 + 1) * 66 ≤ 2 ^ 64 - 1 ∧
    mul64 3 66 = 3 * 66 ∧ mul64 66 66 = 66 * 66 ∧ mul64 (add64 65 1) 66 = (65 + 1) * 66 :=
  C7_no_overflow (b := 8) (by decide) (by decide) (by decide) (by decide)
    (by decide) (by decide) (by decide)

/-! ## Binary search (Decoder.read, lines 96-107) -/

theorem add32_eq {a c : Nat} (h : a + c < U32) : add32 a c = a + c :=
  Nat.mod_eq_of_lt h

theorem sub32_eq {a c : Nat} (h1 : c ≤ a) (h2 : a < U32) : sub32 a c = a - c := by
  have hU : U32 = 2 ^ 32 := rfl
  rw [sub32]
  rw [hU] at h2 ⊢
  have hc : c % 2 ^ 32 = c := Nat.mod_eq_of_lt (by omega)
  rw [hc]
  omega

theorem U32_eq : U32 = 2 ^ 32 := rfl

/-- A symbol interval containing `value` is unique under the contract. -/
theorem symbol_unique {t : FreqTable} (hv : t.Valid) {value s1 s2 : Nat}
    (h1 : s1 < t.getSymbolLimit) (h2 : s2 < t.getSymbolLimit)
    (hl1 : t.getLow s1 ≤ value) (hh1 : value < t.getHigh s1)
    (hl2 : t.getLow s2 ≤ value) (hh2 : value < t.getHigh s2) : s1 = s2 := by
  have hv2 := hv
  obtain ⟨hc1, hc2, hc3, hc4, hc5, hc6, hc7, hc8⟩ := hv2
  rcases lt_trichotomy s1 s2 with hlt | heq | hgt
  · exfalso
    have hstep : t.getHigh s1 = t.getLow (s1 + 1) := hc5 s1 (by omega)
    have hmono : t.getLow (s1 + 1) ≤ t.getLow s2 :=
      valid_getLow_mono hv s2 (by omega) (s1 + 1) (by omega)
    omega
  · exact heq
  · exfalso
    have hstep : t.getHigh s2 = t.getLow (s2 + 1) := hc5 s2 (by omega)
    have hmono : t.getLow (s2 + 1) ≤ t.getLow s1 :=
      valid_getLow_mono hv s1 (by omega) (s2 + 1) (by omega)
    omega

/-- Correctness of the search loop in the overflow-free regime
`stop ≤ 2^31`: with enough fuel it exits at `(s, s + 1)` where
`getLow s ≤ value`, and the exit point respects the sentinel invariant. -/
theorem searchLoop_correct {t : FreqTable} {value : Nat} :
    ∀ f start stop, start < stop → stop ≤ t.getSymbolLimit → stop ≤ 2 ^ 31 →
      t.getLow start ≤ value →
      (stop < t.getSymbolLimit → value < t.getLow stop) →
      stop - start ≤ 2 ^ f →
      ∃ s, searchLoop t value f start stop = some (s, s + 1) ∧
        start ≤ s ∧ s + 1 ≤ stop ∧ t.getLow s ≤ value ∧
        (s + 1 < t.getSymbolLimit → value < t.getLow (s + 1)) := by
  intro f
  induction f with
  | zero =>
    intro start stop hss hstop hlim hlow hsent hw
    have hw1 : stop = start + 1 := by
      rw [pow_zero] at hw
      omega
    have hsub : sub32 stop start = stop - start :=
      sub32_eq (by omega) (by rw [U32_eq]; omega)
    refine ⟨start, ?_, le_refl _, by omega, hlow, ?_⟩
    · rw [searchLoop, if_neg (by rw [hsub]; omega), hw1]
    · intro h
      rw [← hw1]
      exact hsent (by omega)
  | succ f ih =>
    intro start stop hss hstop hlim hlow hsent hw
    have hsub : sub32 stop start = stop - start :=
      sub32_eq (by omega) (by rw [U32_eq]; omega)
    rcases le_or_lt (stop - start) 1 with hw1 | hw2
    · have hse : stop = start + 1 := by omega
      refine ⟨start, ?_, le_refl _, by omega, hlow, ?_⟩
      · rw [searchLoop, if_neg (by rw [hsub]; omega), hse]
      · intro h
        rw [← hse]
        exact hsent (by omega)
    · have hadd : add32 start stop = start + stop :=
        add32_eq (by rw [U32_eq]; omega)
      have hmid : add32 start stop >>> 1 = (start + stop) / 2 := by
        rw [hadd, Nat.shiftRight_eq_div_pow, pow_one]
      have hmid_lt : (start + stop) / 2 < stop := by omega
      have hmid_gt : start < (start + stop) / 2 := by omega
      rw [searchLoop, if_pos (by rw [hsub]; omega), hmid]
      rcases Nat.lt_or_ge value (t.getLow ((start + stop) / 2)) with hbig | hsmall
      · rw [if_pos hbig]
        obtain ⟨s, hloop, hs1, hs2, hs3, hs4⟩ :=
          ih start ((start + stop) / 2) hmid_gt (by omega) (by omega) hlow
            (fun _ => hbig) (by omega)
        exact ⟨s, hloop, hs1, by omega, hs3, hs4⟩
      · rw [if_neg (by omega)]
        obtain ⟨s, hloop, hs1, hs2, hs3, hs4⟩ :=
          ih ((start + stop) / 2) stop hmid_lt hstop hlim hsmall hsent (by omega)
        exact ⟨s, hloop, by omega, hs2, hs3, hs4⟩

/-- The assembled search behavior on a full (start, end) = (0, symbolLimit)
call, in the overflow-free regime. -/
theorem searchLoop_full {t : FreqTable} (hv : t.Valid) {value : Nat}
    (hlim : t.getSymbolLimit ≤ 2 ^ 31) (hval : value < t.getTotal) {f : Nat}
    (hf : 31 ≤ f) :
    ∃ s, searchLoop t value f 0 t.getSymbolLimit = some (s, s + 1) ∧
      s < t.getSymbolLimit ∧ t.getLow s ≤ value ∧ value < t.getHigh s := by
  have hv2 := hv
  obtain ⟨hc1, hc2, hc3, hc4, hc5, hc6, hc7, hc8⟩ := hv2
  have hw : t.getSymbolLimit - 0 ≤ 2 ^ f := by
    have h31 : (2 : Nat) ^ 31 ≤ 2 ^ f := Nat.pow_le_pow_right (by norm_num) hf
    omega
  have hlow0 : t.getLow 0 ≤ value := by rw [hc4]; omega
  have hsent0 : t.getSymbolLimit < t.getSymbolLimit → value < t.getLow t.getSymbolLimit :=
    fun h => absurd h (lt_irrefl _)
  obtain ⟨s, hloop, hs1, hs2, hs3, hs4⟩ :=
    searchLoop_correct f 0 t.getSymbolLimit (by omega) (le_refl _) hlim hlow0 hsent0 hw
  refine ⟨s, hloop, by omega, hs3, ?_⟩
  rcases Nat.lt_or_ge (s + 1) t.getSymbolLimit with hin | hend
  · have := hs4 hin
    have hstep : t.getHigh s = t.getLow (s + 1) := hc5 s (by omega)
    omega
  · have hse : s = t.getSymbolLimit - 1 := by omega
    rw [hse, hc8]
    exact hval

/-- An adversarial contract-valid table exercising the `uint32_t` wraparound
of `middle = (start + end) >> 1`: nearly `2^32` symbols with all frequency
mass on the last one. -/
def badT : FreqTable :=
  ⟨U32 - 1, 1, fun s => if U32 - 1 ≤ s then 1 else 0,
    fun s => if U32 - 2 ≤ s then 1 else 0⟩

theorem badT_valid : badT.Valid := by
  refine ⟨?_, ?_, ?_, ?_, ?_, ?_, ?_, ?_⟩
  · show 1 ≤ U32 - 1
    rw [U32_eq]
    norm_num
  · show U32 - 1 < U32
    rw [U32_eq]
    norm_num
  · show 1 < U32
    rw [U32_eq]
    norm_num
  · show (if U32 - 1 ≤ 0 then 1 else 0) = 0
    rw [if_neg (by rw [U32_eq]; norm_num)]
  · intro s hs
    show (if U32 - 2 ≤ s then 1 else 0) = (if U32 - 1 ≤ s + 1 then 1 else 0)
    have h32 : U32 = 2 ^ 32 := rfl
    by_cases h : U32 - 2 ≤ s
    · rw [if_pos h, if_pos (by omega)]
    · rw [if_neg h, if_neg (by omega)]
  · intro s hs
    show (if U32 - 1 ≤ s then 1 else 0) ≤ (if U32 - 1 ≤ s + 1 then 1 else 0)
    by_cases h : U32 - 1 ≤ s
    · rw [if_pos h, if_pos (by omega)]
    · rw [if_neg h]
      omega
  · intro s hs
    show (if U32 - 1 ≤ s then 1 else 0) ≤ (if U32 - 2 ≤ s then 1 else 0)
    have hs2 : ¬ (U32 - 1 ≤ s) := by
      show ¬ _
      intro hcon
      have : s < U32 - 1 := hs
      omega
    rw [if_neg hs2]
    omega
  · show (if U32 - 2 ≤ U32 - 1 - 1 then 1 else 0) = 1
    rw [if_pos (by rw [U32_eq]; norm_num)]

/-- On `badT` with `value = 0` the search loop cycles forever: from any
`start < 2^31` (with `end = 2^32 - 1`) it never exits, for any fuel. -/
theorem badT_searchLoop_none :
    ∀ f start, start < 2 ^ 31 → searchLoop badT 0 f start (U32 - 1) = none := by
  have h32 : U32 = 2 ^ 32 := rfl
  intro f
  induction f with
  | zero =>
    intro start hs
    have hsub : sub32 (U32 - 1) start = U32 - 1 - start :=
      sub32_eq (by omega) (by omega)
    rw [searchLoop, if_pos (by rw [hsub]; omega)]
  | succ f ih =>
    intro start hs
    have hsub : sub32 (U32 - 1) start = U32 - 1 - start :=
      sub32_eq (by omega) (by omega)
    rw [searchLoop, if_pos (by rw [hsub]; omega)]
    have hmid_lt : add32 start (U32 - 1) >>> 1 < 2 ^ 31 := by
      rw [add32, Nat.shiftRight_eq_div_pow, pow_one]
      rcases Nat.eq_zero_or_pos start with h0 | h0
      · subst h0
        rw [Nat.zero_add, Nat.mod_eq_of_lt (by rw [h32]; omega)]
        rw [h32]
        omega
      · have hmod : (start + (U32 - 1)) % U32 = start - 1 := by
          rw [h32]
          omega
        rw [hmod]
        omega
    have hlow : ¬ (badT.getLow (add32 start (U32 - 1) >>> 1) > 0) := by
      show ¬ ((if U32 - 1 ≤ add32 start (U32 - 1) >>> 1 then 1 else 0) > 0)
      rw [if_neg (by omega)]
      omega
    rw [if_neg hlow]
    exact ih _ hmid_lt

/-! ## Decoder event application -/

theorem even_or_bit {x bit : Nat} (hx : x % 2 = 0) (hbit : bit ≤ 1) :
    x ||| bit = x + bit := by
  rcases Nat.le_one_iff_eq_zero_or_eq_one.mp hbit with h | h
  · subst h
    rw [Nat.or_zero, Nat.add_zero]
  · subst h
    exact or_one_of_even hx

theorem readCodeBit_le {inp : List Nat} (hbits : ∀ x ∈ inp, x ≤ 1) (pos : Nat) :
    readCodeBit inp pos ≤ 1 := by
  rw [readCodeBit]
  rcases Nat.lt_or_ge pos inp.length with h | h
  · rw [List.getD_eq_getElem _ _ h]
    exact hbits _ (List.getElem_mem _)
  · rw [List.getD_eq_default _ _ h]
    omega

/-- The decoder `shift` hook in exact arithmetic. -/
theorem decApply_shift_val {b : Nat} {inp : List Nat} (code pos lo hi : Nat)
    (hb : 1 ≤ b) (hbits : ∀ x ∈ inp, x ≤ 1) :
    decApplyEvent b inp (code, pos) (.shiftEv lo hi)
      = (2 * (code % 2 ^ (b - 1)) + readCodeBit inp pos, pos + 1) := by
  show (((code <<< 1) &&& MASK b) ||| readCodeBit inp pos, pos + 1) = _
  rw [Nat.shiftLeft_eq, pow_one, and_mask_eq_mod, Nat.mul_comm code 2,
    two_mul_mod_two_pow hb]
  rw [even_or_bit (by omega) (readCodeBit_le hbits pos)]

/-- The decoder `underflow` hook in exact arithmetic, on the code window
positions where the hook can fire. -/
theorem decApply_underflow_val {b : Nat} {inp : List Nat} (code pos lo hi : Nat)
    (hb2 : 2 ≤ b) (hbits : ∀ x ∈ inp, x ≤ 1)
    (hc1 : 2 ^ (b - 2) ≤ code) (hc2 : code < 3 * 2 ^ (b - 2)) :
    decApplyEvent b inp (code, pos) (.underflowEv lo hi)
      = (2 * code - 2 ^ (b - 1) + readCodeBit inp pos, pos + 1) := by
  have hb : 1 ≤ b := by omega
  have hh2q : (2 : Nat) ^ (b - 1) = 2 * 2 ^ (b - 2) := by
    rw [← pow_succ']; congr 1; omega
  have hbit := readCodeBit_le hbits pos
  have hinner : (code <<< 1) &&& (MASK b >>> 1) = 2 * code % 2 ^ (b - 1) := by
    rw [Nat.shiftLeft_eq, pow_one, MASK_shiftRight hb,
      Nat.and_pow_two_sub_one_eq_mod, Nat.mul_comm]
  show ((code &&& halfRange b) ||| ((code <<< 1) &&& (MASK b >>> 1)) |||
      readCodeBit inp pos, pos + 1) = _
  rw [hinner, halfRange_eq hb]
  rcases Nat.lt_or_ge code (2 ^ (b - 1)) with hcase | hcase
  · -- top bit of code is 0
    have htop : code &&& 2 ^ (b - 1) = 0 := by
      rw [Nat.and_two_pow, Nat.testBit_eq_false_of_lt hcase]
      rw [Bool.toNat_false, Nat.zero_mul]
    have hdiv : 2 * code / 2 ^ (b - 1) = 1 :=
      div_eq_of_between (by rw [hh2q]; omega) (by rw [hh2q]; omega)
    have hdm := Nat.div_add_mod (2 * code) (2 ^ (b - 1))
    rw [hdiv, Nat.mul_one] at hdm
    have hmod : 2 * code % 2 ^ (b - 1) = 2 * code - 2 ^ (b - 1) := by
      revert hdm
      generalize 2 * code % 2 ^ (b - 1) = m
      intro hdm
      omega
    rw [htop, hmod, Nat.lor_comm 0 _, Nat.or_zero,
      even_or_bit (by rw [hh2q]; omega) hbit]
  · -- top bit of code is 1
    have hcode_lt : code < 2 ^ b := by
      have hf4q : (2 : Nat) ^ b = 2 * 2 ^ (b - 1) := by
        rw [← pow_succ']; congr 1; omega
      rw [hf4q, hh2q]
      omega
    have htb : code.testBit (b - 1) = true := by
      rw [testBit_eq_one_iff]
      have h1 : code / 2 ^ (b - 1) = 1 :=
        div_eq_of_between (by omega) (by rw [hh2q]; omega)
      rw [h1]
    have htop : code &&& 2 ^ (b - 1) = 2 ^ (b - 1) := by
      rw [Nat.and_two_pow, htb]
      rw [Bool.toNat_true, one_mul]
    have hdiv : 2 * code / 2 ^ (b - 1) = 2 :=
      div_eq_of_between (by omega) (by rw [hh2q]; omega)
    have hdm := Nat.div_add_mod (2 * code) (2 ^ (b - 1))
    rw [hdiv] at hdm
    have hmod : 2 * code % 2 ^ (b - 1) = 2 * code - 2 * 2 ^ (b - 1) := by
      revert hdm
      generalize 2 * code % 2 ^ (b - 1) = m
      intro hdm
      omega
    have hlt : 2 * code - 2 * 2 ^ (b - 1) < 2 ^ (b - 1) := by
      rw [hh2q]
      omega
    rw [htop, hmod, Nat.lor_comm (2 ^ (b - 1)) _, or_two_pow_of_lt hlt,
      even_or_bit (by rw [hh2q]; omega) hbit]
    rw [Prod.mk.injEq]
    constructor
    · rw [hh2q]
      omega
    · rfl

/-! ## Decoder code-window bounds through renormalization -/

theorem decFold_shiftLoop {b : Nat} {inp : List Nat} (hb : 1 ≤ b)
    (hbits : ∀ x ∈ inp, x ≤ 1) :
    ∀ f lo hi code pos, lo ≤ code → code ≤ hi → hi < 2 ^ b →
      (shiftLoop b f lo hi).1 ≤
          ((shiftLoop b f lo hi).2.2.foldl (decApplyEvent b inp) (code, pos)).1 ∧
        ((shiftLoop b f lo hi).2.2.foldl (decApplyEvent b inp) (code, pos)).1 ≤
          (shiftLoop b f lo hi).2.1 ∧
        ((shiftLoop b f lo hi).2.2.foldl (decApplyEvent b inp) (code, pos)).2 =
          pos + (shiftLoop b f lo hi).2.2.length := by
  intro f
  induction f with
  | zero =>
    intro lo hi code pos h1 h2 h3
    rw [shiftLoop_zero]
    exact ⟨h1, h2, rfl⟩
  | succ f ih =>
    intro lo hi code pos h1 h2 h3
    rcases Bool.eq_false_or_eq_true (shiftCond b lo hi) with hc | hc
    · have hsplit : (2 : Nat) ^ b = 2 * 2 ^ (b - 1) := by
        rw [← pow_succ']; congr 1; omega
      have hbit := readCodeBit_le hbits pos
      have happ := decApply_shift_val code pos lo hi hb hbits
      rcases shiftStep_vals hb (le_trans h1 h2) h3 hc with
        ⟨hl, hh, hbody⟩ | ⟨hl, hh, hbody⟩
      · -- top bits are 0
        have hcm : code % 2 ^ (b - 1) = code := Nat.mod_eq_of_lt (by omega)
        rw [hcm] at happ
        have hrec := ih (2 * lo) (2 * hi + 1) (2 * code + readCodeBit inp pos)
          (pos + 1) (by omega) (by omega) (by omega)
        rw [shiftLoop_succ_true hc, hbody] at *
        simp only [List.foldl_cons, List.length_cons, happ]
        refine ⟨hrec.1, hrec.2.1, ?_⟩
        rw [hrec.2.2]
        omega
      · -- top bits are 1
        have hdiv : code / 2 ^ (b - 1) = 1 :=
          div_eq_of_between (by omega) (by rw [← hsplit]; omega)
        have hdm := Nat.div_add_mod code (2 ^ (b - 1))
        rw [hdiv, Nat.mul_one] at hdm
        have hcm : code % 2 ^ (b - 1) = code - 2 ^ (b - 1) := by
          revert hdm
          generalize code % 2 ^ (b - 1) = m
          intro hdm
          omega
        rw [hcm] at happ
        have hval : 2 * (code - 2 ^ (b - 1)) + readCodeBit inp pos
            = 2 * code - 2 ^ b + readCodeBit inp pos := by
          rw [hsplit]
          omega
        rw [hval] at happ
        have hrec := ih (2 * lo - 2 ^ b) (2 * hi - 2 ^ b + 1)
          (2 * code - 2 ^ b + readCodeBit inp pos) (pos + 1)
          (by omega) (by omega) (by omega)
        rw [shiftLoop_succ_true hc, hbody] at *
        simp only [List.foldl_cons, List.length_cons, happ]
        refine ⟨hrec.1, hrec.2.1, ?_⟩
        rw [hrec.2.2]
        omega
    · rw [shiftLoop_succ_false hc]
      exact ⟨h1, h2, rfl⟩

theorem decFold_underflowLoop {b : Nat} {inp : List Nat} (hb : 1 ≤ b)
    (hb63 : b ≤ 63) (hbits : ∀ x ∈ inp, x ≤ 1) :
    ∀ f lo hi code pos, lo ≤ code → code ≤ hi → hi < 2 ^ b →
      shiftCond b lo hi = false →
      (underflowLoop b f lo hi).1 ≤
          ((underflowLoop b f lo hi).2.2.foldl (decApplyEvent b inp) (code, pos)).1 ∧
        ((underflowLoop b f lo hi).2.2.foldl (decApplyEvent b inp) (code, pos)).1 ≤
          (underflowLoop b f lo hi).2.1 ∧
        ((underflowLoop b f lo hi).2.2.foldl (decApplyEvent b inp) (code, pos)).2 =
          pos + (underflowLoop b f lo hi).2.2.length := by
  intro f
  induction f with
  | zero =>
    intro lo hi code pos h1 h2 h3 hs
    rw [underflowLoop_zero]
    exact ⟨h1, h2, rfl⟩
  | succ f ih =>
    intro lo hi code pos h1 h2 h3 hs
    rcases Bool.eq_false_or_eq_true (underflowCond b lo hi) with hc | hc
    · obtain ⟨hb2, hq1, hq2, hq3, hq4, hbody⟩ :=
        underflowStep_vals hb63 hb (le_trans h1 h2) h3 hs hc
      have hh2q : (2 : Nat) ^ (b - 1) = 2 * 2 ^ (b - 2) := by
        rw [← pow_succ']; congr 1; omega
      have hf4q : (2 : Nat) ^ b = 2 * 2 ^ (b - 1) := by
        rw [← pow_succ']; congr 1; omega
      have hbit := readCodeBit_le hbits pos
      have happ := decApply_underflow_val code pos lo hi hb2 hbits
        (by omega) (by omega)
      have hs2 : shiftCond b (2 * lo - 2 ^ (b - 1)) (2 * hi - 2 ^ (b - 1) + 1) = false := by
        refine shiftCond_false_of_split hb (by omega) (by omega) (by omega)
      have hrec := ih (2 * lo - 2 ^ (b - 1)) (2 * hi - 2 ^ (b - 1) + 1)
        (2 * code - 2 ^ (b - 1) + readCodeBit inp pos) (pos + 1)
        (by omega) (by omega) (by omega) hs2
      rw [underflowLoop_succ_true hc, hbody] at *
      simp only [List.foldl_cons, List.length_cons, happ]
      refine ⟨hrec.1, hrec.2.1, ?_⟩
      rw [hrec.2.2]
      omega
    · rw [underflowLoop_succ_false hc]
      exact ⟨h1, h2, rfl⟩

/-- Bounds on the decoder code window after interpreting the full
renormalization trace. -/
theorem decFold_renorm {b : Nat} {inp : List Nat} (hb : 1 ≤ b) (hb63 : b ≤ 63)
    (hbits : ∀ x ∈ inp, x ≤ 1) (lo hi code pos : Nat) (h1 : lo ≤ code)
    (h2 : code ≤ hi) (h3 : hi < 2 ^ b) :
    (renorm b lo hi).1 ≤
        ((renorm b lo hi).2.2.foldl (decApplyEvent b inp) (code, pos)).1 ∧
      ((renorm b lo hi).2.2.foldl (decApplyEvent b inp) (code, pos)).1 ≤
        (renorm b lo hi).2.1 ∧
      ((renorm b lo hi).2.2.foldl (decApplyEvent b inp) (code, pos)).2 =
        pos + (renorm b lo hi).2.2.length := by
  have hfuel : 2 ^ b ≤ 2 ^ (b + 1) * (hi - lo + 1) := by
    have ha : (2 : Nat) ^ b ≤ 2 ^ (b + 1) := Nat.pow_le_pow_right (by norm_num) (by omega)
    have hbb : 1 ≤ hi - lo + 1 := by omega
    calc (2 : Nat) ^ b ≤ 2 ^ (b + 1) := ha
    _ = 2 ^ (b + 1) * 1 := by ring
    _ ≤ 2 ^ (b + 1) * (hi - lo + 1) := Nat.mul_le_mul_left _ hbb
  obtain ⟨hs1, hle1, hlt1⟩ := shiftLoop_spec hb (b + 1) lo hi (le_trans h1 h2) h3 hfuel
  obtain ⟨hf1, hf2, hf3⟩ := decFold_shiftLoop hb hbits (b + 1) lo hi code pos h1 h2 h3
  have hshape : renorm b lo hi =
      ((underflowLoop b (b + 1) (shiftLoop b (b + 1) lo hi).1
          (shiftLoop b (b + 1) lo hi).2.1).1,
        (underflowLoop b (b + 1) (shiftLoop b (b + 1) lo hi).1
          (shiftLoop b (b + 1) lo hi).2.1).2.1,
        (shiftLoop b (b + 1) lo hi).2.2 ++
          (underflowLoop b (b + 1) (shiftLoop b (b + 1) lo hi).1
            (shiftLoop b (b + 1) lo hi).2.1).2.2) := rfl
  rw [hshape]
  simp only [List.foldl_append, List.length_append]
  have hcp : (shiftLoop b (b + 1) lo hi).2.2.foldl (decApplyEvent b inp) (code, pos)
      = (((shiftLoop b (b + 1) lo hi).2.2.foldl (decApplyEvent b inp) (code, pos)).1,
         ((shiftLoop b (b + 1) lo hi).2.2.foldl (decApplyEvent b inp) (code, pos)).2) := rfl
  rw [hcp]
  obtain ⟨hg1, hg2, hg3⟩ := decFold_underflowLoop hb hb63 hbits (b + 1)
    (shiftLoop b (b + 1) lo hi).1 (shiftLoop b (b + 1) lo hi).2.1
    (((shiftLoop b (b + 1) lo hi).2.2.foldl (decApplyEvent b inp) (code, pos)).1)
    (((shiftLoop b (b + 1) lo hi).2.2.foldl (decApplyEvent b inp) (code, pos)).2)
    hf1 hf2 hlt1 hs1
  refine ⟨hg1, hg2, ?_⟩
  rw [hg3, hf3]
  omega

/-! ## The value computation of Decoder.read (lines 88-94) -/

theorem value_facts {r total o : Nat} (htot : 0 < total) (hoff : o < r) :
    ((o + 1) * total - 1) / r < total ∧
    (((o + 1) * total - 1) / r) * r / total ≤ o := by
  have hr : 0 < r := by omega
  have hmul : (o + 1) * total = o * total + total := by ring
  constructor
  · rw [Nat.div_lt_iff_lt_mul hr]
    have h1 : (o + 1) * total ≤ r * total := Nat.mul_le_mul_right _ (by omega)
    have h2 : 0 < (o + 1) * total := by positivity
    calc (o + 1) * total - 1 < (o + 1) * total := by omega
    _ ≤ r * total := h1
    _ = total * r := by ring
  · have h1 : (((o + 1) * total - 1) / r) * r ≤ (o + 1) * total - 1 :=
      Nat.div_mul_le_self _ _
    have h3 : (((o + 1) * total - 1) / r) * r / total
        ≤ ((o + 1) * total - 1) / total := Nat.div_le_div_right h1
    have h4 : ((o + 1) * total - 1) / total = o :=
      div_eq_of_between (by omega) (by omega)
    omega

theorem offset_in_symbol {r total offset sl sh : Nat} (htot : 0 < total) (hr : 0 < r)
    (hsl : sl ≤ ((offset + 1) * total - 1) / r)
    (hsh : ((offset + 1) * total - 1) / r < sh) :
    sl * r / total ≤ offset ∧ offset < sh * r / total := by
  have hmul : (offset + 1) * total = offset * total + total := by ring
  constructor
  · have h1 : sl * r ≤ (((offset + 1) * total - 1) / r) * r := Nat.mul_le_mul_right _ hsl
    have h2 : (((offset + 1) * total - 1) / r) * r ≤ (offset + 1) * total - 1 :=
      Nat.div_mul_le_self _ _
    have h3 : sl * r / total ≤ ((offset + 1) * total - 1) / total :=
      Nat.div_le_div_right (by omega)
    have h4 : ((offset + 1) * total - 1) / total = offset :=
      div_eq_of_between (by omega) (by omega)
    omega
  · have hdm := Nat.div_add_mod ((offset + 1) * total - 1) r
    have hmr : ((offset + 1) * total - 1) % r < r := Nat.mod_lt _ hr
    have h1 : (offset + 1) * total ≤ ((((offset + 1) * total - 1) / r) + 1) * r := by
      have he : ((((offset + 1) * total - 1) / r) + 1) * r
          = r * (((offset + 1) * total - 1) / r) + r := by ring
      rw [he]
      revert hdm hmr
      generalize ((offset + 1) * total - 1) % r = m
      generalize r * (((offset + 1) * total - 1) / r) = p
      intro hdm hmr
      have hpos : 0 < (offset + 1) * total := by positivity
      omega
    have h2 : ((((offset + 1) * total - 1) / r) + 1) * r ≤ sh * r :=
      Nat.mul_le_mul_right _ (by omega)
    have h3 : (offset + 1) * total ≤ sh * r := le_trans h1 h2
    have h4 : offset + 1 ≤ sh * r / total := (Nat.le_div_iff_mul_le htot).mpr h3
    omega

theorem value_in_symbol {r total offset sl sh : Nat} (htot : 0 < total) (hr : 0 < r)
    (hlo : sl * r / total ≤ offset) (hhi : offset < sh * r / total) :
    sl ≤ ((offset + 1) * total - 1) / r ∧ ((offset + 1) * total - 1) / r < sh := by
  have hpos : 0 < (offset + 1) * total := by positivity
  constructor
  · have h1 : sl * r / total < offset + 1 := by omega
    have h2 : sl * r < (offset + 1) * total := (Nat.div_lt_iff_lt_mul htot).mp h1
    have h3 : sl * r ≤ (offset + 1) * total - 1 := by omega
    exact (Nat.le_div_iff_mul_le hr).mpr h3
  · have h1 : offset + 1 ≤ sh * r / total := hhi
    have h2 : (offset + 1) * total ≤ sh * r := (Nat.le_div_iff_mul_le htot).mp h1
    have h3 : (offset + 1) * total - 1 < sh * r := by omega
    rw [Nat.mul_comm sh r] at h3
    exact Nat.div_lt_of_lt_mul h3

/-! ## Search soundness without fuel bounds -/

/-- Whenever the search loop exits at all — even through the `uint32_t`
wraparound of `middle` — the exit point is correct under the table
contract. -/
theorem searchLoop_sound {t : FreqTable} (hv : t.Valid) {value : Nat}
    (hval : value < t.getTotal) :
    ∀ f start stop st en, start < stop → stop ≤ t.getSymbolLimit →
      t.getLow start ≤ value →
      (stop < t.getSymbolLimit → value < t.getLow stop) →
      searchLoop t value f start stop = some (st, en) →
      en = st + 1 ∧ st < t.getSymbolLimit ∧ t.getLow st ≤ value ∧
        value < t.getHigh st := by
  have hv2 := hv
  obtain ⟨hc1, hc2, hc3, hc4, hc5, hc6, hc7, hc8⟩ := hv2
  have hexit : ∀ start stop, start < stop → stop ≤ t.getSymbolLimit →
      t.getLow start ≤ value → (stop < t.getSymbolLimit → value < t.getLow stop) →
      stop - start ≤ 1 →
      stop = start + 1 ∧ start < t.getSymbolLimit ∧ t.getLow start ≤ value ∧
        value < t.getHigh start := by
    intro start stop hss hstop hlow hsent hw
    have hse : stop = start + 1 := by omega
    refine ⟨hse, by omega, hlow, ?_⟩
    rcases Nat.lt_or_ge stop t.getSymbolLimit with hin | hend
    · have hs := hsent hin
      rw [hse] at hs
      have hstep : t.getHigh start = t.getLow (start + 1) := hc5 start (by omega)
      omega
    · have heq : start = t.getSymbolLimit - 1 := by omega
      rw [heq, hc8]
      exact hval
  intro f
  induction f with
  | zero =>
    intro start stop st en hss hstop hlow hsent hloop
    rw [searchLoop] at hloop
    by_cases hcond : sub32 stop start > 1
    · rw [if_pos hcond] at hloop
      exact absurd hloop (by simp)
    · rw [if_neg hcond] at hloop
      have hsub : sub32 stop start = stop - start :=
        sub32_eq (by omega) (by have := hc2; rw [U32_eq] at *; omega)
      rw [hsub] at hcond
      obtain ⟨h1, h2⟩ : st = start ∧ en = stop := by
        have := hloop
        simp at this
        exact ⟨this.1.symm, this.2.symm⟩
      subst h1
      subst h2
      obtain ⟨he1, he2, he3, he4⟩ := hexit st en hss hstop hlow hsent (by omega)
      exact ⟨he1, he2, he3, he4⟩
  | succ f ih =>
    intro start stop st en hss hstop hlow hsent hloop
    rw [searchLoop] at hloop
    by_cases hcond : sub32 stop start > 1
    · rw [if_pos hcond] at hloop
      have hmid_le : add32 start stop >>> 1 < stop := by
        rw [add32, Nat.shiftRight_eq_div_pow, pow_one]
        have hmle : (start + stop) % U32 ≤ start + stop := Nat.mod_le _ _
        omega
      by_cases hgt : t.getLow (add32 start stop >>> 1) > value
      · rw [if_pos hgt] at hloop
        have hmid_gt : start < add32 start stop >>> 1 := by
          by_contra hcon
          have hmono : t.getLow (add32 start stop >>> 1) ≤ t.getLow start :=
            valid_getLow_mono hv start (by omega) _ (by omega)
          omega
        exact ih start (add32 start stop >>> 1) st en hmid_gt (by omega) hlow
          (fun _ => hgt) hloop
      · rw [if_neg hgt] at hloop
        have hmid_pos : start ≤ add32 start stop >>> 1 ∨ add32 start stop >>> 1 < start := by
          omega
        exact ih (add32 start stop >>> 1) stop st en hmid_le hstop (by omega)
          hsent hloop
    · rw [if_neg hcond] at hloop
      have hsub : sub32 stop start = stop - start :=
        sub32_eq (by omega) (by have := hc2; rw [U32_eq] at *; omega)
      rw [hsub] at hcond
      obtain ⟨h1, h2⟩ : st = start ∧ en = stop := by
        have := hloop
        simp at this
        exact ⟨this.1.symm, this.2.symm⟩
      subst h1
      subst h2
      exact hexit st en hss hstop hlow hsent (by omega)

/-! ## Decoder state invariant and read analysis -/

/-- The decoder state invariant: the interval invariant plus
`low ≤ code ≤ high`. -/
def DecInv (b : Nat) (s : DecoderState) : Prop :=
  PostInv b s.low s.high ∧ s.low ≤ s.code ∧ s.code ≤ s.high

/-- With a zero-total (yet contract-conforming) table the read fails at the
`value >= total` assertion, before any state is touched. -/
theorem decRead_total0 {b : Nat} {t : FreqTable} {inp : List Nat} {f : Nat}
    {s : DecoderState} (htot : t.getTotal = 0) :
    decRead b t inp f s = some (.error .valueTotalAssert) := by
  simp only [decRead, htot]
  rw [if_neg (by omega), Nat.div_zero, if_neg (by omega), if_pos (Nat.zero_le _)]

/-- Complete characterization of `Decoder.read` on an in-contract state with
positive total: it diverges exactly when the binary search loop does, and
otherwise returns (without any error) the symbol found by the search, whose
narrowed sub-interval contains the code window; the new state is the shared
update's result with the hook events interpreted on (code, pos), and it
satisfies the decoder invariant again. -/
theorem decRead_run {b : Nat} {t : FreqTable} {inp : List Nat} {f : Nat}
    {s : DecoderState} (hb : 1 ≤ b) (hb63 : b ≤ 63) (hv : t.Valid)
    (htot : t.getTotal ≤ MAX_TOTAL b) (htpos : 0 < t.getTotal)
    (hbits : ∀ x ∈ inp, x ≤ 1) (hinv : DecInv b s) :
    (searchLoop t (((s.code - s.low + 1) * t.getTotal - 1) / (s.high - s.low + 1))
        f 0 t.getSymbolLimit = none → decRead b t inp f s = none) ∧
    (∀ st en, searchLoop t (((s.code - s.low + 1) * t.getTotal - 1) / (s.high - s.low + 1))
        f 0 t.getSymbolLimit = some (st, en) →
      SymOK b t st ∧
      narrowLow t st s.low s.high ≤ s.code ∧ s.code ≤ narrowHigh t st s.low s.high ∧
      ∃ s2 : DecoderState,
        decRead b t inp f s = some (.ok (st, s2)) ∧
        s2.low = (renorm b (narrowLow t st s.low s.high) (narrowHigh t st s.low s.high)).1 ∧
        s2.high = (renorm b (narrowLow t st s.low s.high) (narrowHigh t st s.low s.high)).2.1 ∧
        (s2.code, s2.pos) =
          (renorm b (narrowLow t st s.low s.high)
            (narrowHigh t st s.low s.high)).2.2.foldl (decApplyEvent b inp) (s.code, s.pos) ∧
        DecInv b s2) := by
  obtain ⟨⟨⟨hlt, hmask, hmin, hfull⟩, hsc⟩, hcl, hch⟩ := hinv
  have hv2 := hv
  obtain ⟨hk1, hk2, hk3, hk4, hk5, hk6, hk7, hk8⟩ := hv2
  have hhi_lt : s.high < 2 ^ b := by
    rw [MASK_eq] at hmask
    have h0 : (0 : Nat) < 2 ^ b := Nat.two_pow_pos _
    omega
  have hU : (2 : Nat) ^ b < U64 := by
    rw [U64_eq]
    exact Nat.pow_lt_pow_right (by norm_num) (by omega)
  have hrange_le : s.high - s.low + 1 ≤ fullRange b := hfull
  have hrange_ge : t.getTotal ≤ s.high - s.low + 1 :=
    le_trans (le_trans htot (MAX_TOTAL_le_MIN_RANGE b)) hmin
  have hoffr : s.code - s.low < s.high - s.low + 1 := by omega
  -- exact values of the uint64 computations
  have hsub1 : sub64 s.high s.low = s.high - s.low :=
    sub64_eq (by omega) (by omega)
  have hadd1 : add64 (s.high - s.low) 1 = s.high - s.low + 1 :=
    add64_eq (by omega)
  have hsub2 : sub64 s.code s.low = s.code - s.low :=
    sub64_eq (by omega) (by omega)
  have hadd2 : add64 (s.code - s.low) 1 = s.code - s.low + 1 :=
    add64_eq (by omega)
  have hprod : (s.code - s.low + 1) * t.getTotal < U64 := by
    have hr9 : s.code - s.low + 1 ≤ s.high - s.low + 1 := by omega
    have h := prod_lt_U64 htot (le_refl t.getTotal) (le_trans hr9 hrange_le)
    rw [Nat.mul_comm] at h
    exact h
  have hmulv : mul64 (s.code - s.low + 1) t.getTotal
      = (s.code - s.low + 1) * t.getTotal := mul64_eq hprod
  have hsubv : sub64 ((s.code - s.low + 1) * t.getTotal) 1
      = (s.code - s.low + 1) * t.getTotal - 1 :=
    sub64_one (by
      have hp9 : 0 < (s.code - s.low + 1) * t.getTotal := by positivity
      omega) hprod
  obtain ⟨hvf1, hvf2⟩ := value_facts (r := s.high - s.low + 1)
    (o := s.code - s.low) htpos hoffr
  have hmulvr : mul64 (((s.code - s.low + 1) * t.getTotal - 1) / (s.high - s.low + 1))
      (s.high - s.low + 1)
      = (((s.code - s.low + 1) * t.getTotal - 1) / (s.high - s.low + 1))
        * (s.high - s.low + 1) :=
    mul64_eq (prod_lt_U64 htot (by omega) hrange_le)
  -- normalize the body of decRead
  have hbody : decRead b t inp f s =
      match searchLoop t (((s.code - s.low + 1) * t.getTotal - 1) / (s.high - s.low + 1))
          f 0 t.getSymbolLimit with
      | none => none
      | some (start, stop) =>
        if add32 start 1 ≠ stop then some (.error .searchAssert)
        else
          if s.code - s.low < mul64 (t.getLow start) (s.high - s.low + 1) / t.getTotal ∨
              mul64 (t.getHigh start) (s.high - s.low + 1) / t.getTotal ≤ s.code - s.low then
            some (.error .symbolRangeAssert)
          else
            match updateCore b t start s.low s.high with
            | .error e => some (.error e)
            | .ok (lo, hi, evs) =>
              let r := evs.foldl (decApplyEvent b inp) (s.code, s.pos)
              if r.1 < lo ∨ r.1 > hi then some (.error .codeAssert)
              else some (.ok (start, ⟨lo, hi, r.1, r.2⟩)) := by
    simp only [decRead]
    rw [if_neg (by omega), hsub1, hadd1, hsub2, hadd2, hmulv, hsubv, hmulvr,
      if_neg (by omega), if_neg (by omega)]
  constructor
  · intro hnone
    rw [hbody, hnone]
  · intro st en hsearch
    obtain ⟨hen, hst_lt, hst_lo, hst_hi⟩ :=
      searchLoop_sound hv hvf1 f 0 t.getSymbolLimit st en hk1 (le_refl _)
        (by rw [hk4]; exact Nat.zero_le _) (fun h => absurd h (lt_irrefl _)) hsearch
    have hok : SymOK b t st := ⟨hv, htot, hst_lt, lt_of_le_of_lt hst_lo hst_hi⟩
    obtain ⟨hos1, hos2⟩ := offset_in_symbol (r := s.high - s.low + 1) htpos
      (by omega) hst_lo hst_hi
    have hnl_le : narrowLow t st s.low s.high ≤ s.code := by
      rw [narrowLow]
      revert hos1
      generalize t.getLow st * (s.high - s.low + 1) / t.getTotal = q
      intro hos1
      omega
    have hnh_ge : s.code ≤ narrowHigh t st s.low s.high := by
      rw [narrowHigh]
      revert hos2
      generalize t.getHigh st * (s.high - s.low + 1) / t.getTotal = q
      intro hos2
      omega
    obtain ⟨hupd, hn1, hn2, hn3⟩ :=
      updateCore_ok hb hb63 ⟨hlt, hmask, hmin, hfull⟩ hok
    have hpostinv := updateCore_inv hb hb63 ⟨hlt, hmask, hmin, hfull⟩ hok
    have hnh_lt : narrowHigh t st s.low s.high < 2 ^ b := by omega
    obtain ⟨hfb1, hfb2, hfb3⟩ := decFold_renorm hb hb63 hbits
      (narrowLow t st s.low s.high) (narrowHigh t st s.low s.high) s.code s.pos
      hnl_le hnh_ge hnh_lt
    have hmul_lo : mul64 (t.getLow st) (s.high - s.low + 1)
        = t.getLow st * (s.high - s.low + 1) :=
      mul64_eq (prod_lt_U64 htot (valid_getLow_le_total hv hst_lt) hrange_le)
    have hmul_hi : mul64 (t.getHigh st) (s.high - s.low + 1)
        = t.getHigh st * (s.high - s.low + 1) :=
      mul64_eq (prod_lt_U64 htot (valid_getHigh_le_total hv hst_lt) hrange_le)
    refine ⟨hok, hnl_le, hnh_ge, ?_⟩
    refine ⟨⟨(renorm b (narrowLow t st s.low s.high) (narrowHigh t st s.low s.high)).1,
      (renorm b (narrowLow t st s.low s.high) (narrowHigh t st s.low s.high)).2.1,
      ((renorm b (narrowLow t st s.low s.high)
        (narrowHigh t st s.low s.high)).2.2.foldl (decApplyEvent b inp) (s.code, s.pos)).1,
      ((renorm b (narrowLow t st s.low s.high)
        (narrowHigh t st s.low s.high)).2.2.foldl (decApplyEvent b inp) (s.code, s.pos)).2⟩,
      ?_, rfl, rfl, rfl, ?_⟩
    · rw [hbody, hsearch]
      have haddst : add32 st 1 = st + 1 := by
        apply add32_eq
        rw [U32_eq]
        rw [U32_eq] at hk2
        omega
      have hupd2 : updateCore b t st s.low s.high = .ok
          ((renorm b (narrowLow t st s.low s.high) (narrowHigh t st s.low s.high)).1,
           (renorm b (narrowLow t st s.low s.high) (narrowHigh t st s.low s.high)).2.1,
           (renorm b (narrowLow t st s.low s.high) (narrowHigh t st s.low s.high)).2.2) := by
        rw [hupd]
      dsimp only
      rw [if_neg (by rw [haddst, hen]; exact fun h => h rfl)]
      rw [if_neg (by
        rw [hmul_lo, hmul_hi]
        push_neg
        exact ⟨hos1, hos2⟩)]
      rw [hupd2]
      dsimp only
      rw [if_neg (by push_neg; exact ⟨hfb1, hfb2⟩)]
    · exact ⟨hpostinv, hfb1, hfb2⟩

/-! ## Encoder write and decoder construction -/

/-- On an in-contract call, `Encoder.write` succeeds: the interval comes
from the shared update, and the hook events are interpreted on
(numUnderflow, out). -/
theorem encWrite_ok {b : Nat} {t : FreqTable} {sym : Nat} {s : EncoderState}
    (hb : 1 ≤ b) (hb63 : b ≤ 63) (hinv : StateInv b s.low s.high)
    (hok : SymOK b t sym) :
    encWrite b t sym s = .ok
      ⟨(renorm b (narrowLow t sym s.low s.high) (narrowHigh t sym s.low s.high)).1,
       (renorm b (narrowLow t sym s.low s.high) (narrowHigh t sym s.low s.high)).2.1,
       ((renorm b (narrowLow t sym s.low s.high)
          (narrowHigh t sym s.low s.high)).2.2.foldl (encApplyEvent b)
            (s.numUnderflow, s.out)).1,
       ((renorm b (narrowLow t sym s.low s.high)
          (narrowHigh t sym s.low s.high)).2.2.foldl (encApplyEvent b)
            (s.numUnderflow, s.out)).2⟩ ∧
    PostInv b (renorm b (narrowLow t sym s.low s.high) (narrowHigh t sym s.low s.high)).1
      (renorm b (narrowLow t sym s.low s.high) (narrowHigh t sym s.low s.high)).2.1 := by
  obtain ⟨hupd, h1, h2, h3⟩ := updateCore_ok hb hb63 hinv hok
  have hupd2 : updateCore b t sym s.low s.high = .ok
      ((renorm b (narrowLow t sym s.low s.high) (narrowHigh t sym s.low s.high)).1,
       (renorm b (narrowLow t sym s.low s.high) (narrowHigh t sym s.low s.high)).2.1,
       (renorm b (narrowLow t sym s.low s.high) (narrowHigh t sym s.low s.high)).2.2) := by
    rw [hupd]
  refine ⟨?_, updateCore_inv hb hb63 hinv hok⟩
  simp only [encWrite]
  rw [hupd2]

/-- The value primed into `code` by the decoder constructor is below `2^b`. -/
theorem decInit_code_lt {b : Nat} (inp : List Nat) (hbits : ∀ x ∈ inp, x ≤ 1) :
    (decInit b inp).code < 2 ^ b := by
  show (List.range b).foldl (fun c i => c <<< 1 ||| readCodeBit inp i) 0 < 2 ^ b
  induction b with
  | zero => simp
  | succ n ih =>
    rw [List.range_succ, List.foldl_append, List.foldl_cons, List.foldl_nil]
    have hbit := readCodeBit_le hbits n
    have hstep : ∀ c : Nat, (c <<< 1) ||| readCodeBit inp n = 2 * c + readCodeBit inp n := by
      intro c
      rw [Nat.shiftLeft_eq, pow_one, Nat.mul_comm c 2]
      exact even_or_bit (by omega) hbit
    rw [hstep]
    rw [pow_succ]
    omega

/-- `MIN_RANGE` never exceeds the full interval width. -/
theorem MIN_RANGE_le_fullRange {b : Nat} (hb : 1 ≤ b) :
    MIN_RANGE b ≤ fullRange b := by
  rw [MIN_RANGE_eq, quarterRange_eq, fullRange_eq]
  rcases Nat.lt_or_ge b 2 with h1 | h2
  · have hbe : b = 1 := by omega
    subst hbe
    norm_num
  · have hq : (2 : Nat) ^ b = 4 * 2 ^ (b - 2) := by
      have h4 : (4 : Nat) = 2 ^ 2 := by norm_num
      rw [h4, ← pow_add]
      congr 1
      omega
    have hqq : (2 : Nat) ^ b / 4 = 2 ^ (b - 2) := by
      rw [hq, Nat.mul_div_cancel_left _ (by norm_num)]
    have hqpos : (0 : Nat) < 2 ^ (b - 2) := Nat.two_pow_pos _
    omega

/-- The decoder constructor establishes the decoder invariant for any bit
input. -/
theorem decInit_inv {b : Nat} (hb : 1 ≤ b) (inp : List Nat)
    (hbits : ∀ x ∈ inp, x ≤ 1) : DecInv b (decInit b inp) := by
  have hmask_pos : 1 ≤ MASK b := by
    rw [MASK_eq]
    have h2 : (2 : Nat) ^ 1 ≤ 2 ^ b := Nat.pow_le_pow_right (by norm_num) hb
    omega
  have hlow : (decInit b inp).low = 0 := rfl
  have hhigh : (decInit b inp).high = MASK b := rfl
  have hhalf_le : 2 ^ (b - 1) ≤ MASK b := by
    rw [MASK_eq]
    have hsplit : (2 : Nat) ^ b = 2 * 2 ^ (b - 1) := by
      rw [← pow_succ']; congr 1; omega
    have hq : (0 : Nat) < 2 ^ (b - 1) := Nat.two_pow_pos _
    omega
  have hmask_lt : MASK b < 2 ^ b := by
    rw [MASK_eq]
    have h0 : (0 : Nat) < 2 ^ b := Nat.two_pow_pos _
    omega
  refine ⟨⟨⟨?_, ?_, ?_, ?_⟩, ?_⟩, ?_, ?_⟩
  · rw [hlow, hhigh]; omega
  · rw [hhigh]
  · rw [hlow, hhigh, MASK_eq]
    have h1 := MIN_RANGE_le_fullRange hb
    rw [fullRange_eq] at h1
    have h0 : (0 : Nat) < 2 ^ b := Nat.two_pow_pos _
    omega
  · rw [hlow, hhigh, MASK_eq, fullRange_eq]
    have h0 : (0 : Nat) < 2 ^ b := Nat.two_pow_pos _
    omega
  · rw [hlow, hhigh]
    exact shiftCond_false_of_split hb (Nat.two_pow_pos _) hhalf_le hmask_lt
  · rw [hlow]
    exact Nat.zero_le _
  · rw [hhigh, MASK_eq]
    have := decInit_code_lt inp hbits (b := b)
    omega

/-! ## Claim C2: state invariants and unreachable defensive checks -/

/-- **C2**: the interval invariant `0 ≤ low < high ≤ mask`,
`minRange ≤ high - low + 1 ≤ fullRange` (`StateInv`) holds initially and
after every completed in-contract update on either side; the decoder
additionally maintains `low ≤ code ≤ high` (`DecInv`) from construction
through every completed read.  Consequently the defensive state checks at
the start of `update` never throw on an in-contract call, and a read that
returns at all either decodes a symbol (no logic error, and the final
code-out-of-range check passes) or — only in the degenerate `total = 0`
case — stops at the `value ≥ total` assertion, which is not one of the
checks named by the claim. -/
theorem C2_invariants {b : Nat} (hb : 1 ≤ b) (hb63 : b ≤ 63) :
    (StateInv b (encInit b).low (encInit b).high) ∧
    (∀ t sym (s : EncoderState), SymOK b t sym → StateInv b s.low s.high →
      ∃ s2, encWrite b t sym s = .ok s2 ∧ StateInv b s2.low s2.high) ∧
    (∀ inp, (∀ x ∈ inp, x ≤ 1) →
      StateInv b (decInit b inp).low (decInit b inp).high ∧
      (decInit b inp).low ≤ (decInit b inp).code ∧
      (decInit b inp).code ≤ (decInit b inp).high) ∧
    (∀ t inp fuel (s : DecoderState) r, t.Valid → t.getTotal ≤ MAX_TOTAL b →
      (∀ x ∈ inp, x ≤ 1) → DecInv b s → decRead b t inp fuel s = some r →
      (r = .error .valueTotalAssert ∧ t.getTotal = 0) ∨
      (∃ sym s2, r = .ok (sym, s2) ∧ DecInv b s2 ∧
        s2.low < s2.high ∧ s2.high ≤ MASK b ∧
        MIN_RANGE b ≤ s2.high - s2.low + 1 ∧ s2.high - s2.low + 1 ≤ fullRange b ∧
        s2.low ≤ s2.code ∧ s2.code ≤ s2.high)) ∧
    (∀ t sym lo hi, SymOK b t sym → StateInv b lo hi →
      updateCore b t sym lo hi ≠ .error .lowHighAssert ∧
      updateCore b t sym lo hi ≠ .error .rangeAssert) := by
  refine ⟨?_, ?_, ?_, ?_, ?_⟩
  · exact (decInit_inv hb [] (by simp)).1.1
  · intro t sym s hok hinv
    obtain ⟨hw, hpost⟩ := encWrite_ok hb hb63 hinv hok
    exact ⟨_, hw, hpost.1⟩
  · intro inp hbits
    obtain ⟨⟨hsi, _⟩, hc1, hc2⟩ := decInit_inv hb inp hbits
    exact ⟨hsi, hc1, hc2⟩
  · intro t inp fuel s r hv htot hbits hinv hread
    rcases Nat.eq_zero_or_pos t.getTotal with h0 | hpos
    · left
      rw [decRead_total0 h0] at hread
      have := Option.some.inj hread
      exact ⟨this.symm, h0⟩
    · right
      obtain ⟨hnone, hsome⟩ := decRead_run hb hb63 hv htot hpos hbits hinv
      rcases hs : searchLoop t (((s.code - s.low + 1) * t.getTotal - 1) /
          (s.high - s.low + 1)) fuel 0 t.getSymbolLimit with _ | ⟨st, en⟩
      · rw [hnone hs] at hread
        exact absurd hread (by simp)
      · obtain ⟨hok, hnl, hnh, s2, hr, he1, he2, he3, hinv2⟩ := hsome st en hs
        rw [hr] at hread
        have hre := Option.some.inj hread
        refine ⟨st, s2, hre.symm, hinv2, ?_, ?_, ?_, ?_, hinv2.2.1, hinv2.2.2⟩
        · exact hinv2.1.1.1
        · exact hinv2.1.1.2.1
        · exact hinv2.1.1.2.2.1
        · exact hinv2.1.1.2.2.2
  · intro t sym lo hi hok hinv
    obtain ⟨hupd, _, _, _⟩ := updateCore_ok hb hb63 hinv hok
    rw [hupd]
    exact ⟨by simp, by simp⟩

/-- Witness for C2 at state size 8 on the concrete section-8 table. -/
theorem C2_invariants_witness :
    ∃ s2, encWrite 8 ⟨3, 4, (fun s => if s = 0 then 0 else if s = 1 then 1 else
        if s = 2 then 2 else 4),
      (fun s => if s = 0 then 1 else if s = 1 then 2 else 4)⟩ 0 (encInit 8) = .ok s2 ∧
      StateInv 8 s2.low s2.high := by
  refine (C2_invariants (by norm_num) (by norm_num)).2.1 _ 0 (encInit 8) ⟨?_, ?_, ?_, ?_⟩ ?_
  · decide
  · decide
  · decide
  · decide
  · exact (C2_invariants (by norm_num) (by norm_num)).1

/-- The concrete section-8 scenario table: 3 symbols with frequencies
{1, 1, 2}, total 4. -/
def exT : FreqTable :=
  ⟨3, 4,
    (fun s => if s = 0 then 0 else if s = 1 then 1 else if s = 2 then 2 else 4),
    (fun s => if s = 0 then 1 else if s = 1 then 2 else 4)⟩

/-! ## Claim C3: the narrowing formulas and the shared update -/

/-- **C3**: on every in-contract call, with `range = high - low + 1`, the
narrowing computes exactly `newLow = low + ⌊symLow·range/total⌋` and
`newHigh = low + ⌊symHigh·range/total⌋ - 1` in integer floor division, and
both `Encoder.write` and `Decoder.read` produce their new interval through
this one shared update computation. -/
theorem C3_narrowing {b : Nat} {t : FreqTable} {sym lo hi : Nat} (hb : 1 ≤ b)
    (hb63 : b ≤ 63) (hinv : StateInv b lo hi) (hok : SymOK b t sym) :
    updateCore b t sym lo hi = .ok (renorm b
      (lo + t.getLow sym * (hi - lo + 1) / t.getTotal)
      (lo + t.getHigh sym * (hi - lo + 1) / t.getTotal - 1)) ∧
    (∀ s : EncoderState, s.low = lo → s.high = hi →
      ∃ s2, encWrite b t sym s = .ok s2 ∧
        s2.low = (renorm b (narrowLow t sym lo hi) (narrowHigh t sym lo hi)).1 ∧
        s2.high = (renorm b (narrowLow t sym lo hi) (narrowHigh t sym lo hi)).2.1) ∧
    (∀ inp fuel (s : DecoderState) s2, s.low = lo → s.high = hi →
      (∀ x ∈ inp, x ≤ 1) → DecInv b s →
      decRead b t inp fuel s = some (.ok (sym, s2)) →
      s2.low = (renorm b (narrowLow t sym lo hi) (narrowHigh t sym lo hi)).1 ∧
      s2.high = (renorm b (narrowLow t sym lo hi) (narrowHigh t sym lo hi)).2.1) := by
  refine ⟨(updateCore_ok hb hb63 hinv hok).1, ?_, ?_⟩
  · intro s hsl hsh
    have hinv2 : StateInv b s.low s.high := by rw [hsl, hsh]; exact hinv
    obtain ⟨hw, _⟩ := encWrite_ok hb hb63 hinv2 hok
    rw [hsl, hsh] at hw
    exact ⟨_, hw, rfl, rfl⟩
  · intro inp fuel s s2 hsl hsh hbits hinv2 hread
    rcases Nat.eq_zero_or_pos t.getTotal with h0 | hpos
    · rw [decRead_total0 h0] at hread
      exact absurd (Option.some.inj hread) (by simp)
    · obtain ⟨hnone, hsome⟩ := decRead_run hb hb63 hok.1 hok.2.1 hpos hbits hinv2
      rcases hs : searchLoop t (((s.code - s.low + 1) * t.getTotal - 1) /
          (s.high - s.low + 1)) fuel 0 t.getSymbolLimit with _ | ⟨st, en⟩
      · rw [hnone hs] at hread
        exact absurd hread (by simp)
      · obtain ⟨hok2, hnl, hnh, s3, hr, he1, he2, he3, hinv3⟩ := hsome st en hs
        rw [hr] at hread
        have hre := Option.some.inj hread
        have hre2 := Except.ok.inj hre.symm
        have hsym : sym = st := (Prod.mk.injEq _ _ _ _).mp hre2 |>.1
        have hst : s2 = s3 := (Prod.mk.injEq _ _ _ _).mp hre2 |>.2 |>.symm.symm
        subst hsym
        rw [hst, hsl, hsh] at *
        exact ⟨he1, he2⟩

/-- Witness for C3 on the concrete section-8 table at state size 32. -/
theorem C3_narrowing_witness :
    updateCore 32 exT 2 0 (MASK 32) = .ok (renorm 32
      (0 + exT.getLow 2 * (MASK 32 - 0 + 1) / exT.getTotal)
      (0 + exT.getHigh 2 * (MASK 32 - 0 + 1) / exT.getTotal - 1)) := by
  refine (C3_narrowing (by norm_num) (by norm_num) ⟨?_, ?_, ?_, ?_⟩
    ⟨?_, ?_, ?_, ?_⟩).1
  · decide
  · decide
  · decide
  · decide
  · decide
  · decide
  · decide
  · decide

/-! ## Claim C4: rejection of invalid tables and symbols -/

/-- A contract-valid table whose total 67 exceeds `MAX_TOTAL 8 = 66` and
whose symbol 0 has zero frequency. -/
def T4 : FreqTable :=
  ⟨2, 67,
    (fun s => if s = 0 then 0 else if s = 1 then 0 else 67),
    (fun s => if s = 0 then 0 else 67)⟩

/-- **C4 counterexample**: the claim says `Encoder.write` fails with the
"total too large" error even when the written symbol simultaneously has
zero frequency; the code checks zero frequency first, so on the valid table
`T4` (total 67 > maxTotal 66, symbol 0 of zero frequency) the write throws
"zero frequency" instead. -/
theorem C4_counterexample :
    T4.Valid ∧ MAX_TOTAL 8 < T4.getTotal ∧ T4.getLow 0 = T4.getHigh 0 ∧
    encWrite 8 T4 0 (encInit 8) = .error .zeroFrequency ∧
    encWrite 8 T4 0 (encInit 8) ≠ .error .totalTooLarge := by
  have he : encWrite 8 T4 0 (encInit 8) = .error .zeroFrequency := by rfl
  refine ⟨by decide, by decide, by decide, he, ?_⟩
  rw [he]
  intro h
  exact absurd (Except.error.inj h) (by decide)

/-- **C4 (amended)**: `Decoder.read` rejects any table with
`total > maxTotal` with the "total too large" error; `Encoder.write` checks
zero frequency first, so it throws "zero frequency" whenever the symbol has
zero frequency (even when the total is also too large) and "total too
large" when the total is too large and the symbol has nonzero frequency; in
all other in-contract cases neither error is raised. -/
theorem C4_rejection {b : Nat} (hb : 1 ≤ b) (hb63 : b ≤ 63) :
    (∀ t sym (s : EncoderState), StateInv b s.low s.high →
      t.getLow sym = t.getHigh sym →
      encWrite b t sym s = .error .zeroFrequency) ∧
    (∀ t sym (s : EncoderState), StateInv b s.low s.high →
      t.getLow sym ≠ t.getHigh sym → MAX_TOTAL b < t.getTotal →
      encWrite b t sym s = .error .totalTooLarge) ∧
    (∀ t inp fuel (s : DecoderState), MAX_TOTAL b < t.getTotal →
      decRead b t inp fuel s = some (.error .totalTooLarge)) ∧
    (∀ t sym (s : EncoderState), SymOK b t sym → StateInv b s.low s.high →
      ∃ s2, encWrite b t sym s = .ok s2) ∧
    (∀ t inp fuel (s : DecoderState) r, t.Valid → t.getTotal ≤ MAX_TOTAL b →
      (∀ x ∈ inp, x ≤ 1) → DecInv b s → decRead b t inp fuel s = some r →
      r ≠ .error .zeroFrequency ∧ r ≠ .error .totalTooLarge) := by
  have hguards : ∀ lo hi : Nat, StateInv b lo hi →
      ¬ (lo ≥ hi ∨ lo &&& MASK b ≠ lo ∨ hi &&& MASK b ≠ hi) ∧
      ¬ (hi - lo + 1 < MIN_RANGE b ∨ hi - lo + 1 > fullRange b) := by
    intro lo hi hinv
    obtain ⟨hlt, hmask, hmin, hfull⟩ := hinv
    have hhi_lt : hi < 2 ^ b := by
      rw [MASK_eq] at hmask
      have h0 : (0 : Nat) < 2 ^ b := Nat.two_pow_pos _
      omega
    have hlo_lt : lo < 2 ^ b := by omega
    constructor
    · push_neg
      refine ⟨by omega, ?_, ?_⟩
      · rw [and_mask_eq_mod]; exact Nat.mod_eq_of_lt hlo_lt
      · rw [and_mask_eq_mod]; exact Nat.mod_eq_of_lt hhi_lt
    · push_neg
      exact ⟨hmin, hfull⟩
  refine ⟨?_, ?_, ?_, ?_, ?_⟩
  · intro t sym s hinv hzero
    obtain ⟨hg1, hg2⟩ := hguards s.low s.high hinv
    simp only [encWrite, updateCore]
    rw [if_neg hg1, if_neg hg2, if_pos hzero]
  · intro t sym s hinv hzero htot
    obtain ⟨hg1, hg2⟩ := hguards s.low s.high hinv
    simp only [encWrite, updateCore]
    rw [if_neg hg1, if_neg hg2, if_neg hzero, if_pos htot]
  · intro t inp fuel s htot
    simp only [decRead]
    rw [if_pos htot]
  · intro t sym s hok hinv
    exact ⟨_, (encWrite_ok hb hb63 hinv hok).1⟩
  · intro t inp fuel s r hv htot hbits hinv hread
    rcases Nat.eq_zero_or_pos t.getTotal with h0 | hpos
    · rw [decRead_total0 h0] at hread
      have := Option.some.inj hread
      rw [← this]
      exact ⟨by simp, by simp⟩
    · obtain ⟨hnone, hsome⟩ := decRead_run hb hb63 hv htot hpos hbits hinv
      rcases hs : searchLoop t (((s.code - s.low + 1) * t.getTotal - 1) /
          (s.high - s.low + 1)) fuel 0 t.getSymbolLimit with _ | ⟨st, en⟩
      · rw [hnone hs] at hread
        exact absurd hread (by simp)
      · obtain ⟨hok2, hnl, hnh, s3, hr, _⟩ := hsome st en hs
        rw [hr] at hread
        have := Option.some.inj hread
        rw [← this]
        exact ⟨by simp, by simp⟩

/-- Witness for C4 (amended) at state size 8: the zero-frequency error on
`T4`, the total-too-large error on a nonzero-frequency symbol of `T4`, and
the decoder-side rejection. -/
theorem C4_rejection_witness :
    encWrite 8 T4 0 (encInit 8) = .error .zeroFrequency ∧
    encWrite 8 T4 1 (encInit 8) = .error .totalTooLarge ∧
    decRead 8 T4 [] 40 (decInit 8 []) = some (.error .totalTooLarge) := by
  refine ⟨?_, ?_, ?_⟩
  · exact (C4_rejection (by norm_num) (by norm_num)).1 T4 0 (encInit 8)
      (by refine ⟨?_, ?_, ?_, ?_⟩ <;> decide) (by decide)
  · exact (C4_rejection (by norm_num) (by norm_num)).2.1 T4 1 (encInit 8)
      (by refine ⟨?_, ?_, ?_, ?_⟩ <;> decide) (by decide) (by decide)
  · exact (C4_rejection (by norm_num) (by norm_num)).2.2.1 T4 [] 40 (decInit 8 [])
      (by decide)

/-! ## Claim C5: the binary search -/

/-- **C5 counterexample**: on the contract-valid table `badT`
(symbolLimit = 2^32 - 1) with `value = 0 < total`, the search loop never
terminates for any amount of fuel: `middle = (start + end) >> 1` wraps
around in `uint32_t` and the loop cycles, contradicting the claimed
termination for every contract table with `symbolLimit ≥ 1`. -/
theorem C5_counterexample :
    badT.Valid ∧ 0 < badT.getTotal ∧ (0 : Nat) < badT.getSymbolLimit ∧
    ¬ ∃ f p, searchLoop badT 0 f 0 badT.getSymbolLimit = some p := by
  refine ⟨badT_valid, by decide, by decide, ?_⟩
  rintro ⟨f, p, hp⟩
  have hnone := badT_searchLoop_none f 0 (by norm_num)
  have hlim : badT.getSymbolLimit = U32 - 1 := rfl
  rw [hlim] at hp
  rw [hnone] at hp
  exact absurd hp (by simp)

/-- **C5 (amended)**: for every contract table with
`symbolLimit ≤ 2^31` (so that `start + end` cannot wrap in `uint32_t`) and
every `value < total`, the search loop terminates (fuel 31 suffices) with
`start + 1 = end` and `start` the unique symbol with
`getLow start ≤ value < getHigh start`; in particular that symbol has
nonzero frequency. -/
theorem C5_binary_search {t : FreqTable} (hv : t.Valid) {value : Nat}
    (hlim : t.getSymbolLimit ≤ 2 ^ 31) (hval : value < t.getTotal) {f : Nat}
    (hf : 31 ≤ f) :
    ∃ s, searchLoop t value f 0 t.getSymbolLimit = some (s, s + 1) ∧
      s < t.getSymbolLimit ∧ t.getLow s ≤ value ∧ value < t.getHigh s ∧
      t.getLow s < t.getHigh s ∧
      ∀ s2, s2 < t.getSymbolLimit → t.getLow s2 ≤ value → value < t.getHigh s2 →
        s2 = s := by
  obtain ⟨s, h1, h2, h3, h4⟩ := searchLoop_full hv hlim hval hf
  exact ⟨s, h1, h2, h3, h4, lt_of_le_of_lt h3 h4, fun s2 ha hb2 hc =>
    symbol_unique hv ha h2 hb2 hc h3 h4⟩

/-- Witness for C5 (amended) on the concrete section-8 table. -/
theorem C5_binary_search_witness :
    ∃ s, searchLoop exT 2 31 0 exT.getSymbolLimit = some (s, s + 1) ∧
      s < exT.getSymbolLimit ∧ exT.getLow s ≤ 2 ∧ 2 < exT.getHigh s ∧
      exT.getLow s < exT.getHigh s ∧
      ∀ s2, s2 < exT.getSymbolLimit → exT.getLow s2 ≤ 2 → 2 < exT.getHigh s2 →
        s2 = s := by
  refine C5_binary_search ⟨?_, ?_, ?_, ?_, ?_, ?_, ?_, ?_⟩ (by decide) (by decide)
    (le_refl _)
  · decide
  · decide
  · decide
  · decide
  · decide
  · decide
  · decide
  · decide

/-! ## Claim C6: the interleaved renormalization loop -/

/-- The spec's interleaved renormalization: a single loop that re-checks the
top-bit-agreement guard with priority on every iteration, firing the
underflow guard only when the shift guard fails.  Follows the spec's words
for comparison with the sequential `renorm` of the source (lines 58-70). -/
def renormInter (b : Nat) : Nat → Nat → Nat → Nat × Nat × List REvent
  | 0, lo, hi => (lo, hi, [])
  | fuel + 1, lo, hi =>
    if shiftCond b lo hi then
      let p := shiftBody b lo hi
      let r := renormInter b fuel p.1 p.2
      (r.1, r.2.1, REvent.shiftEv lo hi :: r.2.2)
    else if underflowCond b lo hi then
      let p := underflowBody b lo hi
      let r := renormInter b fuel p.1 p.2
      (r.1, r.2.1, REvent.underflowEv lo hi :: r.2.2)
    else (lo, hi, [])

theorem renormInter_succ_shift {b f lo hi : Nat} (hc : shiftCond b lo hi = true) :
    renormInter b (f + 1) lo hi =
      ((renormInter b f (shiftBody b lo hi).1 (shiftBody b lo hi).2).1,
       (renormInter b f (shiftBody b lo hi).1 (shiftBody b lo hi).2).2.1,
       REvent.shiftEv lo hi ::
         (renormInter b f (shiftBody b lo hi).1 (shiftBody b lo hi).2).2.2) := by
  simp [renormInter, hc]

theorem renormInter_succ_under {b f lo hi : Nat} (hs : shiftCond b lo hi = false)
    (hu : underflowCond b lo hi = true) :
    renormInter b (f + 1) lo hi =
      ((renormInter b f (underflowBody b lo hi).1 (underflowBody b lo hi).2).1,
       (renormInter b f (underflowBody b lo hi).1 (underflowBody b lo hi).2).2.1,
       REvent.underflowEv lo hi ::
         (renormInter b f (underflowBody b lo hi).1 (underflowBody b lo hi).2).2.2) := by
  simp [renormInter, hs, hu]

theorem renormInter_succ_done {b f lo hi : Nat} (hs : shiftCond b lo hi = false)
    (hu : underflowCond b lo hi = false) :
    renormInter b (f + 1) lo hi = (lo, hi, []) := by
  simp [renormInter, hs, hu]

/-- The underflow loop body unconditionally leaves the top bits of `low`
and `high` different: the new low drops its top bit (masked with
`MASK >> 1`) while the new high gets `halfRange` or-ed in. -/
theorem underflowBody_shiftCond_false {b : Nat} (hb : 1 ≤ b) (lo hi : Nat) :
    shiftCond b (underflowBody b lo hi).1 (underflowBody b lo hi).2 = false := by
  rcases Nat.lt_or_ge b 2 with hb1 | hb2
  · have hbeq : b = 1 := by omega
    subst hbeq
    have h1 : underflowBody 1 lo hi = (0, 1) := by
      show ((lo <<< 1) &&& (MASK 1 >>> 1),
        ((hi <<< 1) &&& (MASK 1 >>> 1)) ||| halfRange 1 ||| 1) = (0, 1)
      have hm : MASK 1 >>> 1 = 0 := by decide
      rw [hm, Nat.and_zero, Nat.and_zero]
      rfl
    rw [h1]
    decide
  · rw [underflowBody_eq hb2]
    have hsplit : (2 : Nat) ^ (b - 1) = 2 * 2 ^ (b - 2) := by
      rw [← pow_succ']
      congr 1
      omega
    have hmod : 2 * hi % 2 ^ (b - 1) = 2 * (hi % 2 ^ (b - 2)) := by
      rw [hsplit, Nat.mul_mod_mul_left]
    have hsplit2 : (2 : Nat) ^ b = 2 * 2 ^ (b - 1) := by
      rw [← pow_succ']
      congr 1
      omega
    have hlo : 2 * lo % 2 ^ (b - 1) < 2 ^ (b - 1) :=
      Nat.mod_lt _ (Nat.two_pow_pos _)
    have hhi2 : hi % 2 ^ (b - 2) < 2 ^ (b - 2) := Nat.mod_lt _ (Nat.two_pow_pos _)
    refine shiftCond_false_of_split hb hlo (by omega) ?_
    rw [hmod, hsplit2, hsplit]
    omega

/-- Once the underflow guard fails, the underflow loop stops instantly at
any fuel. -/
theorem underflowLoop_of_condFalse {b lo hi : Nat}
    (hc : underflowCond b lo hi = false) :
    ∀ f, underflowLoop b f lo hi = (lo, hi, []) := by
  intro f
  cases f with
  | zero => exact underflowLoop_zero b lo hi
  | succ f => exact underflowLoop_succ_false hc

/-- Extra fuel does not change the underflow loop once some fuel already
exhausts its guard. -/
theorem underflowLoop_mono {b : Nat} :
    ∀ c d lo hi, c ≤ d →
    underflowCond b (underflowLoop b c lo hi).1 (underflowLoop b c lo hi).2.1 = false →
    underflowLoop b d lo hi = underflowLoop b c lo hi := by
  intro c
  induction c with
  | zero =>
    intro d lo hi _ hdone
    rw [underflowLoop_zero] at hdone ⊢
    exact underflowLoop_of_condFalse hdone d
  | succ c ih =>
    intro d lo hi hcd hdone
    by_cases hc : underflowCond b lo hi
    · obtain ⟨d2, rfl⟩ : ∃ d2, d = d2 + 1 := ⟨d - 1, by omega⟩
      rw [underflowLoop_succ_true hc] at hdone ⊢
      dsimp only at hdone ⊢
      rw [underflowLoop_succ_true hc]
      rw [ih d2 _ _ (by omega) hdone]
    · rw [Bool.not_eq_true] at hc
      rw [underflowLoop_succ_false hc] at hdone ⊢
      rw [underflowLoop_of_condFalse hc d]

/-- While the shift guard is false, the interleaved loop coincides with the
underflow loop: each underflow body re-falsifies the shift guard. -/
theorem renormInter_eq_underflowLoop {b : Nat} (hb : 1 ≤ b) :
    ∀ f lo hi, shiftCond b lo hi = false →
    renormInter b f lo hi = underflowLoop b f lo hi := by
  intro f
  induction f with
  | zero => intro lo hi _; rfl
  | succ f ih =>
    intro lo hi hs
    by_cases hu : underflowCond b lo hi
    · rw [renormInter_succ_under hs hu, underflowLoop_succ_true hu,
        ih _ _ (underflowBody_shiftCond_false hb lo hi)]
    · rw [Bool.not_eq_true] at hu
      rw [renormInter_succ_done hs hu, underflowLoop_succ_false hu]

/-- The interleaved loop splits into the sequential pair of loops whenever
those run to exhaustion within their fuel. -/
theorem renormInter_split {b : Nat} (hb : 1 ≤ b) :
    ∀ a c lo hi, lo ≤ hi → hi < 2 ^ b →
    shiftCond b (shiftLoop b a lo hi).1 (shiftLoop b a lo hi).2.1 = false →
    underflowCond b
      (underflowLoop b c (shiftLoop b a lo hi).1 (shiftLoop b a lo hi).2.1).1
      (underflowLoop b c (shiftLoop b a lo hi).1 (shiftLoop b a lo hi).2.1).2.1 = false →
    renormInter b (a + c) lo hi =
      ((underflowLoop b c (shiftLoop b a lo hi).1 (shiftLoop b a lo hi).2.1).1,
       (underflowLoop b c (shiftLoop b a lo hi).1 (shiftLoop b a lo hi).2.1).2.1,
       (shiftLoop b a lo hi).2.2 ++
         (underflowLoop b c (shiftLoop b a lo hi).1 (shiftLoop b a lo hi).2.1).2.2) := by
  intro a
  induction a with
  | zero =>
    intro c lo hi hlohi hhi hdone hexh
    rw [shiftLoop_zero] at hdone hexh ⊢
    dsimp only at hdone hexh ⊢
    rw [Nat.zero_add, renormInter_eq_underflowLoop hb c lo hi hdone,
      List.nil_append]
  | succ a ih =>
    intro c lo hi hlohi hhi hdone hexh
    by_cases hc : shiftCond b lo hi
    · rw [shiftLoop_succ_true hc] at hdone hexh ⊢
      dsimp only at hdone hexh ⊢
      have harith : a + 1 + c = (a + c) + 1 := by omega
      rw [harith, renormInter_succ_shift hc]
      rcases shiftStep_vals hb hlohi hhi hc with ⟨h1, h2, hp⟩ | ⟨h1, h2, hp⟩
      · rw [hp] at hdone hexh ⊢
        dsimp only at hdone hexh ⊢
        rw [ih c (2 * lo) (2 * hi + 1) (by omega) (by
          have hs2 : (2 : Nat) ^ b = 2 * 2 ^ (b - 1) := by
            rw [← pow_succ']
            congr 1
            omega
          omega) hdone hexh]
        rw [List.cons_append]
      · rw [hp] at hdone hexh ⊢
        dsimp only at hdone hexh ⊢
        rw [ih c (2 * lo - 2 ^ b) (2 * hi - 2 ^ b + 1) (by omega) (by
          have h0 : (2 : Nat) ^ 1 ≤ 2 ^ b := Nat.pow_le_pow_right (by norm_num) hb
          rw [pow_one] at h0
          omega) hdone hexh]
        rw [List.cons_append]
    · rw [Bool.not_eq_true] at hc
      rw [shiftLoop_succ_false hc] at hdone hexh ⊢
      dsimp only at hdone hexh ⊢
      rw [renormInter_eq_underflowLoop hb (a + 1 + c) lo hi hdone,
        underflowLoop_mono c (a + 1 + c) lo hi (by omega) hexh,
        List.nil_append]

/-- **C6**: every underflow-loop body unconditionally re-establishes
top-bit disagreement between `low` and `high` (the shift guard is false
right after it), and consequently the source's sequential form — the shift
loop run to exhaustion, then the underflow loop run to exhaustion — equals
the spec's interleaved loop that re-checks the shift guard with priority on
every iteration: same final `low`/`high` and the same sequence of hook
invocations with the same observed pre-states. -/
theorem C6_loop_equivalence {b : Nat} (hb : 1 ≤ b) (hb63 : b ≤ 63) :
    (∀ lo hi, shiftCond b (underflowBody b lo hi).1 (underflowBody b lo hi).2 = false) ∧
    (∀ lo hi, lo ≤ hi → hi ≤ MASK b →
      renormInter b ((b + 1) + (b + 1)) lo hi = renorm b lo hi) := by
  refine ⟨fun lo hi => underflowBody_shiftCond_false hb lo hi, ?_⟩
  intro lo hi hlohi hhi
  have hhi_lt : hi < 2 ^ b := by
    rw [MASK_eq] at hhi
    have h0 : (0 : Nat) < 2 ^ b := Nat.two_pow_pos _
    omega
  have hfuel : 2 ^ b ≤ 2 ^ (b + 1) * (hi - lo + 1) := by
    have h1 : (2 : Nat) ^ b ≤ 2 ^ (b + 1) :=
      Nat.pow_le_pow_right (by norm_num) (by omega)
    have h2 : 2 ^ (b + 1) * 1 ≤ 2 ^ (b + 1) * (hi - lo + 1) :=
      Nat.mul_le_mul_left _ (by omega)
    omega
  obtain ⟨hdone, hle, hlt⟩ := shiftLoop_spec hb (b + 1) lo hi hlohi hhi_lt hfuel
  have hfuel2 : 2 ^ b ≤ 2 ^ (b + 1) *
      ((shiftLoop b (b + 1) lo hi).2.1 - (shiftLoop b (b + 1) lo hi).1 + 1) := by
    have h1 : (2 : Nat) ^ b ≤ 2 ^ (b + 1) :=
      Nat.pow_le_pow_right (by norm_num) (by omega)
    have h2 : 2 ^ (b + 1) * 1 ≤ 2 ^ (b + 1) *
        ((shiftLoop b (b + 1) lo hi).2.1 - (shiftLoop b (b + 1) lo hi).1 + 1) :=
      Nat.mul_le_mul_left _ (by omega)
    omega
  obtain ⟨hexh, _, _, _⟩ :=
    underflowLoop_spec hb hb63 (b + 1) _ _ hle hlt hdone hfuel2
  rw [renormInter_split hb (b + 1) (b + 1) lo hi hlohi hhi_lt hdone hexh]
  rfl

/-- Witness for C6 at state size 8 on a pair with agreeing top bits. -/
theorem C6_loop_equivalence_witness :
    shiftCond 8 (underflowBody 8 100 170).1 (underflowBody 8 100 170).2 = false ∧
    renormInter 8 18 100 120 = renorm 8 100 120 :=
  ⟨(C6_loop_equivalence (by norm_num) (by norm_num)).1 100 170,
   (C6_loop_equivalence (by norm_num) (by norm_num)).2 100 120 (by norm_num)
     (by decide)⟩

/-! ## Claim C9: atomicity of the user-error rejection

A statement-ordered embedding: the mutable coder object is threaded through
the statements of `update`/`read` in source order, and a throw returns the
object exactly as it stood at that statement (C++ exceptions unwind without
executing the later assignments). -/

/-- `ArithmeticCoderBase::update` (lines 35-71) on the encoder object,
statement by statement: all four checks (lines 37, 40, 47, 49) precede the
assignments to `low`/`high` (lines 55-56) and the loops whose hooks write
bits; a throw returns the object unchanged. -/
def encUpdateStmts (b : Nat) (t : FreqTable) (symbol : Nat) (s : EncoderState) :
    Except CoderError Unit × EncoderState :=
  if s.low ≥ s.high ∨ s.low &&& MASK b ≠ s.low ∨ s.high &&& MASK b ≠ s.high then
    (.error .lowHighAssert, s)
  else
    let range : Nat := s.high - s.low + 1
    if range < MIN_RANGE b ∨ range > fullRange b then (.error .rangeAssert, s)
    else
      let total := t.getTotal
      let symLow := t.getLow symbol
      let symHigh := t.getHigh symbol
      if symLow = symHigh then (.error .zeroFrequency, s)
      else if total > MAX_TOTAL b then (.error .totalTooLarge, s)
      else
        let newLow := add64 s.low (mul64 symLow range / total)
        let newHigh := sub64 (add64 s.low (mul64 symHigh range / total)) 1
        let r := renorm b newLow newHigh
        let eo := r.2.2.foldl (encApplyEvent b) (s.numUnderflow, s.out)
        (.ok (), ⟨r.1, r.2.1, eo.1, eo.2⟩)

/-- `ArithmeticCoderBase::update` (lines 35-71) on the decoder object,
statement by statement: the checks precede the assignments and the hook
invocations that mutate `code` and consume input bits. -/
def decUpdateStmts (b : Nat) (t : FreqTable) (symbol : Nat) (inp : List Nat)
    (s : DecoderState) : Except CoderError Unit × DecoderState :=
  if s.low ≥ s.high ∨ s.low &&& MASK b ≠ s.low ∨ s.high &&& MASK b ≠ s.high then
    (.error .lowHighAssert, s)
  else
    let range : Nat := s.high - s.low + 1
    if range < MIN_RANGE b ∨ range > fullRange b then (.error .rangeAssert, s)
    else
      let total := t.getTotal
      let symLow := t.getLow symbol
      let symHigh := t.getHigh symbol
      if symLow = symHigh then (.error .zeroFrequency, s)
      else if total > MAX_TOTAL b then (.error .totalTooLarge, s)
      else
        let newLow := add64 s.low (mul64 symLow range / total)
        let newHigh := sub64 (add64 s.low (mul64 symHigh range / total)) 1
        let r := renorm b newLow newHigh
        let cp := r.2.2.foldl (decApplyEvent b inp) (s.code, s.pos)
        (.ok (), ⟨r.1, r.2.1, cp.1, cp.2⟩)

/-- `ArithmeticDecoder::read` (lines 83-116), statement by statement with
the mutable decoder object threaded through.  No statement before the
`update` call (line 112) mutates the object, and the final code-range
assertion (lines 113-114) runs on the already-updated object. -/
def decReadStmts (b : Nat) (t : FreqTable) (inp : List Nat) (searchFuel : Nat)
    (s : DecoderState) : Option (Except CoderError Nat × DecoderState) :=
  let total := t.getTotal
  if total > MAX_TOTAL b then some (.error .totalTooLarge, s)
  else
    let range := add64 (sub64 s.high s.low) 1
    let offset := sub64 s.code s.low
    let value := sub64 (mul64 (add64 offset 1) total) 1 / range
    if mul64 value range / total > offset then some (.error .valueOffsetAssert, s)
    else if value ≥ total then some (.error .valueTotalAssert, s)
    else
      match searchLoop t value searchFuel 0 t.getSymbolLimit with
      | none => none
      | some (start, stop) =>
        if add32 start 1 ≠ stop then some (.error .searchAssert, s)
        else
          let symbol := start
          if offset < mul64 (t.getLow symbol) range / total ∨
              mul64 (t.getHigh symbol) range / total ≤ offset then
            some (.error .symbolRangeAssert, s)
          else
            match decUpdateStmts b t symbol inp s with
            | (.error e, s2) => some (.error e, s2)
            | (.ok _, s2) =>
              if s2.code < s2.low ∨ s2.code > s2.high then
                some (.error .codeAssert, s2)
              else some (.ok symbol, s2)

/-- The statement-ordered write agrees with the pure `encWrite`. -/
theorem encUpdateStmts_agree (b : Nat) (t : FreqTable) (symbol : Nat)
    (s : EncoderState) :
    encWrite b t symbol s =
      match encUpdateStmts b t symbol s with
      | (.ok _, s2) => .ok s2
      | (.error e, _) => .error e := by
  simp only [encWrite, updateCore, encUpdateStmts]
  split_ifs <;> rfl

/-- The statement-ordered decoder update agrees with the shared
`updateCore`. -/
theorem decUpdateStmts_eq (b : Nat) (t : FreqTable) (symbol : Nat)
    (inp : List Nat) (s : DecoderState) :
    decUpdateStmts b t symbol inp s =
      match updateCore b t symbol s.low s.high with
      | .error e => (.error e, s)
      | .ok (lo, hi, evs) =>
        let r := evs.foldl (decApplyEvent b inp) (s.code, s.pos)
        (.ok (), ⟨lo, hi, r.1, r.2⟩) := by
  simp only [decUpdateStmts, updateCore]
  split_ifs <;> rfl

/-- The statement-ordered read agrees with the pure `decRead`. -/
theorem decReadStmts_agree (b : Nat) (t : FreqTable) (inp : List Nat)
    (f : Nat) (s : DecoderState) :
    decRead b t inp f s =
      (decReadStmts b t inp f s).map
        (fun r => match r with
          | (.ok sym, s2) => .ok (sym, s2)
          | (.error e, _) => .error e) := by
  simp only [decRead, decReadStmts]
  split_ifs with h1 h2 h3
  · rfl
  · rfl
  · rfl
  · rcases hsL : searchLoop t
        (sub64 (mul64 (add64 (sub64 s.code s.low) 1) t.getTotal) 1 /
          add64 (sub64 s.high s.low) 1) f 0 t.getSymbolLimit with _ | ⟨start, stop⟩
    · rfl
    · dsimp only
      split_ifs with h4 h5
      · rfl
      · rfl
      · rw [decUpdateStmts_eq]
        rcases hu : updateCore b t start s.low s.high with e | ⟨lo, hi, evs⟩
        · rfl
        · dsimp only
          split_ifs with h6
          · rfl
          · rfl

/-- When the statement-ordered write throws the zero-frequency or the
total-too-large error, the encoder object is returned untouched. -/
theorem encUpdateStmts_error {b : Nat} {t : FreqTable} {sym : Nat}
    {s : EncoderState} {e : CoderError} {s2 : EncoderState}
    (h : encUpdateStmts b t sym s = (.error e, s2))
    (hd : e = .zeroFrequency ∨ e = .totalTooLarge) : s2 = s := by
  simp only [encUpdateStmts] at h
  split_ifs at h <;> simp only [Prod.mk.injEq] at h <;>
    first
    | exact h.2.symm
    | exact Except.noConfusion h.1

/-- When the statement-ordered read throws the zero-frequency or the
total-too-large error, the decoder object is returned untouched. -/
theorem decReadStmts_error {b : Nat} {t : FreqTable} {inp : List Nat}
    {f : Nat} {s : DecoderState} {e : CoderError} {s2 : DecoderState}
    (h : decReadStmts b t inp f s = some (.error e, s2))
    (hd : e = .zeroFrequency ∨ e = .totalTooLarge) : s2 = s := by
  simp only [decReadStmts] at h
  split_ifs at h
  · simp only [Option.some.injEq, Prod.mk.injEq] at h
    exact h.2.symm
  · simp only [Option.some.injEq, Prod.mk.injEq] at h
    exact h.2.symm
  · simp only [Option.some.injEq, Prod.mk.injEq] at h
    exact h.2.symm
  · rcases hsL : searchLoop t
        (sub64 (mul64 (add64 (sub64 s.code s.low) 1) t.getTotal) 1 /
          add64 (sub64 s.high s.low) 1) f 0 t.getSymbolLimit with _ | ⟨start, stop⟩
    · rw [hsL] at h
      exact Option.noConfusion h
    · rw [hsL] at h
      dsimp only at h
      split_ifs at h
      · simp only [Option.some.injEq, Prod.mk.injEq] at h
        exact h.2.symm
      · simp only [Option.some.injEq, Prod.mk.injEq] at h
        exact h.2.symm
      · rw [decUpdateStmts_eq] at h
        rcases hu : updateCore b t start s.low s.high with e2 | ⟨lo, hi, evs⟩
        · rw [hu] at h
          dsimp only at h
          have heq : updateCore b t start s.low s.high = .error e2 := hu
          simp only [updateCore] at heq
          simp only [Option.some.injEq, Prod.mk.injEq] at h
          exact h.2.symm
        · rw [hu] at h
          dsimp only at h
          split_ifs at h
          · exfalso
            simp only [Option.some.injEq, Prod.mk.injEq] at h
            obtain rfl := Except.error.inj h.1
            rcases hd with h' | h' <;> exact CoderError.noConfusion h'
          · simp only [Option.some.injEq, Prod.mk.injEq] at h
            exact Except.noConfusion h.1

/-- **C9**: atomicity of user-error rejection.  In the statement-ordered
embeddings (which agree with the pure `encWrite`/`decRead`), whenever
`Encoder.write` or `Decoder.read` exits with the zero-frequency or the
total-too-large invalid-argument error, the coder object — `low`, `high`,
the encoder's `numUnderflow` and written bits, the decoder's `code` and
input position — is exactly as it was before the call: both checks precede
every mutation and every shift/underflow hook invocation. -/
theorem C9_error_atomicity {b : Nat} :
    (∀ (t : FreqTable) (sym : Nat) (s : EncoderState) (e : CoderError)
        (s2 : EncoderState), encUpdateStmts b t sym s = (.error e, s2) →
      e = .zeroFrequency ∨ e = .totalTooLarge → s2 = s) ∧
    (∀ (t : FreqTable) (sym : Nat) (s : EncoderState),
      encWrite b t sym s =
        match encUpdateStmts b t sym s with
        | (.ok _, s2) => .ok s2
        | (.error e, _) => .error e) ∧
    (∀ (t : FreqTable) (inp : List Nat) (f : Nat) (s : DecoderState)
        (e : CoderError) (s2 : DecoderState),
      decReadStmts b t inp f s = some (.error e, s2) →
      e = .zeroFrequency ∨ e = .totalTooLarge → s2 = s) ∧
    (∀ (t : FreqTable) (inp : List Nat) (f : Nat) (s : DecoderState),
      decRead b t inp f s =
        (decReadStmts b t inp f s).map
          (fun r => match r with
            | (.ok sym, s2) => .ok (sym, s2)
            | (.error e, _) => .error e)) :=
  ⟨fun _ _ _ _ _ h hd => encUpdateStmts_error h hd,
   fun t sym s => encUpdateStmts_agree b t sym s,
   fun _ _ _ _ _ _ h hd => decReadStmts_error h hd,
   fun t inp f s => decReadStmts_agree b t inp f s⟩

/-- Witness for C9: on the table `T4` with a zero-frequency symbol, the
statement-ordered write and read throw with the object untouched. -/
theorem C9_error_atomicity_witness :
    encInit 8 = encInit 8 ∧ decInit 8 [] = decInit 8 [] :=
  ⟨(C9_error_atomicity (b := 8)).1 T4 0 (encInit 8) .zeroFrequency (encInit 8)
      (by rfl) (.inl rfl),
   (C9_error_atomicity (b := 8)).2.2.1 T4 [] 40 (decInit 8 []) .totalTooLarge
      (decInit 8 []) (by rfl) (.inr rfl)⟩

/-! ## Claim C1: the round trip

The correctness argument uses a rational "virtual codeword": `restQ l` is
the value of a bit list read as a binary fraction 0.b₀b₁…, and
`yQ F p u` is the codeword denoted by the eventual bit stream `F` when `p`
bits have already been emitted and `u` underflow bits are deferred.  Every
renormalization event acts on `2^b · yQ` by the affine map `x ↦ 2x - c`
(`traceMap`), the same map that the loop bodies apply to `low` and
`high + 1`, and the same map the decoder's `code` plus the unread rest of
the stream follows. -/

def restQ (l : List Nat) : ℚ := l.foldr (fun bit r => (bit + r) / 2) 0

theorem restQ_nil : restQ [] = 0 := rfl

theorem restQ_cons (x : Nat) (l : List Nat) :
    restQ (x :: l) = ((x : ℚ) + restQ l) / 2 := rfl

theorem restQ_nonneg : ∀ l : List Nat, 0 ≤ restQ l := by
  intro l
  induction l with
  | nil => exact le_refl 0
  | cons x l ih =>
    rw [restQ_cons]
    have hx : (0 : ℚ) ≤ (x : ℚ) := Nat.cast_nonneg x
    linarith

theorem restQ_lt_one {l : List Nat} (hbits : ∀ x ∈ l, x ≤ 1) : restQ l < 1 := by
  induction l with
  | nil => norm_num [restQ_nil]
  | cons x l ih =>
    rw [restQ_cons]
    have hx : (x : ℚ) ≤ 1 := by
      have := hbits x (List.mem_cons_self x l)
      exact_mod_cast this
    have hl : restQ l < 1 := ih (fun y hy => hbits y (List.mem_cons_of_mem x hy))
    linarith

theorem restQ_drop_step (F : List Nat) (pos : Nat) :
    restQ (F.drop pos) = ((readCodeBit F pos : ℚ) + restQ (F.drop (pos + 1))) / 2 := by
  rcases Nat.lt_or_ge pos F.length with h | h
  · rw [List.drop_eq_getElem_cons h, restQ_cons]
    congr 2
    rw [readCodeBit, List.getD_eq_getElem F 0 h]
  · rw [List.drop_eq_nil_of_le h, List.drop_eq_nil_of_le (by omega)]
    rw [readCodeBit, List.getD_eq_default F 0 h]
    norm_num [restQ_nil]

theorem restQ_replicate_append (c : Nat) :
    ∀ (u : Nat) (l : List Nat),
    (2 : ℚ) ^ u * restQ (List.replicate u c ++ l) = c * (2 ^ u - 1) + restQ l := by
  intro u
  induction u with
  | zero => intro l; simp [List.replicate]
  | succ u ih =>
    intro l
    rw [List.replicate_succ, List.cons_append, restQ_cons, pow_succ]
    have := ih l
    field_simp
    ring_nf
    ring_nf at this
    linarith

/-- The codeword denoted by the final stream `F` seen from an encoder that
has emitted `p` bits and holds `u` deferred underflow bits. -/
def yQ (F : List Nat) (p u : Nat) : ℚ :=
  2 ^ u * restQ (F.drop p) - (2 ^ u - 1) / 2

theorem yQ_zero (F : List Nat) (p : Nat) : yQ F p 0 = restQ (F.drop p) := by
  simp [yQ]

theorem yQ_underflow (F : List Nat) (p u : Nat) :
    yQ F p (u + 1) = 2 * yQ F p u - 1 / 2 := by
  simp only [yQ, pow_succ]
  ring

theorem yQ_shift {F : List Nat} {p u : Nat} {β c : Nat}
    (hdrop : F.drop p = β :: (List.replicate u c ++ F.drop (p + 1 + u)))
    (hc : (c : ℚ) = 1 - β) :
    yQ F (p + 1 + u) 0 = 2 * yQ F p u - β := by
  rw [yQ_zero]
  have h1 : 2 * yQ F p u = 2 ^ (u + 1) * restQ (F.drop p) - (2 ^ u - 1) := by
    simp only [yQ, pow_succ]
    ring
  rw [hdrop, restQ_cons] at h1
  have h2 := restQ_replicate_append c u (F.drop (p + 1 + u))
  have h3 : (2 : ℚ) ^ (u + 1) * (((β : ℚ) + restQ (List.replicate u c ++ F.drop (p + 1 + u))) / 2)
      = 2 ^ u * (β : ℚ) + (c * (2 ^ u - 1) + restQ (F.drop (p + 1 + u))) := by
    rw [← h2]
    field_simp
    ring
  rw [h3, hc] at h1
  have hpow : (0 : ℚ) < 2 ^ u := by positivity
  linarith

/-- The amount subtracted by one renormalization event from the doubled
codeword / interval bound: the emitted top bit times `2^b` for a shift,
`halfRange` for an underflow. -/
def traceC (b : Nat) : REvent → ℚ
  | .shiftEv lo _ => ((lo >>> (b - 1) : Nat) : ℚ) * 2 ^ b
  | .underflowEv _ _ => 2 ^ (b - 1)

/-- The affine map applied by a sequence of renormalization events. -/
def traceMap (b : Nat) (evs : List REvent) (x : ℚ) : ℚ :=
  evs.foldl (fun y e => 2 * y - traceC b e) x

theorem traceMap_nil (b : Nat) (x : ℚ) : traceMap b [] x = x := rfl

theorem traceMap_cons (b : Nat) (e : REvent) (evs : List REvent) (x : ℚ) :
    traceMap b (e :: evs) x = traceMap b evs (2 * x - traceC b e) := rfl

theorem traceMap_append (b : Nat) (l1 l2 : List REvent) (x : ℚ) :
    traceMap b (l1 ++ l2) x = traceMap b l2 (traceMap b l1 x) :=
  List.foldl_append _ _ _ _

theorem traceMap_lt_iff (b : Nat) :
    ∀ (evs : List REvent) (x y : ℚ), traceMap b evs x < traceMap b evs y ↔ x < y := by
  intro evs
  induction evs with
  | nil => intro x y; rw [traceMap_nil, traceMap_nil]
  | cons e evs ih =>
    intro x y
    rw [traceMap_cons, traceMap_cons, ih]
    constructor <;> intro h <;> linarith

theorem traceMap_le_iff (b : Nat) (evs : List REvent) (x y : ℚ) :
    traceMap b evs x ≤ traceMap b evs y ↔ x ≤ y := by
  constructor
  · intro h
    by_contra hc
    push_neg at hc
    have := (traceMap_lt_iff b evs y x).mpr hc
    linarith
  · intro h
    rcases eq_or_lt_of_le h with rfl | hlt
    · exact le_refl _
    · exact le_of_lt ((traceMap_lt_iff b evs x y).mpr hlt)

/-- Each shift-loop body applies `x ↦ 2x - c` to `low` and to `high + 1`,
with `c = traceC` of the recorded event. -/
theorem shiftLoop_affine {b : Nat} (hb : 1 ≤ b) :
    ∀ f lo hi, lo ≤ hi → hi < 2 ^ b →
    (((shiftLoop b f lo hi).1 : ℚ) = traceMap b (shiftLoop b f lo hi).2.2 (lo : ℚ)) ∧
    (((shiftLoop b f lo hi).2.1 : ℚ) + 1 =
      traceMap b (shiftLoop b f lo hi).2.2 ((hi : ℚ) + 1)) := by
  have hsplit : (2 : Nat) ^ b = 2 * 2 ^ (b - 1) := by
    rw [← pow_succ']
    congr 1
    omega
  intro f
  induction f with
  | zero =>
    intro lo hi h1 h2
    rw [shiftLoop_zero]
    exact ⟨rfl, rfl⟩
  | succ f ih =>
    intro lo hi h1 h2
    rcases Bool.eq_false_or_eq_true (shiftCond b lo hi) with hc | hc
    · rw [shiftLoop_succ_true hc]
      dsimp only
      rcases shiftStep_vals hb h1 h2 hc with ⟨hl, hh, hp⟩ | ⟨hl, hh, hp⟩
      · rw [hp]
        dsimp only
        obtain ⟨ih1, ih2⟩ := ih (2 * lo) (2 * hi + 1) (by omega) (by omega)
        have hbit : lo >>> (b - 1) = 0 := by
          rw [Nat.shiftRight_eq_div_pow]
          exact Nat.div_eq_of_lt hl
        rw [traceMap_cons, traceMap_cons]
        constructor
        · rw [ih1]
          congr 1
          simp only [traceC, hbit]
          push_cast
          ring
        · rw [ih2]
          congr 1
          simp only [traceC, hbit]
          push_cast
          ring
      · rw [hp]
        dsimp only
        obtain ⟨ih1, ih2⟩ := ih (2 * lo - 2 ^ b) (2 * hi - 2 ^ b + 1) (by omega)
          (by omega)
        have hbit : lo >>> (b - 1) = 1 := by
          rw [Nat.shiftRight_eq_div_pow]
          exact div_eq_of_between (by omega) (by omega)
        have hlole : 2 ^ b ≤ 2 * lo := by omega
        have hhile : 2 ^ b ≤ 2 * hi := by omega
        rw [traceMap_cons, traceMap_cons]
        constructor
        · rw [ih1]
          congr 1
          simp only [traceC, hbit]
          push_cast [Nat.cast_sub hlole]
          ring
        · rw [ih2]
          congr 1
          simp only [traceC, hbit]
          push_cast [Nat.cast_sub hhile]
          ring
    · rw [shiftLoop_succ_false hc]
      exact ⟨rfl, rfl⟩

/-- Each underflow-loop body applies the same affine map with
`c = halfRange`. -/
theorem underflowLoop_affine {b : Nat} (hb : 1 ≤ b) (hb63 : b ≤ 63) :
    ∀ f lo hi, lo ≤ hi → hi < 2 ^ b → shiftCond b lo hi = false →
    (((underflowLoop b f lo hi).1 : ℚ) =
      traceMap b (underflowLoop b f lo hi).2.2 (lo : ℚ)) ∧
    (((underflowLoop b f lo hi).2.1 : ℚ) + 1 =
      traceMap b (underflowLoop b f lo hi).2.2 ((hi : ℚ) + 1)) := by
  intro f
  induction f with
  | zero =>
    intro lo hi h1 h2 hs
    rw [underflowLoop_zero]
    exact ⟨rfl, rfl⟩
  | succ f ih =>
    intro lo hi h1 h2 hs
    rcases Bool.eq_false_or_eq_true (underflowCond b lo hi) with hc | hc
    · rw [underflowLoop_succ_true hc]
      dsimp only
      obtain ⟨hb2, hq1, hq2, hq3, hq4, hp⟩ := underflowStep_vals hb63 hb h1 h2 hs hc
      have hshift := underflowBody_shiftCond_false hb lo hi
      rw [hp] at hshift
      dsimp only at hshift
      have hhalf : (2 : Nat) ^ (b - 1) = 2 * 2 ^ (b - 2) := by
        rw [← pow_succ']
        congr 1
        omega
      have hfull : (2 : Nat) ^ b = 4 * 2 ^ (b - 2) := by
        have : (2 : Nat) ^ b = 2 * 2 ^ (b - 1) := by
          rw [← pow_succ']
          congr 1
          omega
        omega
      rw [hp]
      dsimp only
      obtain ⟨ih1, ih2⟩ := ih (2 * lo - 2 ^ (b - 1)) (2 * hi - 2 ^ (b - 1) + 1)
        (by omega) (by omega) hshift
      have hlole : 2 ^ (b - 1) ≤ 2 * lo := by omega
      have hhile : 2 ^ (b - 1) ≤ 2 * hi := by omega
      rw [traceMap_cons, traceMap_cons]
      constructor
      · rw [ih1]
        congr 1
        simp only [traceC]
        push_cast [Nat.cast_sub hlole]
        ring
      · rw [ih2]
        congr 1
        simp only [traceC]
        push_cast [Nat.cast_sub hhile]
        ring
    · rw [underflowLoop_succ_false hc]
      exact ⟨rfl, rfl⟩

/-- The full renormalization applies `traceMap` of its trace to `low` and
to `high + 1`. -/
theorem renorm_affine {b : Nat} (hb : 1 ≤ b) (hb63 : b ≤ 63) {lo hi : Nat}
    (h1 : lo ≤ hi) (h2 : hi < 2 ^ b) :
    (((renorm b lo hi).1 : ℚ) = traceMap b (renorm b lo hi).2.2 (lo : ℚ)) ∧
    (((renorm b lo hi).2.1 : ℚ) + 1 =
      traceMap b (renorm b lo hi).2.2 ((hi : ℚ) + 1)) := by
  have hfuel : 2 ^ b ≤ 2 ^ (b + 1) * (hi - lo + 1) := by
    have ha : (2 : Nat) ^ b ≤ 2 ^ (b + 1) :=
      Nat.pow_le_pow_right (by norm_num) (by omega)
    have hbb : 2 ^ (b + 1) * 1 ≤ 2 ^ (b + 1) * (hi - lo + 1) :=
      Nat.mul_le_mul_left _ (by omega)
    omega
  obtain ⟨hsc, hle, hlt⟩ := shiftLoop_spec hb (b + 1) lo hi h1 h2 hfuel
  obtain ⟨ha1, ha2⟩ := shiftLoop_affine hb (b + 1) lo hi h1 h2
  obtain ⟨hu1, hu2⟩ := underflowLoop_affine hb hb63 (b + 1)
    (shiftLoop b (b + 1) lo hi).1 (shiftLoop b (b + 1) lo hi).2.1 hle hlt hsc
  have hr1 : (renorm b lo hi).1 = (underflowLoop b (b + 1) (shiftLoop b (b + 1) lo hi).1
      (shiftLoop b (b + 1) lo hi).2.1).1 := rfl
  have hr2 : (renorm b lo hi).2.1 = (underflowLoop b (b + 1) (shiftLoop b (b + 1) lo hi).1
      (shiftLoop b (b + 1) lo hi).2.1).2.1 := rfl
  have hr3 : (renorm b lo hi).2.2 = (shiftLoop b (b + 1) lo hi).2.2 ++
      (underflowLoop b (b + 1) (shiftLoop b (b + 1) lo hi).1
        (shiftLoop b (b + 1) lo hi).2.1).2.2 := rfl
  rw [hr1, hr2, hr3]
  rw [ha1] at hu1
  rw [ha2] at hu2
  constructor
  · rw [traceMap_append]
    exact hu1
  · rw [traceMap_append]
    exact hu2

theorem encApply_shift (b u lo hi : Nat) (out : List Nat) :
    encApplyEvent b (u, out) (.shiftEv lo hi) =
      (0, out ++ (lo >>> (b - 1)) :: List.replicate u ((lo >>> (b - 1)) ^^^ 1)) := rfl

theorem encApply_under (b u lo hi : Nat) (out : List Nat) :
    encApplyEvent b (u, out) (.underflowEv lo hi) = (u + 1, out) := rfl

/-- The encoder hooks only append to the written stream. -/
theorem encFold_out_append (b : Nat) :
    ∀ (evs : List REvent) (u : Nat) (out : List Nat),
    ∃ l, (evs.foldl (encApplyEvent b) (u, out)).2 = out ++ l := by
  intro evs
  induction evs with
  | nil => intro u out; exact ⟨[], (List.append_nil out).symm⟩
  | cons e evs ih =>
    intro u out
    rw [List.foldl_cons]
    cases e with
    | shiftEv lo hi =>
      rw [encApply_shift]
      obtain ⟨l, hl⟩ := ih 0
        (out ++ (lo >>> (b - 1)) :: List.replicate u ((lo >>> (b - 1)) ^^^ 1))
      exact ⟨_, by rw [hl, List.append_assoc]⟩
    | underflowEv lo hi =>
      rw [encApply_under]
      exact ih (u + 1) out

/-- Well-formedness of a recorded event: a shift event's recorded `low` is
in range (so the emitted bit is 0 or 1). -/
def evWF (b : Nat) : REvent → Prop
  | .shiftEv lo _ => lo < 2 ^ b
  | .underflowEv _ _ => True

theorem encFold_bits {b : Nat} (hb : 1 ≤ b) :
    ∀ (evs : List REvent) (u : Nat) (out : List Nat),
    (∀ x ∈ out, x ≤ 1) → (∀ ev ∈ evs, evWF b ev) →
    ∀ x ∈ (evs.foldl (encApplyEvent b) (u, out)).2, x ≤ 1 := by
  intro evs
  induction evs with
  | nil => intro u out hout _; exact hout
  | cons e evs ih =>
    intro u out hout hwf
    rw [List.foldl_cons]
    cases e with
    | shiftEv lo hi =>
      rw [encApply_shift]
      refine ih 0 _ ?_ (fun ev hev => hwf _ (List.mem_cons_of_mem _ hev))
      intro x hx
      have hwf1 : lo < 2 ^ b := hwf _ (List.mem_cons_self _ _)
      have hbit : lo >>> (b - 1) ≤ 1 := by
        rw [Nat.shiftRight_eq_div_pow]
        have := div_half_lt_two hb hwf1
        omega
      rcases List.mem_append.mp hx with h | h
      · exact hout x h
      · rcases List.mem_cons.mp h with rfl | h2
        · exact hbit
        · rw [List.eq_of_mem_replicate h2]
          rcases Nat.le_one_iff_eq_zero_or_eq_one.mp hbit with h0 | h0 <;>
            rw [h0] <;> decide
    | underflowEv lo hi =>
      rw [encApply_under]
      exact ih (u + 1) out hout (fun ev hev => hwf _ (List.mem_cons_of_mem _ hev))

theorem shiftLoop_trace_wf {b : Nat} (hb : 1 ≤ b) :
    ∀ f lo hi, lo ≤ hi → hi < 2 ^ b →
    ∀ ev ∈ (shiftLoop b f lo hi).2.2, evWF b ev := by
  have hsplit : (2 : Nat) ^ b = 2 * 2 ^ (b - 1) := by
    rw [← pow_succ']
    congr 1
    omega
  intro f
  induction f with
  | zero =>
    intro lo hi _ _ ev hev
    rw [shiftLoop_zero] at hev
    exact absurd hev (List.not_mem_nil _)
  | succ f ih =>
    intro lo hi h1 h2 ev hev
    rcases Bool.eq_false_or_eq_true (shiftCond b lo hi) with hc | hc
    · rw [shiftLoop_succ_true hc] at hev
      dsimp only at hev
      rcases List.mem_cons.mp hev with rfl | h3
      · exact lt_of_le_of_lt h1 h2
      · rcases shiftStep_vals hb h1 h2 hc with ⟨hl, hh, hp⟩ | ⟨hl, hh, hp⟩ <;>
          rw [hp] at h3 <;> dsimp only at h3
        · exact ih (2 * lo) (2 * hi + 1) (by omega) (by omega) ev h3
        · exact ih (2 * lo - 2 ^ b) (2 * hi - 2 ^ b + 1) (by omega) (by omega) ev h3
    · rw [shiftLoop_succ_false hc] at hev
      exact absurd hev (List.not_mem_nil _)

theorem underflowLoop_trace_wf (b : Nat) :
    ∀ f lo hi, ∀ ev ∈ (underflowLoop b f lo hi).2.2, evWF b ev := by
  intro f
  induction f with
  | zero =>
    intro lo hi ev hev
    rw [underflowLoop_zero] at hev
    exact absurd hev (List.not_mem_nil _)
  | succ f ih =>
    intro lo hi ev hev
    rcases Bool.eq_false_or_eq_true (underflowCond b lo hi) with hc | hc
    · rw [underflowLoop_succ_true hc] at hev
      dsimp only at hev
      rcases List.mem_cons.mp hev with rfl | h3
      · trivial
      · exact ih _ _ ev h3
    · rw [underflowLoop_succ_false hc] at hev
      exact absurd hev (List.not_mem_nil _)

theorem renorm_trace_wf {b : Nat} (hb : 1 ≤ b) {lo hi : Nat} (h1 : lo ≤ hi)
    (h2 : hi < 2 ^ b) : ∀ ev ∈ (renorm b lo hi).2.2, evWF b ev := by
  intro ev hev
  have hr : (renorm b lo hi).2.2 = (shiftLoop b (b + 1) lo hi).2.2 ++
      (underflowLoop b (b + 1) (shiftLoop b (b + 1) lo hi).1
        (shiftLoop b (b + 1) lo hi).2.1).2.2 := rfl
  rw [hr] at hev
  rcases List.mem_append.mp hev with h | h
  · exact shiftLoop_trace_wf hb (b + 1) lo hi h1 h2 ev h
  · exact underflowLoop_trace_wf b (b + 1) _ _ ev h

/-- Through the shift loop's trace, the scaled virtual codeword
`2^b · yQ` follows the same affine `traceMap` as `low` and `high + 1`,
provided the eventual stream `F` extends the bits written so far. -/
theorem shiftLoop_yQ {b : Nat} (hb : 1 ≤ b) (F : List Nat) :
    ∀ f lo hi u (out rest : List Nat), lo ≤ hi → hi < 2 ^ b →
    F = ((shiftLoop b f lo hi).2.2.foldl (encApplyEvent b) (u, out)).2 ++ rest →
    2 ^ b * yQ F ((shiftLoop b f lo hi).2.2.foldl (encApplyEvent b) (u, out)).2.length
        ((shiftLoop b f lo hi).2.2.foldl (encApplyEvent b) (u, out)).1
      = traceMap b (shiftLoop b f lo hi).2.2 (2 ^ b * yQ F out.length u) := by
  have hsplit : (2 : Nat) ^ b = 2 * 2 ^ (b - 1) := by
    rw [← pow_succ']
    congr 1
    omega
  intro f
  induction f with
  | zero =>
    intro lo hi u out rest h1 h2 hF
    rw [shiftLoop_zero]
    rfl
  | succ f ih =>
    intro lo hi u out rest h1 h2 hF
    rcases Bool.eq_false_or_eq_true (shiftCond b lo hi) with hc | hc
    · rw [shiftLoop_succ_true hc] at hF ⊢
      dsimp only at hF ⊢
      rw [List.foldl_cons, encApply_shift] at hF ⊢
      have hblt : lo < 2 ^ b := lt_of_le_of_lt h1 h2
      have hbit_le : lo >>> (b - 1) ≤ 1 := by
        rw [Nat.shiftRight_eq_div_pow]
        have := div_half_lt_two hb hblt
        omega
      have hbody1 : (shiftBody b lo hi).1 ≤ (shiftBody b lo hi).2 := by
        rcases shiftStep_vals hb h1 h2 hc with ⟨hl, hh, hp⟩ | ⟨hl, hh, hp⟩ <;>
          rw [hp] <;> dsimp only <;> omega
      have hbody2 : (shiftBody b lo hi).2 < 2 ^ b := by
        rcases shiftStep_vals hb h1 h2 hc with ⟨hl, hh, hp⟩ | ⟨hl, hh, hp⟩ <;>
          rw [hp] <;> dsimp only <;> omega
      have hIH := ih (shiftBody b lo hi).1 (shiftBody b lo hi).2 0
        (out ++ (lo >>> (b - 1)) :: List.replicate u ((lo >>> (b - 1)) ^^^ 1)) rest
        hbody1 hbody2 hF
      rw [traceMap_cons, hIH]
      congr 1
      obtain ⟨l, hl⟩ := encFold_out_append b
        (shiftLoop b f (shiftBody b lo hi).1 (shiftBody b lo hi).2).2.2 0
        (out ++ (lo >>> (b - 1)) :: List.replicate u ((lo >>> (b - 1)) ^^^ 1))
      have hF3 : F = (out ++ (lo >>> (b - 1)) ::
          List.replicate u ((lo >>> (b - 1)) ^^^ 1)) ++ (l ++ rest) := by
        rw [hF, hl, List.append_assoc]
      have hlen : (out ++ (lo >>> (b - 1)) ::
          List.replicate u ((lo >>> (b - 1)) ^^^ 1)).length = out.length + 1 + u := by
        simp [List.length_append, List.length_replicate]
        omega
      have hd2 : F.drop (out.length + 1 + u) = l ++ rest := by
        rw [hF3, ← hlen, List.drop_left]
      have hdrop1 : F.drop out.length = (lo >>> (b - 1)) ::
          (List.replicate u ((lo >>> (b - 1)) ^^^ 1) ++ F.drop (out.length + 1 + u)) := by
        rw [hd2]
        have hF4 : F = out ++ ((lo >>> (b - 1)) ::
            List.replicate u ((lo >>> (b - 1)) ^^^ 1) ++ (l ++ rest)) := by
          rw [hF3, List.append_assoc]
        rw [hF4, List.drop_left, List.cons_append]
      have hcast : (((lo >>> (b - 1)) ^^^ 1 : Nat) : ℚ) = 1 - ((lo >>> (b - 1) : Nat) : ℚ) := by
        rcases Nat.le_one_iff_eq_zero_or_eq_one.mp hbit_le with h0 | h0 <;>
          rw [h0] <;> norm_num
      have hy := yQ_shift hdrop1 hcast
      rw [hlen, hy]
      simp only [traceC]
      ring
    · rw [shiftLoop_succ_false hc]
      rfl

/-- Through the underflow loop's trace the scaled virtual codeword follows
the same affine `traceMap` (no bit is written; the deferred counter
grows). -/
theorem underflowLoop_yQ {b : Nat} (hb : 1 ≤ b) (F : List Nat) :
    ∀ f lo hi u (out rest : List Nat),
    F = ((underflowLoop b f lo hi).2.2.foldl (encApplyEvent b) (u, out)).2 ++ rest →
    2 ^ b * yQ F ((underflowLoop b f lo hi).2.2.foldl (encApplyEvent b) (u, out)).2.length
        ((underflowLoop b f lo hi).2.2.foldl (encApplyEvent b) (u, out)).1
      = traceMap b (underflowLoop b f lo hi).2.2 (2 ^ b * yQ F out.length u) := by
  have hq : (2 : ℚ) ^ b = 2 * 2 ^ (b - 1) := by
    rw [← pow_succ']
    congr 1
    omega
  intro f
  induction f with
  | zero =>
    intro lo hi u out rest hF
    rw [underflowLoop_zero]
    rfl
  | succ f ih =>
    intro lo hi u out rest hF
    rcases Bool.eq_false_or_eq_true (underflowCond b lo hi) with hc | hc
    · rw [underflowLoop_succ_true hc] at hF ⊢
      dsimp only at hF ⊢
      rw [List.foldl_cons, encApply_under] at hF ⊢
      have hIH := ih (underflowBody b lo hi).1 (underflowBody b lo hi).2 (u + 1)
        out rest hF
      rw [traceMap_cons, hIH]
      congr 1
      rw [yQ_underflow]
      simp only [traceC]
      rw [hq]
      ring
    · rw [underflowLoop_succ_false hc]
      rfl

/-- Through the full renormalization trace the scaled virtual codeword
follows the same affine `traceMap` as the interval bounds. -/
theorem renorm_yQ {b : Nat} (hb : 1 ≤ b) (F : List Nat) {lo hi : Nat}
    (h1 : lo ≤ hi) (h2 : hi < 2 ^ b) (u : Nat) (out rest : List Nat)
    (hF : F = ((renorm b lo hi).2.2.foldl (encApplyEvent b) (u, out)).2 ++ rest) :
    2 ^ b * yQ F ((renorm b lo hi).2.2.foldl (encApplyEvent b) (u, out)).2.length
        ((renorm b lo hi).2.2.foldl (encApplyEvent b) (u, out)).1
      = traceMap b (renorm b lo hi).2.2 (2 ^ b * yQ F out.length u) := by
  have hr3 : (renorm b lo hi).2.2 = (shiftLoop b (b + 1) lo hi).2.2 ++
      (underflowLoop b (b + 1) (shiftLoop b (b + 1) lo hi).1
        (shiftLoop b (b + 1) lo hi).2.1).2.2 := rfl
  rw [hr3] at hF ⊢
  rw [List.foldl_append] at hF ⊢
  rw [traceMap_append]
  have hP : (shiftLoop b (b + 1) lo hi).2.2.foldl (encApplyEvent b) (u, out) =
      (((shiftLoop b (b + 1) lo hi).2.2.foldl (encApplyEvent b) (u, out)).1,
       ((shiftLoop b (b + 1) lo hi).2.2.foldl (encApplyEvent b) (u, out)).2) := rfl
  rw [hP] at hF ⊢
  have hU := underflowLoop_yQ hb F (b + 1) (shiftLoop b (b + 1) lo hi).1
    (shiftLoop b (b + 1) lo hi).2.1
    ((shiftLoop b (b + 1) lo hi).2.2.foldl (encApplyEvent b) (u, out)).1
    ((shiftLoop b (b + 1) lo hi).2.2.foldl (encApplyEvent b) (u, out)).2 rest hF
  rw [hU]
  congr 1
  obtain ⟨l, hl⟩ := encFold_out_append b
    (underflowLoop b (b + 1) (shiftLoop b (b + 1) lo hi).1
      (shiftLoop b (b + 1) lo hi).2.1).2.2
    ((shiftLoop b (b + 1) lo hi).2.2.foldl (encApplyEvent b) (u, out)).1
    ((shiftLoop b (b + 1) lo hi).2.2.foldl (encApplyEvent b) (u, out)).2
  have hFS : F = ((shiftLoop b (b + 1) lo hi).2.2.foldl (encApplyEvent b) (u, out)).2
      ++ (l ++ rest) := by
    rw [hF, hl, List.append_assoc]
  exact shiftLoop_yQ hb F (b + 1) lo hi u out (l ++ rest) h1 h2 hFS

/-- Through the shift loop's trace, the decoder's `code` plus the unread
rest of the stream follows the same affine `traceMap`, and `code` stays in
the window. -/
theorem decShiftLoop_X {b : Nat} (hb : 1 ≤ b) {F : List Nat}
    (hbits : ∀ x ∈ F, x ≤ 1) :
    ∀ f lo hi code pos, lo ≤ code → code ≤ hi → hi < 2 ^ b →
    ((((shiftLoop b f lo hi).2.2.foldl (decApplyEvent b F) (code, pos)).1 : ℚ) +
        restQ (F.drop ((shiftLoop b f lo hi).2.2.foldl (decApplyEvent b F) (code, pos)).2)
      = traceMap b (shiftLoop b f lo hi).2.2 ((code : ℚ) + restQ (F.drop pos))) ∧
    (shiftLoop b f lo hi).1 ≤
      ((shiftLoop b f lo hi).2.2.foldl (decApplyEvent b F) (code, pos)).1 ∧
    ((shiftLoop b f lo hi).2.2.foldl (decApplyEvent b F) (code, pos)).1 ≤
      (shiftLoop b f lo hi).2.1 := by
  have hsplit : (2 : Nat) ^ b = 2 * 2 ^ (b - 1) := by
    rw [← pow_succ']
    congr 1
    omega
  have hqq : (2 : ℚ) ^ b = 2 * 2 ^ (b - 1) := by
    rw [← pow_succ']
    congr 1
    omega
  intro f
  induction f with
  | zero =>
    intro lo hi code pos h1 h2 h3
    rw [shiftLoop_zero]
    exact ⟨rfl, h1, h2⟩
  | succ f ih =>
    intro lo hi code pos h1 h2 h3
    rcases Bool.eq_false_or_eq_true (shiftCond b lo hi) with hc | hc
    · rw [shiftLoop_succ_true hc]
      dsimp only
      rw [List.foldl_cons, decApply_shift_val code pos lo hi hb hbits]
      have hbitp := readCodeBit_le hbits pos
      have hρ := restQ_drop_step F pos
      rcases shiftStep_vals hb (le_trans h1 h2) h3 hc with ⟨hl, hh, hp⟩ | ⟨hl, hh, hp⟩
      · have hcode_lt : code < 2 ^ (b - 1) := lt_of_le_of_lt h2 hh
        have hmod : code % 2 ^ (b - 1) = code := Nat.mod_eq_of_lt hcode_lt
        rw [hp]
        dsimp only
        obtain ⟨ihX, ihl, ihh⟩ := ih (2 * lo) (2 * hi + 1)
          (2 * (code % 2 ^ (b - 1)) + readCodeBit F pos) (pos + 1)
          (by rw [hmod]; omega) (by rw [hmod]; omega) (by omega)
        refine ⟨?_, ihl, ihh⟩
        rw [ihX, traceMap_cons]
        congr 1
        have hbit0 : lo >>> (b - 1) = 0 := by
          rw [Nat.shiftRight_eq_div_pow]
          exact Nat.div_eq_of_lt hl
        simp only [traceC, hbit0, hmod]
        push_cast
        linarith
      · have hcode_ge : 2 ^ (b - 1) ≤ code := le_trans hl h1
        have hcode_lt : code < 2 ^ b := lt_of_le_of_lt h2 h3
        have hmod : code % 2 ^ (b - 1) = code - 2 ^ (b - 1) := by
          rw [Nat.mod_eq_sub_mod hcode_ge, Nat.mod_eq_of_lt (by omega)]
        rw [hp]
        dsimp only
        obtain ⟨ihX, ihl, ihh⟩ := ih (2 * lo - 2 ^ b) (2 * hi - 2 ^ b + 1)
          (2 * (code % 2 ^ (b - 1)) + readCodeBit F pos) (pos + 1)
          (by rw [hmod]; omega) (by rw [hmod]; omega) (by omega)
        refine ⟨?_, ihl, ihh⟩
        rw [ihX, traceMap_cons]
        congr 1
        have hbit1 : lo >>> (b - 1) = 1 := by
          rw [Nat.shiftRight_eq_div_pow]
          exact div_eq_of_between (by omega) (by omega)
        simp only [traceC, hbit1, hmod]
        have hsub : ((2 * (code - 2 ^ (b - 1)) + readCodeBit F pos : Nat) : ℚ)
            = 2 * (code : ℚ) - 2 * ((2 ^ (b - 1) : Nat) : ℚ) + (readCodeBit F pos : ℚ) := by
          push_cast [Nat.cast_sub hcode_ge]
          ring
        rw [hsub]
        push_cast
        linarith
    · rw [shiftLoop_succ_false hc]
      exact ⟨rfl, h1, h2⟩

/-- Through the underflow loop's trace, the decoder's `code` plus the
unread rest of the stream follows the same affine `traceMap`. -/
theorem decUnderflowLoop_X {b : Nat} (hb : 1 ≤ b) (hb63 : b ≤ 63) {F : List Nat}
    (hbits : ∀ x ∈ F, x ≤ 1) :
    ∀ f lo hi code pos, lo ≤ code → code ≤ hi → hi < 2 ^ b →
    shiftCond b lo hi = false →
    ((((underflowLoop b f lo hi).2.2.foldl (decApplyEvent b F) (code, pos)).1 : ℚ) +
        restQ (F.drop ((underflowLoop b f lo hi).2.2.foldl
          (decApplyEvent b F) (code, pos)).2)
      = traceMap b (underflowLoop b f lo hi).2.2 ((code : ℚ) + restQ (F.drop pos))) ∧
    (underflowLoop b f lo hi).1 ≤
      ((underflowLoop b f lo hi).2.2.foldl (decApplyEvent b F) (code, pos)).1 ∧
    ((underflowLoop b f lo hi).2.2.foldl (decApplyEvent b F) (code, pos)).1 ≤
      (underflowLoop b f lo hi).2.1 := by
  intro f
  induction f with
  | zero =>
    intro lo hi code pos h1 h2 h3 hs
    rw [underflowLoop_zero]
    exact ⟨rfl, h1, h2⟩
  | succ f ih =>
    intro lo hi code pos h1 h2 h3 hs
    rcases Bool.eq_false_or_eq_true (underflowCond b lo hi) with hc | hc
    · rw [underflowLoop_succ_true hc]
      dsimp only
      obtain ⟨hb2, hql, hql2, hqh, hqh2, hp⟩ :=
        underflowStep_vals hb63 hb (le_trans h1 h2) h3 hs hc
      have hhalf : (2 : Nat) ^ (b - 1) = 2 * 2 ^ (b - 2) := by
        rw [← pow_succ']
        congr 1
        omega
      have hfull : (2 : Nat) ^ b = 4 * 2 ^ (b - 2) := by
        have h5 : (2 : Nat) ^ b = 2 * 2 ^ (b - 1) := by
          rw [← pow_succ']
          congr 1
          omega
        omega
      have hbitp := readCodeBit_le hbits pos
      have hρ := restQ_drop_step F pos
      rw [List.foldl_cons,
        decApply_underflow_val code pos lo hi hb2 hbits (le_trans hql h1)
          (lt_of_le_of_lt h2 hqh2)]
      have hshift := underflowBody_shiftCond_false hb lo hi
      rw [hp] at hshift
      dsimp only at hshift
      rw [hp]
      dsimp only
      obtain ⟨ihX, ihl, ihh⟩ := ih (2 * lo - 2 ^ (b - 1)) (2 * hi - 2 ^ (b - 1) + 1)
        (2 * code - 2 ^ (b - 1) + readCodeBit F pos) (pos + 1)
        (by omega) (by omega) (by omega) hshift
      refine ⟨?_, ihl, ihh⟩
      rw [ihX, traceMap_cons]
      congr 1
      simp only [traceC]
      have hcode_ge : 2 ^ (b - 1) ≤ 2 * code := by omega
      have hsub : ((2 * code - 2 ^ (b - 1) + readCodeBit F pos : Nat) : ℚ)
          = 2 * (code : ℚ) - ((2 ^ (b - 1) : Nat) : ℚ) + (readCodeBit F pos : ℚ) := by
        push_cast [Nat.cast_sub hcode_ge]
        ring
      rw [hsub]
      push_cast
      linarith
    · rw [underflowLoop_succ_false hc]
      exact ⟨rfl, h1, h2⟩

/-- Through the full renormalization trace, the decoder's `code` plus the
unread rest of the stream follows the same affine `traceMap`, and the new
`code` lies in the renormalized window. -/
theorem decRenorm_X {b : Nat} (hb : 1 ≤ b) (hb63 : b ≤ 63) {F : List Nat}
    (hbits : ∀ x ∈ F, x ≤ 1) {lo hi code : Nat} (pos : Nat) (h1 : lo ≤ code)
    (h2 : code ≤ hi) (h3 : hi < 2 ^ b) :
    ((((renorm b lo hi).2.2.foldl (decApplyEvent b F) (code, pos)).1 : ℚ) +
        restQ (F.drop ((renorm b lo hi).2.2.foldl (decApplyEvent b F) (code, pos)).2)
      = traceMap b (renorm b lo hi).2.2 ((code : ℚ) + restQ (F.drop pos))) ∧
    (renorm b lo hi).1 ≤
      ((renorm b lo hi).2.2.foldl (decApplyEvent b F) (code, pos)).1 ∧
    ((renorm b lo hi).2.2.foldl (decApplyEvent b F) (code, pos)).1 ≤
      (renorm b lo hi).2.1 := by
  have hfuel : 2 ^ b ≤ 2 ^ (b + 1) * (hi - lo + 1) := by
    have ha : (2 : Nat) ^ b ≤ 2 ^ (b + 1) :=
      Nat.pow_le_pow_right (by norm_num) (by omega)
    have hbb : 2 ^ (b + 1) * 1 ≤ 2 ^ (b + 1) * (hi - lo + 1) :=
      Nat.mul_le_mul_left _ (by omega)
    omega
  obtain ⟨hsc, hle, hlt⟩ := shiftLoop_spec hb (b + 1) lo hi (le_trans h1 h2) h3 hfuel
  have hr3 : (renorm b lo hi).2.2 = (shiftLoop b (b + 1) lo hi).2.2 ++
      (underflowLoop b (b + 1) (shiftLoop b (b + 1) lo hi).1
        (shiftLoop b (b + 1) lo hi).2.1).2.2 := rfl
  have hr1 : (renorm b lo hi).1 = (underflowLoop b (b + 1) (shiftLoop b (b + 1) lo hi).1
      (shiftLoop b (b + 1) lo hi).2.1).1 := rfl
  have hr2 : (renorm b lo hi).2.1 = (underflowLoop b (b + 1) (shiftLoop b (b + 1) lo hi).1
      (shiftLoop b (b + 1) lo hi).2.1).2.1 := rfl
  rw [hr1, hr2, hr3, List.foldl_append, traceMap_append]
  obtain ⟨hX1, hl1, hh1⟩ := decShiftLoop_X hb hbits (b + 1) lo hi code pos h1 h2 h3
  have hP : (shiftLoop b (b + 1) lo hi).2.2.foldl (decApplyEvent b F) (code, pos) =
      (((shiftLoop b (b + 1) lo hi).2.2.foldl (decApplyEvent b F) (code, pos)).1,
       ((shiftLoop b (b + 1) lo hi).2.2.foldl (decApplyEvent b F) (code, pos)).2) := rfl
  rw [hP]
  obtain ⟨hX2, hl2, hh2⟩ := decUnderflowLoop_X hb hb63 hbits (b + 1)
    (shiftLoop b (b + 1) lo hi).1 (shiftLoop b (b + 1) lo hi).2.1
    ((shiftLoop b (b + 1) lo hi).2.2.foldl (decApplyEvent b F) (code, pos)).1
    ((shiftLoop b (b + 1) lo hi).2.2.foldl (decApplyEvent b F) (code, pos)).2
    hl1 hh1 hlt hsc
  refine ⟨?_, hl2, hh2⟩
  rw [hX2, hX1]

/-- The decoder constructor's `code` plus the unread rest of the stream
equals the scaled value of the whole stream. -/
theorem decInit_X {b : Nat} (F : List Nat) (hbits : ∀ x ∈ F, x ≤ 1) :
    ((decInit b F).code : ℚ) + restQ (F.drop b) = 2 ^ b * restQ F := by
  show (((List.range b).foldl (fun c i => c <<< 1 ||| readCodeBit F i) 0 : Nat) : ℚ) +
    restQ (F.drop b) = 2 ^ b * restQ F
  induction b with
  | zero => simp [restQ]
  | succ n ih =>
    rw [List.range_succ, List.foldl_append, List.foldl_cons, List.foldl_nil]
    have hbit := readCodeBit_le hbits n
    have hstep : ∀ c : Nat, (c <<< 1) ||| readCodeBit F n = 2 * c + readCodeBit F n := by
      intro c
      rw [Nat.shiftLeft_eq, pow_one, Nat.mul_comm c 2]
      exact even_or_bit (by omega) hbit
    rw [hstep]
    have hρ := restQ_drop_step F n
    push_cast
    push_cast at ih
    rw [pow_succ]
    linarith

/-- The freshly constructed encoder interval `[0, MASK]` satisfies the
strengthened invariant. -/
theorem encInit_postInv {b : Nat} (hb : 1 ≤ b) :
    PostInv b (encInit b).low (encInit b).high := by
  have hmask : MASK b = 2 ^ b - 1 := MASK_eq b
  have h2 : (2 : Nat) ^ 1 ≤ 2 ^ b := Nat.pow_le_pow_right (by norm_num) hb
  rw [pow_one] at h2
  have hhalf : (2 : Nat) ^ b = 2 * 2 ^ (b - 1) := by
    rw [← pow_succ']
    congr 1
    omega
  have hq : (0 : Nat) < 2 ^ (b - 1) := Nat.two_pow_pos _
  have hlow : (encInit b).low = 0 := rfl
  have hhigh : (encInit b).high = MASK b := rfl
  refine ⟨⟨?_, ?_, ?_, ?_⟩, ?_⟩
  · rw [hlow, hhigh, hmask]
    omega
  · rw [hhigh]
  · rw [hlow, hhigh, hmask]
    have h1 := MIN_RANGE_le_fullRange hb
    rw [fullRange_eq] at h1
    omega
  · rw [hlow, hhigh, hmask, fullRange_eq]
    omega
  · rw [hlow, hhigh]
    exact shiftCond_false_of_split hb hq (by omega) (by omega)

theorem encSteps_nil (b : Nat) (t : FreqTable) (s : EncoderState) :
    encSteps b t [] s = .ok s := rfl

theorem encSteps_cons (b : Nat) (t : FreqTable) (sym : Nat) (rest : List Nat)
    (s s1 : EncoderState) (h : encWrite b t sym s = .ok s1) :
    encSteps b t (sym :: rest) s = encSteps b t rest s1 := by
  show (sym :: rest).foldlM (fun s sym => encWrite b t sym s) s = encSteps b t rest s1
  rw [List.foldlM_cons, h]
  rfl

/-- One in-contract write succeeds and its result state is characterized by
the shared update; the written stream only grows and stays a bit stream. -/
theorem encWrite_step {b : Nat} (hb : 1 ≤ b) (hb63 : b ≤ 63) {t : FreqTable}
    {sym : Nat} {s : EncoderState} (hpost : PostInv b s.low s.high)
    (hok : SymOK b t sym) :
    ∃ s1, encWrite b t sym s = .ok s1 ∧
      s1.low = (renorm b (narrowLow t sym s.low s.high)
        (narrowHigh t sym s.low s.high)).1 ∧
      s1.high = (renorm b (narrowLow t sym s.low s.high)
        (narrowHigh t sym s.low s.high)).2.1 ∧
      s1.numUnderflow = ((renorm b (narrowLow t sym s.low s.high)
        (narrowHigh t sym s.low s.high)).2.2.foldl (encApplyEvent b)
          (s.numUnderflow, s.out)).1 ∧
      s1.out = ((renorm b (narrowLow t sym s.low s.high)
        (narrowHigh t sym s.low s.high)).2.2.foldl (encApplyEvent b)
          (s.numUnderflow, s.out)).2 ∧
      PostInv b s1.low s1.high ∧
      (∃ l0, s1.out = s.out ++ l0) ∧
      ((∀ x ∈ s.out, x ≤ 1) → ∀ x ∈ s1.out, x ≤ 1) := by
  obtain ⟨hw, hpost1⟩ := encWrite_ok hb hb63 hpost.1 hok
  obtain ⟨hupd, hn1, hn2, hn3⟩ := updateCore_ok hb hb63 hpost.1 hok
  have hhi_lt : s.high < 2 ^ b := by
    have hmask := hpost.1.2.1
    rw [MASK_eq] at hmask
    have h0 : (0 : Nat) < 2 ^ b := Nat.two_pow_pos _
    omega
  have hwf := renorm_trace_wf hb hn2 (lt_of_le_of_lt hn3 hhi_lt)
  refine ⟨_, hw, rfl, rfl, rfl, rfl, hpost1, ?_, ?_⟩
  · exact encFold_out_append b _ s.numUnderflow s.out
  · intro hsout
    exact encFold_bits hb _ s.numUnderflow s.out hsout hwf

/-- An in-contract symbol sequence encodes without error; the invariant is
preserved, the stream only grows and stays a bit stream. -/
theorem encSteps_ok {b : Nat} (hb : 1 ≤ b) (hb63 : b ≤ 63) {t : FreqTable}
    (hv : t.Valid) (htot : t.getTotal ≤ MAX_TOTAL b) :
    ∀ (syms : List Nat) (s : EncoderState), PostInv b s.low s.high →
    (∀ sym ∈ syms, sym < t.getSymbolLimit ∧ t.getLow sym < t.getHigh sym) →
    ∃ sf, encSteps b t syms s = .ok sf ∧ PostInv b sf.low sf.high ∧
      (∃ l, sf.out = s.out ++ l) ∧
      ((∀ x ∈ s.out, x ≤ 1) → ∀ x ∈ sf.out, x ≤ 1) := by
  intro syms
  induction syms with
  | nil =>
    intro s hpost _
    exact ⟨s, rfl, hpost, ⟨[], (List.append_nil _).symm⟩, fun h => h⟩
  | cons sym rest ih =>
    intro s hpost hsyms
    have hok : SymOK b t sym := ⟨hv, htot, (hsyms sym (List.mem_cons_self _ _)).1,
      (hsyms sym (List.mem_cons_self _ _)).2⟩
    obtain ⟨s1, hw, _, _, _, _, hpost1, ⟨l0, hout0⟩, hbits1⟩ :=
      encWrite_step hb hb63 hpost hok
    obtain ⟨sf, hsteps, hpostf, ⟨l, houtl⟩, hbitsf⟩ := ih s1 hpost1
      (fun x hx => hsyms x (List.mem_cons_of_mem _ hx))
    refine ⟨sf, ?_, hpostf, ?_, ?_⟩
    · rw [encSteps_cons b t sym rest s s1 hw]
      exact hsteps
    · exact ⟨l0 ++ l, by rw [houtl, hout0, List.append_assoc]⟩
    · intro hsout
      exact hbitsf (hbits1 hsout)

/-- Backward containment: at every point between writes, the scaled virtual
codeword of the eventual stream (emitted bits, then the finish bit 1, then
implicit zeros) lies in the coder's current interval `[low, high + 1)`. -/
theorem encX_interval {b : Nat} (hb : 1 ≤ b) (hb63 : b ≤ 63) {t : FreqTable}
    (hv : t.Valid) (htot : t.getTotal ≤ MAX_TOTAL b) (F : List Nat) :
    ∀ (syms : List Nat) (s sf : EncoderState), PostInv b s.low s.high →
    (∀ sym ∈ syms, sym < t.getSymbolLimit ∧ t.getLow sym < t.getHigh sym) →
    encSteps b t syms s = .ok sf → F = sf.out ++ [1] →
    (s.low : ℚ) ≤ 2 ^ b * yQ F s.out.length s.numUnderflow ∧
    2 ^ b * yQ F s.out.length s.numUnderflow < (s.high : ℚ) + 1 := by
  have hqq : (2 : ℚ) ^ b = 2 * 2 ^ (b - 1) := by
    rw [← pow_succ']
    congr 1
    omega
  intro syms
  induction syms with
  | nil =>
    intro s sf hpost _ hsteps hF
    obtain rfl : s = sf := Except.ok.inj hsteps
    have hdrop : F.drop s.out.length = [1] := by
      rw [hF]
      exact List.drop_left _ _
    have hyv : yQ F s.out.length s.numUnderflow = 1 / 2 := by
      rw [yQ, hdrop]
      have h1 : restQ [1] = 1 / 2 := by norm_num [restQ]
      rw [h1]
      ring
    rw [hyv]
    obtain ⟨⟨hlt, hmask, _, _⟩, hsc⟩ := hpost
    have h0 : (0 : Nat) < 2 ^ b := Nat.two_pow_pos _
    have hhi_lt : s.high < 2 ^ b := by
      rw [MASK_eq] at hmask
      omega
    have hlo_lt : s.low < 2 ^ b := by omega
    have hq : (0 : Nat) < 2 ^ (b - 1) := Nat.two_pow_pos _
    have hne : ¬ s.low / 2 ^ (b - 1) = s.high / 2 ^ (b - 1) := by
      intro he
      have := (shiftCond_iff hb hlo_lt hhi_lt).mpr he
      rw [hsc] at this
      exact Bool.noConfusion this
    have hdl := div_half_lt_two hb hlo_lt
    have hdh := div_half_lt_two hb hhi_lt
    have hdiv_le : s.low / 2 ^ (b - 1) ≤ s.high / 2 ^ (b - 1) :=
      Nat.div_le_div_right (le_of_lt hlt)
    have hl01 : s.low / 2 ^ (b - 1) = 0 ∧ s.high / 2 ^ (b - 1) = 1 := by
      revert hne hdl hdh hdiv_le
      generalize s.low / 2 ^ (b - 1) = dl
      generalize s.high / 2 ^ (b - 1) = dh
      intro hne hdl hdh hdiv_le
      omega
    have hlo_half : s.low < 2 ^ (b - 1) :=
      (Nat.div_eq_zero_iff (by omega)).mp hl01.1
    have hhi_half : 2 ^ (b - 1) ≤ s.high :=
      (Nat.one_le_div_iff hq).mp (by omega)
    have hcast : ((2 : ℚ)) ^ b * (1 / 2) = ((2 ^ (b - 1) : Nat) : ℚ) := by
      push_cast
      rw [hqq]
      ring
    constructor
    · rw [hcast]
      exact_mod_cast le_of_lt hlo_half
    · rw [hcast]
      have h2 : ((2 ^ (b - 1) : Nat) : ℚ) ≤ (s.high : ℚ) := by exact_mod_cast hhi_half
      linarith
  | cons sym rest ih =>
    intro s sf hpost hsyms hsteps hF
    have hok : SymOK b t sym := ⟨hv, htot, (hsyms sym (List.mem_cons_self _ _)).1,
      (hsyms sym (List.mem_cons_self _ _)).2⟩
    obtain ⟨s1, hw, hs1l, hs1h, hs1u, hs1o, hpost1, _, _⟩ :=
      encWrite_step hb hb63 hpost hok
    obtain ⟨hupd, hn1, hn2, hn3⟩ := updateCore_ok hb hb63 hpost.1 hok
    have hhi_lt : s.high < 2 ^ b := by
      have hmask := hpost.1.2.1
      rw [MASK_eq] at hmask
      have h0 : (0 : Nat) < 2 ^ b := Nat.two_pow_pos _
      omega
    have hnh_lt : narrowHigh t sym s.low s.high < 2 ^ b := lt_of_le_of_lt hn3 hhi_lt
    rw [encSteps_cons b t sym rest s s1 hw] at hsteps
    have hsyms2 : ∀ x ∈ rest, x < t.getSymbolLimit ∧ t.getLow x < t.getHigh x :=
      fun x hx => hsyms x (List.mem_cons_of_mem _ hx)
    obtain ⟨hle1, hlt1⟩ := ih s1 sf hpost1 hsyms2 hsteps hF
    obtain ⟨sf2, hsteps2, _, ⟨l, houtl⟩, _⟩ := encSteps_ok hb hb63 hv htot rest s1
      hpost1 hsyms2
    have hsf2 : sf2 = sf := by
      rw [hsteps] at hsteps2
      exact (Except.ok.inj hsteps2).symm
    have hFa : F = ((renorm b (narrowLow t sym s.low s.high)
        (narrowHigh t sym s.low s.high)).2.2.foldl (encApplyEvent b)
          (s.numUnderflow, s.out)).2 ++ (l ++ [1]) := by
      rw [hF, ← hsf2, houtl, hs1o, List.append_assoc]
    have hren := renorm_yQ hb F hn2 hnh_lt s.numUnderflow s.out (l ++ [1]) hFa
    rw [hs1o, hs1u] at hle1 hlt1
    rw [hs1l] at hle1
    rw [hs1h] at hlt1
    rw [hren] at hle1 hlt1
    obtain ⟨haf1, haf2⟩ := renorm_affine hb hb63 hn2 hnh_lt
    rw [haf1] at hle1
    rw [haf2] at hlt1
    have hXle := (traceMap_le_iff b _ _ _).mp hle1
    have hXlt := (traceMap_lt_iff b _ _ _).mp hlt1
    constructor
    · have hc1 : (s.low : ℚ) ≤ ((narrowLow t sym s.low s.high : Nat) : ℚ) := by
        exact_mod_cast hn1
      linarith
    · have hc2 : ((narrowHigh t sym s.low s.high : Nat) : ℚ) ≤ (s.high : ℚ) := by
        exact_mod_cast hn3
      linarith

/-- Forward simulation: a decoder whose window matches the encoder's
interval and whose `code` plus unread stream equals the encoder's scaled
virtual codeword decodes exactly the remaining symbol sequence. -/
theorem decode_sim {b : Nat} (hb : 1 ≤ b) (hb63 : b ≤ 63) {t : FreqTable}
    (hv : t.Valid) (htot : t.getTotal ≤ MAX_TOTAL b)
    (hlim : t.getSymbolLimit ≤ 2 ^ 31) {F : List Nat}
    (hbitsF : ∀ x ∈ F, x ≤ 1) {f : Nat} (hf : 31 ≤ f) :
    ∀ (syms : List Nat) (s sf : EncoderState) (d : DecoderState),
    PostInv b s.low s.high →
    (∀ sym ∈ syms, sym < t.getSymbolLimit ∧ t.getLow sym < t.getHigh sym) →
    encSteps b t syms s = .ok sf → F = sf.out ++ [1] →
    d.low = s.low → d.high = s.high → d.low ≤ d.code → d.code ≤ d.high →
    (d.code : ℚ) + restQ (F.drop d.pos) = 2 ^ b * yQ F s.out.length s.numUnderflow →
    ∃ d2, decReadN b t F f syms.length d = some (.ok (syms, d2)) := by
  intro syms
  induction syms with
  | nil =>
    intro s sf d _ _ _ _ _ _ _ _ _
    exact ⟨d, rfl⟩
  | cons sym rest ih =>
    intro s sf d hpost hsyms hsm hF hdl hdh hc1 hc2 hX
    have hsymlt : sym < t.getSymbolLimit := (hsyms sym (List.mem_cons_self _ _)).1
    have hok : SymOK b t sym := ⟨hv, htot, hsymlt,
      (hsyms sym (List.mem_cons_self _ _)).2⟩
    have htpos : 0 < t.getTotal := symOK_total_pos hok
    have hsyms2 : ∀ x ∈ rest, x < t.getSymbolLimit ∧ t.getLow x < t.getHigh x :=
      fun x hx => hsyms x (List.mem_cons_of_mem _ hx)
    obtain ⟨s1, hw, hs1l, hs1h, hs1u, hs1o, hpost1, _, _⟩ :=
      encWrite_step hb hb63 hpost hok
    obtain ⟨hupd, hn1, hn2, hn3⟩ := updateCore_ok hb hb63 hpost.1 hok
    have hhi_lt : s.high < 2 ^ b := by
      have hmask := hpost.1.2.1
      rw [MASK_eq] at hmask
      have h0 : (0 : Nat) < 2 ^ b := Nat.two_pow_pos _
      omega
    have hnh_lt : narrowHigh t sym s.low s.high < 2 ^ b := lt_of_le_of_lt hn3 hhi_lt
    rw [encSteps_cons b t sym rest s s1 hw] at hsm
    -- backward containment at the post-write state, pulled back through the trace
    obtain ⟨hle1, hlt1⟩ := encX_interval hb hb63 hv htot F rest s1 sf hpost1
      hsyms2 hsm hF
    obtain ⟨sf2, hsteps2, _, ⟨l, houtl⟩, _⟩ := encSteps_ok hb hb63 hv htot rest s1
      hpost1 hsyms2
    have hsf2 : sf2 = sf := by
      rw [hsm] at hsteps2
      exact (Except.ok.inj hsteps2).symm
    have hFa : F = ((renorm b (narrowLow t sym s.low s.high)
        (narrowHigh t sym s.low s.high)).2.2.foldl (encApplyEvent b)
          (s.numUnderflow, s.out)).2 ++ (l ++ [1]) := by
      rw [hF, ← hsf2, houtl, hs1o, List.append_assoc]
    have hren := renorm_yQ hb F hn2 hnh_lt s.numUnderflow s.out (l ++ [1]) hFa
    rw [hs1o, hs1u] at hle1 hlt1
    rw [hs1l] at hle1
    rw [hs1h] at hlt1
    rw [hren] at hle1 hlt1
    obtain ⟨haf1, haf2⟩ := renorm_affine hb hb63 hn2 hnh_lt
    rw [haf1] at hle1
    rw [haf2] at hlt1
    have hXle := (traceMap_le_iff b _ _ _).mp hle1
    have hXlt := (traceMap_lt_iff b _ _ _).mp hlt1
    rw [← hX] at hXle hXlt
    -- the decoder's code is in the narrowed window (integrally)
    have hρ0 : 0 ≤ restQ (F.drop d.pos) := restQ_nonneg _
    have hρ1 : restQ (F.drop d.pos) < 1 :=
      restQ_lt_one (fun x hx => hbitsF x (List.drop_subset _ _ hx))
    have hnl_code : narrowLow t sym s.low s.high ≤ d.code := by
      have h1 : ((narrowLow t sym s.low s.high : Nat) : ℚ) < (d.code : ℚ) + 1 := by
        linarith
      have h2 : narrowLow t sym s.low s.high < d.code + 1 := by exact_mod_cast h1
      omega
    have hcode_nh : d.code ≤ narrowHigh t sym s.low s.high := by
      have h1 : (d.code : ℚ) < ((narrowHigh t sym s.low s.high : Nat) : ℚ) + 1 := by
        linarith
      have h2 : (d.code : ℚ) < ((narrowHigh t sym s.low s.high + 1 : Nat) : ℚ) := by
        push_cast
        linarith
      have h3 : d.code < narrowHigh t sym s.low s.high + 1 := by exact_mod_cast h2
      omega
    -- translate to the offset window and identify the searched symbol
    have hnl_d : narrowLow t sym d.low d.high = narrowLow t sym s.low s.high := by
      rw [hdl, hdh]
    have hnh_d : narrowHigh t sym d.low d.high = narrowHigh t sym s.low s.high := by
      rw [hdl, hdh]
    have hlo_nl : d.low ≤ narrowLow t sym d.low d.high := by
      rw [hnl_d, hdl]
      exact hn1
    have hnl_nh : narrowLow t sym d.low d.high ≤ narrowHigh t sym d.low d.high := by
      rw [hnl_d, hnh_d]
      exact hn2
    have hnlv : narrowLow t sym d.low d.high =
        d.low + t.getLow sym * (d.high - d.low + 1) / t.getTotal := rfl
    have hnhv : narrowHigh t sym d.low d.high =
        d.low + t.getHigh sym * (d.high - d.low + 1) / t.getTotal - 1 := rfl
    have hnl_code2 : narrowLow t sym d.low d.high ≤ d.code := by
      rw [hnl_d]
      exact hnl_code
    have hcode_nh2 : d.code ≤ narrowHigh t sym d.low d.high := by
      rw [hnh_d]
      exact hcode_nh
    have hr : 0 < d.high - d.low + 1 := by omega
    have hminr : MIN_RANGE b ≤ d.high - d.low + 1 := by
      rw [hdl, hdh]
      exact hpost.1.2.2.1
    have htr : t.getTotal ≤ d.high - d.low + 1 :=
      le_trans (le_trans htot (min_le_right _ _)) hminr
    have hgh1 : 1 ≤ t.getHigh sym := by
      have := hok.2.2.2
      omega
    have hXge : 1 ≤ t.getHigh sym * (d.high - d.low + 1) / t.getTotal := by
      rw [Nat.one_le_div_iff htpos]
      calc t.getTotal ≤ d.high - d.low + 1 := htr
      _ ≤ t.getHigh sym * (d.high - d.low + 1) :=
        Nat.le_mul_of_pos_left _ (by omega)
    have habs : ∀ L C X Y : Nat, L + Y ≤ C → C ≤ L + X - 1 → 1 ≤ X →
        Y ≤ C - L ∧ C - L < X := by
      intro L C X Y h1 h2 h3
      omega
    have hwin : t.getLow sym * (d.high - d.low + 1) / t.getTotal ≤ d.code - d.low ∧
        d.code - d.low < t.getHigh sym * (d.high - d.low + 1) / t.getTotal := by
      rw [hnlv] at hnl_code2
      rw [hnhv] at hcode_nh2
      exact habs d.low d.code _ _ hnl_code2 hcode_nh2 hXge
    obtain ⟨hvlo, hvhi⟩ := value_in_symbol htpos hr hwin.1 hwin.2
    have hsh_le : t.getHigh sym ≤ t.getTotal := valid_getHigh_le_total hv hsymlt
    have hval_lt : ((d.code - d.low + 1) * t.getTotal - 1) / (d.high - d.low + 1) <
        t.getTotal := lt_of_lt_of_le hvhi hsh_le
    obtain ⟨st, hsL, hstlt, hstl, hsth⟩ := searchLoop_full hv hlim hval_lt hf
    have hst : st = sym := symbol_unique hv hstlt hsymlt hstl hsth hvlo hvhi
    rw [hst] at hsL
    have hdinv : DecInv b d := by
      refine ⟨?_, hc1, hc2⟩
      rw [hdl, hdh]
      exact hpost
    obtain ⟨hnone, hsome⟩ := decRead_run hb hb63 hv htot htpos hbitsF hdinv
    obtain ⟨hok2, hnlc, hnhc, d1, hread, hd1l, hd1h, hd1cp, hdinv1⟩ :=
      hsome sym (sym + 1) hsL
    obtain ⟨hdX, _, _⟩ := decRenorm_X hb hb63 hbitsF d.pos hnl_code2 hcode_nh2
      (by rw [hnh_d]; exact hnh_lt)
    rw [hnl_d, hnh_d] at hdX hd1l hd1h hd1cp
    obtain ⟨hd1code, hd1pos⟩ := (Prod.mk.injEq _ _ _ _).mp hd1cp
    have hX1 : (d1.code : ℚ) + restQ (F.drop d1.pos) =
        2 ^ b * yQ F s1.out.length s1.numUnderflow := by
      rw [hd1code, hd1pos, hdX, hX, hs1o, hs1u]
      exact hren.symm
    obtain ⟨d2, hrec⟩ := ih s1 sf d1 hpost1 hsyms2 hsm hF
      (by rw [hd1l, hs1l]) (by rw [hd1h, hs1h]) hdinv1.2.1 hdinv1.2.2 hX1
    refine ⟨d2, ?_⟩
    show decReadN b t F f (sym :: rest).length d = some (.ok (sym :: rest, d2))
    rw [List.length_cons]
    simp only [decReadN]
    rw [hread]
    dsimp only
    rw [hrec]

/-- A successful saturating hook fold agrees with the non-throwing fold. -/
theorem encFoldS_ok {b UMAX : Nat} :
    ∀ (evs : List REvent) (p q : Nat × List Nat),
    evs.foldlM (encApplyEventS b UMAX) p = .ok q →
    evs.foldl (encApplyEvent b) p = q := by
  intro evs
  induction evs with
  | nil =>
    intro p q h
    exact Except.ok.inj h
  | cons e evs ih =>
    intro p q h
    rw [List.foldlM_cons] at h
    rw [List.foldl_cons]
    cases e with
    | shiftEv lo hi =>
      exact ih _ _ h
    | underflowEv lo hi =>
      by_cases hc : p.1 = UMAX
      · rw [show encApplyEventS b UMAX p (.underflowEv lo hi) =
            .error .underflowOverflow from by simp [encApplyEventS, hc]] at h
        exact Except.noConfusion h
      · rw [show encApplyEventS b UMAX p (.underflowEv lo hi) =
            .ok (p.1 + 1, p.2) from by simp [encApplyEventS, hc]] at h
        exact ih _ _ h

/-- The saturating hook fold fails only with the overflow error. -/
theorem encFoldS_err {b UMAX : Nat} :
    ∀ (evs : List REvent) (p : Nat × List Nat) (e : CoderError),
    evs.foldlM (encApplyEventS b UMAX) p = .error e → e = .underflowOverflow := by
  intro evs
  induction evs with
  | nil =>
    intro p e h
    exact Except.noConfusion h
  | cons ev evs ih =>
    intro p e h
    rw [List.foldlM_cons] at h
    cases ev with
    | shiftEv lo hi =>
      exact ih _ _ h
    | underflowEv lo hi =>
      by_cases hc : p.1 = UMAX
      · rw [show encApplyEventS b UMAX p (.underflowEv lo hi) =
            .error .underflowOverflow from by simp [encApplyEventS, hc]] at h
        exact (Except.error.inj h).symm
      · rw [show encApplyEventS b UMAX p (.underflowEv lo hi) =
            .ok (p.1 + 1, p.2) from by simp [encApplyEventS, hc]] at h
        exact ih _ _ h

/-- A successful saturating write agrees with the non-throwing
`encWrite`. -/
theorem encWriteS_ok {b UMAX : Nat} {t : FreqTable} {sym : Nat}
    {s s1 : EncoderState} (h : encWriteS b UMAX t sym s = .ok s1) :
    encWrite b t sym s = .ok s1 := by
  rcases hu : updateCore b t sym s.low s.high with e | ⟨lo, hi, evs⟩
  · simp only [encWriteS] at h
    rw [hu] at h
    exact Except.noConfusion h
  · simp only [encWriteS] at h
    rw [hu] at h
    dsimp only at h
    simp only [encWrite]
    rw [hu]
    dsimp only
    rcases hf : evs.foldlM (encApplyEventS b UMAX) (s.numUnderflow, s.out) with e2 | r
    · rw [hf] at h
      exact Except.noConfusion h
    · rw [hf] at h
      dsimp only at h
      rw [encFoldS_ok evs _ _ hf]
      exact h

/-- On an in-contract write the saturating encoder either succeeds or
fails with the overflow error. -/
theorem encWriteS_classify {b : Nat} (UMAX : Nat) {t : FreqTable} {sym : Nat}
    {s : EncoderState} (hb : 1 ≤ b) (hb63 : b ≤ 63)
    (hinv : StateInv b s.low s.high) (hok : SymOK b t sym) :
    (∃ s1, encWriteS b UMAX t sym s = .ok s1) ∨
    encWriteS b UMAX t sym s = .error .underflowOverflow := by
  obtain ⟨hupd, _, _, _⟩ := updateCore_ok hb hb63 hinv hok
  have hupd2 : updateCore b t sym s.low s.high = .ok
      ((renorm b (narrowLow t sym s.low s.high) (narrowHigh t sym s.low s.high)).1,
       (renorm b (narrowLow t sym s.low s.high) (narrowHigh t sym s.low s.high)).2.1,
       (renorm b (narrowLow t sym s.low s.high)
         (narrowHigh t sym s.low s.high)).2.2) := by
    rw [hupd]
  simp only [encWriteS]
  rw [hupd2]
  dsimp only
  rcases hf : (renorm b (narrowLow t sym s.low s.high)
      (narrowHigh t sym s.low s.high)).2.2.foldlM (encApplyEventS b UMAX)
      (s.numUnderflow, s.out) with e | r
  · right
    rw [encFoldS_err _ _ _ hf]
  · left
    exact ⟨_, rfl⟩

/-- A successful saturating encoding agrees with the non-throwing one. -/
theorem encStepsS_ok {b UMAX : Nat} {t : FreqTable} :
    ∀ (syms : List Nat) (s sf : EncoderState),
    encStepsS b UMAX t syms s = .ok sf → encSteps b t syms s = .ok sf := by
  intro syms
  induction syms with
  | nil =>
    intro s sf h
    exact h
  | cons sym rest ih =>
    intro s sf h
    simp only [encStepsS, List.foldlM_cons] at h
    rcases hw : encWriteS b UMAX t sym s with e | s1
    · rw [hw] at h
      exact Except.noConfusion h
    · rw [hw] at h
      rw [encSteps_cons b t sym rest s s1 (encWriteS_ok hw)]
      exact ih s1 sf h

/-- On in-contract input the saturating encoding either completes or fails
with the overflow error — no other outcome is possible. -/
theorem encStepsS_classify {b : Nat} (UMAX : Nat) (hb : 1 ≤ b) (hb63 : b ≤ 63)
    {t : FreqTable} (hv : t.Valid) (htot : t.getTotal ≤ MAX_TOTAL b) :
    ∀ (syms : List Nat) (s : EncoderState), PostInv b s.low s.high →
    (∀ sym ∈ syms, sym < t.getSymbolLimit ∧ t.getLow sym < t.getHigh sym) →
    (∃ sf, encStepsS b UMAX t syms s = .ok sf) ∨
    encStepsS b UMAX t syms s = .error .underflowOverflow := by
  intro syms
  induction syms with
  | nil =>
    intro s _ _
    exact Or.inl ⟨s, rfl⟩
  | cons sym rest ih =>
    intro s hpost hsyms
    have hok : SymOK b t sym := ⟨hv, htot, (hsyms sym (List.mem_cons_self _ _)).1,
      (hsyms sym (List.mem_cons_self _ _)).2⟩
    rcases encWriteS_classify UMAX hb hb63 hpost.1 hok with ⟨s1, hw⟩ | hw
    · have hw2 := encWriteS_ok hw
      obtain ⟨s1b, hwb, _, _, _, _, hpost1, _, _⟩ := encWrite_step hb hb63 hpost hok
      have hs1 : s1 = s1b := by
        rw [hw2] at hwb
        exact Except.ok.inj hwb
      subst hs1
      rcases ih s1 hpost1 (fun x hx => hsyms x (List.mem_cons_of_mem _ hx)) with
        ⟨sf, hsf⟩ | hsf
      · left
        refine ⟨sf, ?_⟩
        simp only [encStepsS, List.foldlM_cons]
        rw [hw]
        exact hsf
      · right
        simp only [encStepsS, List.foldlM_cons]
        rw [hw]
        exact hsf
    · right
      simp only [encStepsS, List.foldlM_cons]
      rw [hw]
      rfl

/-- **C1 counterexample**: the claim quantifies over every contract table
with `total ≤ maxTotal`.  On the contract-valid table `badT`
(symbolLimit = 2^32 - 1, all mass on the last symbol, total 1 ≤ maxTotal)
at state size 32, encoding the one-symbol sequence [last symbol] succeeds
— with the saturating underflow hook, for any counter maximum, since this
write defers no underflow bits (2^64 - 1 shown) — and produces the single
bit 1, but decoding that stream never returns: the decoder's binary search
loop cycles forever (`middle = (start+end) >> 1` wraps in `uint32_t`), so
`decode(encode(S))` does not return `S`. -/
theorem C1_counterexample :
    badT.Valid ∧ 0 < badT.getTotal ∧ badT.getTotal ≤ MAX_TOTAL 32 ∧
    badT.getLow (badT.getSymbolLimit - 1) < badT.getHigh (badT.getSymbolLimit - 1) ∧
    encodeSeqS 32 18446744073709551615 badT [badT.getSymbolLimit - 1] =
      .ok ⟨0, 4294967295, 0, [1]⟩ ∧
    ¬ ∃ f r, decRead 32 badT [1] f (decInit 32 [1]) = some r := by
  refine ⟨badT_valid, by decide, by decide, by decide, by rfl, ?_⟩
  rintro ⟨f, r, hr⟩
  have hdinv : DecInv 32 (decInit 32 [1]) :=
    decInit_inv (by norm_num) [1] (by decide)
  obtain ⟨hnone, _⟩ := decRead_run (f := f) (by norm_num) (by norm_num) badT_valid
    (by decide) (by decide) (show ∀ x ∈ ([1] : List Nat), x ≤ 1 from by decide) hdinv
  have hvz : (((decInit 32 [1]).code - (decInit 32 [1]).low + 1) * badT.getTotal - 1) /
      ((decInit 32 [1]).high - (decInit 32 [1]).low + 1) = 0 := by decide
  have hlimr : badT.getSymbolLimit = U32 - 1 := rfl
  have hd : decRead 32 badT [1] f (decInit 32 [1]) = none := by
    refine hnone ?_
    rw [hvz, hlimr]
    exact badT_searchLoop_none f 0 (by norm_num)
  rw [hd] at hr
  exact Option.noConfusion hr

/-- **C1 (amended)**: for every state size `b` in [1, 63], every contract
table with `total ≤ maxTotal` and `symbolLimit ≤ 2^31` (the claim's full
generality fails: a table with larger symbolLimit can make the decoder's
`uint32_t` binary search cycle forever), every finite symbol sequence of
nonzero-frequency symbols, and every representable maximum `UMAX` of the
underflow counter: the encoder (one write per symbol, then finish) either
completes or fails with the counter's `overflow_error` — no other failure
is possible — and whenever it completes, decoding the produced bit stream
with the same state size and table — reading past end-of-stream as 0 bits
— returns exactly the sequence, symbol by symbol (search fuel 31 suffices
for every read). -/
theorem C1_roundtrip {b : Nat} (hb : 1 ≤ b) (hb63 : b ≤ 63) (UMAX : Nat)
    {t : FreqTable} (hv : t.Valid) (htot : t.getTotal ≤ MAX_TOTAL b)
    (hlim : t.getSymbolLimit ≤ 2 ^ 31) {syms : List Nat}
    (hsyms : ∀ sym ∈ syms, sym < t.getSymbolLimit ∧ t.getLow sym < t.getHigh sym)
    {f : Nat} (hf : 31 ≤ f) :
    ((∃ s1, encodeSeqS b UMAX t syms = .ok s1) ∨
      encodeSeqS b UMAX t syms = .error .underflowOverflow) ∧
    ∀ s1, encodeSeqS b UMAX t syms = .ok s1 →
      ∃ d2, decReadN b t s1.out f syms.length (decInit b s1.out) =
        some (.ok (syms, d2)) := by
  constructor
  · rcases encStepsS_classify UMAX hb hb63 hv htot syms (encInit b)
      (encInit_postInv hb) hsyms with ⟨sf, hsf⟩ | hsf
    · left
      refine ⟨encFinish sf, ?_⟩
      simp only [encodeSeqS]
      rw [hsf]
    · right
      simp only [encodeSeqS]
      rw [hsf]
  intro s1 hs1
  rcases hst : encStepsS b UMAX t syms (encInit b) with e | sf
  · simp only [encodeSeqS] at hs1
    rw [hst] at hs1
    exact Except.noConfusion hs1
  simp only [encodeSeqS] at hs1
  rw [hst] at hs1
  have hs1e : s1 = encFinish sf := (Except.ok.inj hs1).symm
  have hsteps : encSteps b t syms (encInit b) = .ok sf :=
    encStepsS_ok syms (encInit b) sf hst
  obtain ⟨sf2, hsteps2, hpostf, ⟨l, houtl⟩, hbitsf⟩ := encSteps_ok hb hb63 hv htot
    syms (encInit b) (encInit_postInv hb) hsyms
  have hsf2 : sf2 = sf := by
    rw [hsteps] at hsteps2
    exact (Except.ok.inj hsteps2).symm
  rw [hsf2] at hbitsf
  have hbitsF : ∀ x ∈ sf.out ++ [1], x ≤ 1 := by
    intro x hx
    rcases List.mem_append.mp hx with h | h
    · exact hbitsf (fun y hy => absurd hy (List.not_mem_nil _)) x h
    · rw [List.mem_singleton.mp h]
  have hout : s1.out = sf.out ++ [1] := by
    rw [hs1e]
    rfl
  rw [hout]
  have hX0 : ((decInit b (sf.out ++ [1])).code : ℚ) +
      restQ ((sf.out ++ [1]).drop (decInit b (sf.out ++ [1])).pos) =
      2 ^ b * yQ (sf.out ++ [1]) (encInit b).out.length (encInit b).numUnderflow := by
    have hpos : (decInit b (sf.out ++ [1])).pos = b := rfl
    rw [hpos]
    have h1 := decInit_X (b := b) (sf.out ++ [1]) hbitsF
    show ((decInit b (sf.out ++ [1])).code : ℚ) +
        restQ ((sf.out ++ [1]).drop b) = 2 ^ b * yQ (sf.out ++ [1]) 0 0
    rw [show yQ (sf.out ++ [1]) 0 0 = restQ (sf.out ++ [1]) from by
      rw [yQ_zero, List.drop_zero]]
    exact h1
  have hcode_le : (decInit b (sf.out ++ [1])).code ≤ (decInit b (sf.out ++ [1])).high := by
    have h1 := decInit_code_lt (b := b) (sf.out ++ [1]) hbitsF
    have h2 : (decInit b (sf.out ++ [1])).high = MASK b := rfl
    rw [h2, MASK_eq]
    omega
  obtain ⟨d2, hdec⟩ := decode_sim hb hb63 hv htot hlim hbitsF hf syms (encInit b)
    sf (decInit b (sf.out ++ [1])) (encInit_postInv hb) hsyms hsteps rfl rfl rfl
    (Nat.zero_le _) hcode_le hX0
  exact ⟨d2, hdec⟩

/-- Witness for C1 (amended) on the section-8 scenario: table `{1, 1, 2}`
(total 4) at state size 32, counter maximum 2^64 - 1, sequence
A C B C A = [0, 2, 1, 2, 0]; the saturating encoder completes with the
nine-bit stream 001011001, and decoding it returns the sequence. -/
theorem C1_roundtrip_witness :
    ∃ d2, decReadN 32 exT [0, 0, 1, 0, 1, 1, 0, 0, 1] 31 5
        (decInit 32 [0, 0, 1, 0, 1, 1, 0, 0, 1]) =
      some (.ok ([0, 2, 1, 2, 0], d2)) :=
  (C1_roundtrip (b := 32) (t := exT) (f := 31) (by norm_num) (by norm_num)
      18446744073709551615 (by decide) (by decide) (by decide)
      (show ∀ sym ∈ ([0, 2, 1, 2, 0] : List Nat),
        sym < exT.getSymbolLimit ∧ exT.getLow sym < exT.getHigh sym from by decide)
      (by norm_num)).2
    ⟨0, 4294967295, 0, [0, 0, 1, 0, 1, 1, 0, 0, 1]⟩ (by rfl)

end ArithCoding
